import Mathlib

/-!
statblock: a verification development

A shallow embedding of `main.go` (kotajacob/statblock): the `Monster` record,
the attribute collector `Monster.getAttrs`, the record formatter
`Monster.String`, the tree walk of `renderHTML` and the text normalisation
steps that follow it.

Go strings are embedded as Lean `String`s (sequences of runes).
-/

namespace Statblock

/-! ## Strings -/

/-- Go's `unicode.IsSpace`: the Latin-1 spaces and the runes with the Unicode
White_Space property. -/
def isSpace (c : Char) : Bool :=
  c = '\t' || c = '\n' || c = '\x0b' || c = '\x0c' || c = '\r' || c = ' ' ||
  c.val = 0x85 || c.val = 0xA0 || c.val = 0x1680 ||
  (0x2000 ≤ c.val && c.val ≤ 0x200a) ||
  c.val = 0x2028 || c.val = 0x2029 || c.val = 0x202f || c.val = 0x205f ||
  c.val = 0x3000

/-- Go's `strings.TrimSpace` on a list of runes: leading and trailing white
space removed. -/
def trimSpaceChars (cs : List Char) : List Char :=
  ((cs.dropWhile isSpace).reverse.dropWhile isSpace).reverse

/-- Go's `strings.TrimSpace`. -/
def TrimSpace (s : String) : String := ⟨trimSpaceChars s.data⟩

/-! ## The record (main.go, lines 27-52) -/

/-- The `Monster` struct; the field `Type` is written `Type_`, `Type` being
reserved. -/
structure Monster where
  Name : String
  Description : String
  Size : String
  Type_ : String
  Alignment : String
  AC : String
  HP : String
  Speed : String
  STR : String
  DEX : String
  CON : String
  INT : String
  WIS : String
  CHA : String
  Skills : String
  Saves : String
  Senses : String
  Languages : String
  Challenge : String
  Proficiency : String
  deriving DecidableEq, Repr

/-- The zero value of `Monster` (`var m Monster`): every field the empty
string. -/
def Monster.zero : Monster :=
  ⟨"", "", "", "", "", "", "", "", "", "", "", "", "", "", "", "", "", "", "", ""⟩

/-! ## The attribute collector (main.go, lines 159-201) -/

/-- The part of `colly.HTMLElement` that `getAttrs` reads: `ChildText sel` is
the text of the children matching the selector `sel`. -/
structure HTMLElement where
  ChildText : String → String

/-- The local variable `attr` of `getAttrs` (line 160). -/
def HTMLElement.attr (e : HTMLElement) : String :=
  TrimSpace (e.ChildText ".attrName")

/-- The local variable `value` of `getAttrs` (line 161). -/
def HTMLElement.value (e : HTMLElement) : String :=
  TrimSpace (e.ChildText ".attrValue")

/-- An attribute item whose name child holds `name` and whose value child
holds `value`. -/
def HTMLElement.item (name value : String) : HTMLElement :=
  ⟨fun sel => if sel = ".attrName" then name else if sel = ".attrValue" then value else ""⟩

/-- The `switch attr` statement of `getAttrs` (lines 162-200) on the trimmed
label `attr` and the trimmed `value`: the record after it. -/
def Monster.getAttrsSwitch (m : Monster) (attr value : String) : Monster :=
  if attr = "Size" then { m with Size := value }
  else if attr = "Type" then { m with Type_ := value }
  else if attr = "Alignment" then { m with Alignment := value }
  else if attr = "AC" then { m with AC := value }
  else if attr = "HP" then { m with HP := value }
  else if attr = "Speed" then { m with Speed := value }
  else if attr = "STR" then { m with STR := value }
  else if attr = "DEX" then { m with DEX := value }
  else if attr = "CON" then { m with CON := value }
  else if attr = "INT" then { m with INT := value }
  else if attr = "WIS" then { m with WIS := value }
  else if attr = "CHA" then { m with CHA := value }
  else if attr = "Skills" then { m with Skills := value }
  else if attr = "Saving Throws" then { m with Saves := value }
  else if attr = "Passive Perception" then { m with Senses := "passive Perception " ++ value }
  else if attr = "Languages" then { m with Languages := value }
  else if attr = "Challenge Rating" then { m with Challenge := value }
  else if attr = "Proficiency" then { m with Proficiency := value }
  else m

/-- The method `(m *Monster) getAttrs(e)`: the record after the call. -/
def Monster.getAttrs (m : Monster) (e : HTMLElement) : Monster :=
  let attr := TrimSpace (e.ChildText ".attrName")
  let value := TrimSpace (e.ChildText ".attrValue")
  m.getAttrsSwitch attr value

/-- The collector run over the attribute items in source order (the callback
registered at line 89 is called once per item). -/
def collect (m : Monster) (es : List HTMLElement) : Monster :=
  es.foldl Monster.getAttrs m

/-- The 18 labels of the `switch` in `getAttrs`. -/
def mappedLabels : List String :=
  ["Size", "Type", "Alignment", "AC", "HP", "Speed", "STR", "DEX", "CON", "INT",
   "WIS", "CHA", "Skills", "Saving Throws", "Passive Perception", "Languages",
   "Challenge Rating", "Proficiency"]

/-! ## The cases of the switch, for the proofs -/

/-- The record fields the switch of `getAttrs` can assign. -/
inductive Field
  | Size | Type_ | Alignment | AC | HP | Speed | STR | DEX | CON | INT | WIS | CHA
  | Skills | Saves | Senses | Languages | Challenge | Proficiency
  deriving DecidableEq

/-- The label whose case assigns the field. -/
def Field.label : Field → String
  | .Size => "Size" | .Type_ => "Type" | .Alignment => "Alignment" | .AC => "AC"
  | .HP => "HP" | .Speed => "Speed" | .STR => "STR" | .DEX => "DEX" | .CON => "CON"
  | .INT => "INT" | .WIS => "WIS" | .CHA => "CHA" | .Skills => "Skills"
  | .Saves => "Saving Throws" | .Senses => "Passive Perception"
  | .Languages => "Languages" | .Challenge => "Challenge Rating"
  | .Proficiency => "Proficiency"

/-- The case of the switch a label selects, if any. -/
def fieldOf (a : String) : Option Field :=
  if a = "Size" then some .Size
  else if a = "Type" then some .Type_
  else if a = "Alignment" then some .Alignment
  else if a = "AC" then some .AC
  else if a = "HP" then some .HP
  else if a = "Speed" then some .Speed
  else if a = "STR" then some .STR
  else if a = "DEX" then some .DEX
  else if a = "CON" then some .CON
  else if a = "INT" then some .INT
  else if a = "WIS" then some .WIS
  else if a = "CHA" then some .CHA
  else if a = "Skills" then some .Skills
  else if a = "Saving Throws" then some .Saves
  else if a = "Passive Perception" then some .Senses
  else if a = "Languages" then some .Languages
  else if a = "Challenge Rating" then some .Challenge
  else if a = "Proficiency" then some .Proficiency
  else none

/-- The assignment a case of the switch makes. -/
def Field.assign (m : Monster) (v : String) : Field → Monster
  | .Size => { m with Size := v } | .Type_ => { m with Type_ := v }
  | .Alignment => { m with Alignment := v } | .AC => { m with AC := v }
  | .HP => { m with HP := v } | .Speed => { m with Speed := v }
  | .STR => { m with STR := v } | .DEX => { m with DEX := v }
  | .CON => { m with CON := v } | .INT => { m with INT := v }
  | .WIS => { m with WIS := v } | .CHA => { m with CHA := v }
  | .Skills => { m with Skills := v } | .Saves => { m with Saves := v }
  | .Senses => { m with Senses := "passive Perception " ++ v }
  | .Languages => { m with Languages := v } | .Challenge => { m with Challenge := v }
  | .Proficiency => { m with Proficiency := v }

/-! ## The record formatter (main.go, lines 203-262) -/

/-- The method `(m Monster) String()`: `b` is the `strings.Builder`, each
line one `WriteString`. -/
def Monster.String (m : Monster) : String :=
  let b := ""
  let b := b ++ m.Description
  let b := b ++ "\n\n"
  let b := b ++ "# Stats\n"
  let b := b ++ m.Size
  let b := b ++ " "
  let b := b ++ m.Type_
  let b := b ++ " "
  let b := b ++ m.Alignment
  let b := b ++ "\n```\n"
  let b := b ++ "Armor Class "
  let b := b ++ m.AC
  let b := b ++ "\n"
  let b := b ++ "Hit Points "
  let b := b ++ m.HP
  let b := b ++ "\n"
  let b := b ++ "Speed "
  let b := b ++ m.Speed
  let b := b ++ "\n"
  let b := b ++ "STR "
  let b := b ++ m.STR
  let b := b ++ "\n"
  let b := b ++ "DEX "
  let b := b ++ m.DEX
  let b := b ++ "\n"
  let b := b ++ "CON "
  let b := b ++ m.CON
  let b := b ++ "\n"
  let b := b ++ "INT "
  let b := b ++ m.INT
  let b := b ++ "\n"
  let b := b ++ "WIS "
  let b := b ++ m.WIS
  let b := b ++ "\n"
  let b := b ++ "CHA "
  let b := b ++ m.CHA
  let b := b ++ "\n```\n"
  let b := if m.Skills ≠ "" then b ++ "*Skills* " ++ m.Skills ++ "\n" else b
  let b := if m.Senses ≠ "" then b ++ "*Senses* " ++ m.Senses ++ "\n" else b
  let b := if m.Languages ≠ "" then b ++ "*Languages* " ++ m.Languages ++ "\n" else b
  let b := b ++ "*Challenge* "
  let b := b ++ m.Challenge
  b

/-- The text `Monster.String` writes up to and including the closing fence
line (lines 205-242), as one expression. -/
def statsBlock (m : Monster) : String :=
  m.Description ++ "\n\n" ++ "# Stats\n" ++ m.Size ++ " " ++ m.Type_ ++ " " ++ m.Alignment ++
    "\n```\n" ++ "Armor Class " ++ m.AC ++ "\nHit Points " ++ m.HP ++ "\nSpeed " ++ m.Speed ++
    "\nSTR " ++ m.STR ++ "\nDEX " ++ m.DEX ++ "\nCON " ++ m.CON ++ "\nINT " ++ m.INT ++
    "\nWIS " ++ m.WIS ++ "\nCHA " ++ m.CHA ++ "\n```\n"

/-- The text after the closing fence line, as one expression: the three
optional lines, each present when its field is not empty, and the Challenge
text. -/
def trailer (m : Monster) : String :=
  (if m.Skills ≠ "" then "*Skills* " ++ m.Skills ++ "\n" else "") ++
  (if m.Senses ≠ "" then "*Senses* " ++ m.Senses ++ "\n" else "") ++
  (if m.Languages ≠ "" then "*Languages* " ++ m.Languages ++ "\n" else "") ++
  "*Challenge* " ++ m.Challenge

/-! ## The regular expressions (main.go, lines 20-25)

`ReplaceAllString src repl` of each of the four patterns, replacing the
leftmost non-overlapping matches. The replacement texts used by the program
(`" "`, `"\n"`, `"\n\n"`, `"-"`) hold no `$`, so `repl` is inserted as it is. -/

/-- The class `\s` of Go's regexp syntax: `[\t\n\f\r ]`. -/
def isReSpace (c : Char) : Bool :=
  c = '\t' || c = '\n' || c = '\x0c' || c = '\r' || c = ' '

/-- Replacement of the matches of `\s+` in a list of runes; `inRun` tells
that the rune before was part of a match (whose replacement is already
written). -/
def spaceReplaceChars (repl : List Char) : Bool → List Char → List Char
  | _, [] => []
  | inRun, c :: cs =>
    if isReSpace c then
      if inRun then spaceReplaceChars repl true cs
      else repl ++ spaceReplaceChars repl true cs
    else c :: spaceReplaceChars repl false cs

/-- The call `space.ReplaceAllString(src, repl)`, `space` being `\s+`. -/
def space.ReplaceAllString (src repl : String) : String :=
  ⟨spaceReplaceChars repl.data false src.data⟩

/-- Replacement of the matches of `•` in a list of runes. -/
def dotReplaceChars (repl : List Char) : List Char → List Char
  | [] => []
  | c :: cs => if c = '•' then repl ++ dotReplaceChars repl cs else c :: dotReplaceChars repl cs

/-- The call `dot.ReplaceAllString(src, repl)`, `dot` being `•`. -/
def dot.ReplaceAllString (src repl : String) : String :=
  ⟨dotReplaceChars repl.data src.data⟩

/-- Replacement of the matches of ` +\n` in a list of runes; `pending` counts
the spaces read since the last rune that was not a space, which are a match
once a newline follows them and are written out otherwise. -/
def trailingReplaceChars (repl : List Char) : Nat → List Char → List Char
  | pending, [] => List.replicate pending ' '
  | pending, c :: cs =>
    if c = ' ' then trailingReplaceChars repl (pending + 1) cs
    else if c = '\n' then
      if 0 < pending then repl ++ trailingReplaceChars repl 0 cs
      else '\n' :: trailingReplaceChars repl 0 cs
    else List.replicate pending ' ' ++ c :: trailingReplaceChars repl 0 cs

/-- The call `trailing.ReplaceAllString(src, repl)`, `trailing` being ` +\n`. -/
def trailing.ReplaceAllString (src repl : String) : String :=
  ⟨trailingReplaceChars repl.data 0 src.data⟩

/-- Replacement of the matches of `\n\n\n` in a list of runes. -/
def doubleblankReplaceChars (repl : List Char) : List Char → List Char
  | c :: c₁ :: c₂ :: rest =>
    if c = '\n' ∧ c₁ = '\n' ∧ c₂ = '\n' then repl ++ doubleblankReplaceChars repl rest
    else c :: doubleblankReplaceChars repl (c₁ :: c₂ :: rest)
  | cs => cs

/-- The call `doubleblank.ReplaceAllString(src, repl)`, `doubleblank` being
`\n\n\n`. -/
def doubleblank.ReplaceAllString (src repl : String) : String :=
  ⟨doubleblankReplaceChars repl.data src.data⟩

/-! ## The document tree (`golang.org/x/net/html`) -/

/-- The type `html.NodeType`. -/
inductive NodeType
  | ErrorNode | TextNode | DocumentNode | ElementNode | CommentNode | DoctypeNode | RawNode
  deriving DecidableEq, Repr

/-- The fields of `html.Node` the walk reads: `Type`, `Data` and the children
(the chain `FirstChild`, `NextSibling`, ...) in document order. `PrevSibling`
is not stored: the walk is told the previous sibling of the node it visits. -/
inductive Node
  | mk (Type_ : NodeType) (Data : String) (children : List Node)

/-- The field `n.Type`. -/
def Node.Type_ : Node → NodeType
  | .mk t _ _ => t

/-- The field `n.Data`. -/
def Node.Data : Node → String
  | .mk _ d _ => d

/-- The children of `n`, from `n.FirstChild` along `NextSibling`. -/
def Node.children : Node → List Node
  | .mk _ _ cs => cs

/-- A node of a `goquery.Selection` (`s.Nodes`) with its `PrevSibling` in the
document, which is not part of the selection. -/
structure Root where
  PrevSibling : Option Node
  node : Node

/-! ## The tree walk (main.go, lines 111-145) -/

/-- Lines 115-136 of the closure `f`: what visiting `n` writes to `buf` before
its children are visited; `prev` is `n.PrevSibling`. -/
def fNode (buf : String) (prev : Option Node) (ty : NodeType) (data : String) : String :=
  let buf := if ty = NodeType.TextNode then buf ++ space.ReplaceAllString data " " else buf
  let buf := if ty = NodeType.ElementNode ∧ data = "br" then buf ++ "\n" else buf
  let buf := if ty = NodeType.ElementNode ∧ data = "h2" then buf ++ "\n# " else buf
  match prev with
  | some p =>
    if p.Type_ = NodeType.ElementNode then
      if p.Data = "h2" then buf ++ "\n" else buf
    else buf
  | none => buf

mutual
/-- The closure `f` of `renderHTML`: the buffer after `n` and its subtree are
walked, `buf` being the buffer before and `prev` the node `n.PrevSibling`. -/
def f (buf : String) (prev : Option Node) : Node → String
  | .mk ty data children => fChildren (fNode buf prev ty data) none children
/-- The loop of lines 138-140 from the child `c` on, `prev` being
`c.PrevSibling`. -/
def fChildren (buf : String) (prev : Option Node) : List Node → String
  | [] => buf
  | c :: cs => fChildren (f buf prev c) (some c) cs
end

/-- The loop of lines 143-145 over `s.Nodes`: the buffer after the walk. -/
def walkNodes (buf : String) : List Root → String
  | [] => buf
  | r :: rs => walkNodes (f buf r.PrevSibling r.node) rs

/-! ## Word wrap (`github.com/muesli/reflow/wordwrap`, imported at line 14)

The library is not among the sources. Its writer is modelled below: runes are
collected into a word, white space between words into a space buffer, the
word is written to the line when it ends, and a newline is written instead of
the pending space as soon as the word would pass the limit. The writer
measures a word with a table of display widths, which is a parameter `wd` of
the model; `runeWidth` is the table used where a text is evaluated. -/

/-- Modelled from the spec: tells that the rune `r` lies in one of the
intervals of a table of the width library, which is not among the sources. -/
def inTable (r : Nat) (t : List (Nat × Nat)) : Bool :=
  t.any (fun p => p.1 ≤ r && r ≤ p.2)

/-- Modelled from the spec: runes past U+0300 that are not printed and take no
column; a table of the width library, which is not among the sources. -/
def nonprint : List (Nat × Nat) :=
  [(0x070F, 0x070F), (0x180B, 0x180E), (0x200B, 0x200F), (0x2028, 0x202E),
   (0x206A, 0x206F), (0xD800, 0xDFFF), (0xFEFF, 0xFEFF), (0xFFF9, 0xFFFB),
   (0xFFFE, 0xFFFF)]

/-- Modelled from the spec: combining marks, which take no column; a table of
the width library, which is not among the sources. -/
def combining : List (Nat × Nat) :=
  [(0x0300, 0x036F), (0x0483, 0x0489), (0x07EB, 0x07F3), (0x0C00, 0x0C00),
   (0x0C04, 0x0C04), (0x0D00, 0x0D00), (0x135D, 0x135F), (0x1A7F, 0x1A7F),
   (0x1AB0, 0x1AC0), (0x1B6B, 0x1B73), (0x1DC0, 0x1DF9), (0x1DFB, 0x1DFF),
   (0x20D0, 0x20F0), (0x2CEF, 0x2CF1), (0x2DE0, 0x2DFF), (0x3099, 0x309A),
   (0xA66F, 0xA672), (0xA674, 0xA67D), (0xA69E, 0xA69F), (0xA6F0, 0xA6F1),
   (0xA8E0, 0xA8F1), (0xFE20, 0xFE2F)]

/-- Modelled from the spec: runes that take two columns (East Asian wide and
full-width runes, emoji); a table of the width library, which is not among the
sources. -/
def doublewidth : List (Nat × Nat) :=
  [(0x1100, 0x115F), (0x231A, 0x231B), (0x2329, 0x232A), (0x23E9, 0x23EC),
   (0x23F0, 0x23F0), (0x23F3, 0x23F3), (0x25FD, 0x25FE), (0x2614, 0x2615),
   (0x2648, 0x2653), (0x267F, 0x267F), (0x2693, 0x2693), (0x26A1, 0x26A1),
   (0x26AA, 0x26AB), (0x26BD, 0x26BE), (0x26C4, 0x26C5), (0x26CE, 0x26CE),
   (0x26D4, 0x26D4), (0x26EA, 0x26EA), (0x26F2, 0x26F3), (0x26F5, 0x26F5),
   (0x26FA, 0x26FA), (0x26FD, 0x26FD), (0x2705, 0x2705), (0x270A, 0x270B),
   (0x2728, 0x2728), (0x274C, 0x274C), (0x274E, 0x274E), (0x2753, 0x2755),
   (0x2757, 0x2757), (0x2795, 0x2797), (0x27B0, 0x27B0), (0x27BF, 0x27BF),
   (0x2B1B, 0x2B1C), (0x2B50, 0x2B50), (0x2B55, 0x2B55), (0x2E80, 0x2E99),
   (0x2E9B, 0x2EF3), (0x2F00, 0x2FD5), (0x2FF0, 0x2FFB), (0x3000, 0x303E),
   (0x3041, 0x3096), (0x3099, 0x30FF), (0x3105, 0x312F), (0x3131, 0x318E),
   (0x3190, 0x31E3), (0x31F0, 0x321E), (0x3220, 0x3247), (0x3250, 0x4DBF),
   (0x4E00, 0xA48C), (0xA490, 0xA4C6), (0xA960, 0xA97C), (0xAC00, 0xD7A3),
   (0xF900, 0xFAFF), (0xFE10, 0xFE19), (0xFE30, 0xFE52), (0xFE54, 0xFE66),
   (0xFE68, 0xFE6B), (0xFF01, 0xFF60), (0xFFE0, 0xFFE6), (0x16FE0, 0x16FE4),
   (0x17000, 0x18CD5), (0x1B000, 0x1B2FB), (0x1F004, 0x1F004), (0x1F0CF, 0x1F0CF),
   (0x1F18E, 0x1F18E), (0x1F191, 0x1F19A), (0x1F200, 0x1F202), (0x1F210, 0x1F23B),
   (0x1F240, 0x1F248), (0x1F250, 0x1F251), (0x1F260, 0x1F265), (0x1F300, 0x1F320),
   (0x1F32D, 0x1F335), (0x1F337, 0x1F37C), (0x1F37E, 0x1F393), (0x1F3A0, 0x1F3CA),
   (0x1F3CF, 0x1F3D3), (0x1F3E0, 0x1F3F0), (0x1F3F4, 0x1F3F4), (0x1F3F8, 0x1F43E),
   (0x1F440, 0x1F440), (0x1F442, 0x1F4FC), (0x1F4FF, 0x1F53D), (0x1F54B, 0x1F54E),
   (0x1F550, 0x1F567), (0x1F57A, 0x1F57A), (0x1F595, 0x1F596), (0x1F5A4, 0x1F5A4),
   (0x1F5FB, 0x1F64F), (0x1F680, 0x1F6C5), (0x1F6CC, 0x1F6CC), (0x1F6D0, 0x1F6D2),
   (0x1F6EB, 0x1F6EC), (0x1F6F4, 0x1F6FC), (0x1F7E0, 0x1F7EB), (0x1F90C, 0x1F93A),
   (0x1F93C, 0x1F945), (0x1F947, 0x1F9FF), (0x1FA70, 0x1FAF6), (0x20000, 0x2FFFD),
   (0x30000, 0x3FFFD)]

/-- Modelled from the spec: the display width of a rune ("80 display columns",
section 8), after the width library of the word-wrap module, which is not
among the sources: control runes, the soft hyphen, runes that are not printed
and combining marks take no column, East Asian wide runes take two, every
other rune takes one. Runes whose width is ambiguous take one column. -/
def runeWidth (c : Char) : Nat :=
  if c.val.toNat < 0x20 then 0
  else if (0x7F ≤ c.val.toNat ∧ c.val.toNat ≤ 0x9F) ∨ c.val.toNat = 0xAD then 0
  else if c.val.toNat < 0x300 then 1
  else if inTable c.val.toNat nonprint || inTable c.val.toNat combining then 0
  else if inTable c.val.toNat doublewidth then 2
  else 1

/-- Modelled from the spec: tells the rune that ends an ANSI escape sequence;
part of the library's writer, which is not among the sources. -/
def isTerminator (c : Char) : Bool :=
  (0x40 ≤ c.val && c.val ≤ 0x5a) || (0x61 ≤ c.val && c.val ≤ 0x7a)

/-- Modelled from the spec: the columns a word takes under the width table
`wd`, ANSI escape sequences taking none; `ansi` tells that the runes read are
inside such a sequence. Part of the library's writer, which is not among the
sources. -/
def printableWidthChars (wd : Char → Nat) : Bool → List Char → Nat
  | _, [] => 0
  | ansi, c :: cs =>
    if c = '\x1b' then printableWidthChars wd true cs
    else if ansi then printableWidthChars wd (!isTerminator c) cs
    else wd c + printableWidthChars wd false cs

/-- Modelled from the spec: the columns a word takes (the library's
`PrintableRuneWidth`, not among the sources). -/
def PrintableRuneWidth (wd : Char → Nat) (s : String) : Nat :=
  printableWidthChars wd false s.data

/-- Modelled from the spec: the state of the library's word-wrapping writer,
which is not among the sources: the limit, the text written (`buf`), the
pending white space, the pending word, the columns of the current line and
the escape-sequence flag. -/
structure WordWrap where
  Limit : Nat
  buf : String
  space : String
  word : String
  lineLen : Nat
  ansi : Bool
  deriving DecidableEq, Repr

/-- Modelled from the spec: a fresh writer for the limit (the library's
`NewWriter`, not among the sources). -/
def WordWrap.NewWriter (limit : Nat) : WordWrap := ⟨limit, "", "", "", 0, false⟩

/-- Modelled from the spec: the pending white space is written to the line
(the library's `addSpace`, not among the sources); its length counts bytes. -/
def WordWrap.addSpace (w : WordWrap) : WordWrap :=
  { w with lineLen := w.lineLen + w.space.utf8ByteSize, buf := w.buf ++ w.space, space := "" }

/-- Modelled from the spec: the pending word, if any, is written to the line
after the pending white space (the library's `addWord`, not among the
sources). -/
def WordWrap.addWord (wd : Char → Nat) (w : WordWrap) : WordWrap :=
  if 0 < w.word.utf8ByteSize then
    let w := w.addSpace
    { w with lineLen := w.lineLen + PrintableRuneWidth wd w.word, buf := w.buf ++ w.word, word := "" }
  else w

/-- Modelled from the spec: a newline is written and the pending white space
dropped (the library's `addNewLine`, not among the sources). -/
def WordWrap.addNewLine (w : WordWrap) : WordWrap :=
  { w with buf := w.buf.push '\n', lineLen := 0, space := "" }

/-- Modelled from the spec: one rune of the input is read (the body of the
loop of the library's `Write`, not among the sources): "wrap to a fixed column
width, breaking only at white space" (section 4.1), a hyphen being a place
where a word ends as well; the hyphen is written to the line without being
counted in its length. -/
def WordWrap.writeRune (wd : Char → Nat) (w : WordWrap) (c : Char) : WordWrap :=
  if c = '\x1b' then { w with word := w.word.push c, ansi := true }
  else if w.ansi then
    { w with word := w.word.push c, ansi := !isTerminator c }
  else if c = '\n' then
    let w :=
      if w.word.utf8ByteSize = 0 then
        if w.lineLen + w.space.utf8ByteSize > w.Limit then { w with lineLen := 0, space := "" }
        else { w with buf := w.buf ++ w.space, space := "" }
      else w
    (w.addWord wd).addNewLine
  else if isSpace c then
    let w := w.addWord wd
    { w with space := w.space.push c }
  else if c = '-' then
    let w := w.addSpace.addWord wd
    { w with buf := w.buf.push c }
  else
    let w := { w with word := w.word.push c }
    if w.lineLen + w.space.utf8ByteSize + PrintableRuneWidth wd w.word > w.Limit
        ∧ PrintableRuneWidth wd w.word < w.Limit then
      w.addNewLine
    else w

/-- Modelled from the spec: the library's `wordwrap.String(s, limit)`, which
is not among the sources, under the width table `wd`: the text is written
rune by rune to a fresh writer, which is then closed (the last word written).
A limit of 0 leaves the text as it is. -/
def wordwrap.StringWith (wd : Char → Nat) (s : String) (limit : Nat) : String :=
  if limit = 0 then s
  else ((s.data.foldl (WordWrap.writeRune wd) (WordWrap.NewWriter limit)).addWord wd).buf

/-- Modelled from the spec: the library's `wordwrap.String(s, limit)`, which
is not among the sources, with the width table `runeWidth`. -/
def wordwrap.String (s : String) (limit : Nat) : String :=
  wordwrap.StringWith runeWidth s limit

/-! ## The renderer (main.go, lines 106-157) -/

/-- The function `renderHTML`, as a function of `s.Nodes`, the width table of
the word-wrap library being the parameter `wd`. -/
def renderHTMLWith (wd : Char → Nat) (s : List Root) : String :=
  let buf := walkNodes "" s
  dot.ReplaceAllString
    (doubleblank.ReplaceAllString
      (wordwrap.StringWith wd (TrimSpace buf) 80)
      "\n\n")
    "-"

/-- The function `renderHTML`, as a function of `s.Nodes`. -/
def renderHTML (s : List Root) : String :=
  let buf := walkNodes "" s
  dot.ReplaceAllString
    (doubleblank.ReplaceAllString
      (wordwrap.String (TrimSpace buf) 80)
      "\n\n")
    "-"

/-- The method `(m *Monster) getDescription(e)`, as a function of the nodes of
`e.DOM`: the record after the call. -/
def Monster.getDescription (m : Monster) (dom : List Root) : Monster :=
  { m with Description := trailing.ReplaceAllString (renderHTML dom) "\n" }

/-- The sequence of steps between the walk and the stored description (lines
147-156 and line 107) on the raw text `raw` of the walk: trim, wrap at 80,
collapse `\n\n\n`, replace the bullet, strip the spaces before a newline; the
width table of the word-wrap library is the parameter `wd`. -/
def normalizeWith (wd : Char → Nat) (raw : String) : String :=
  trailing.ReplaceAllString
    (dot.ReplaceAllString
      (doubleblank.ReplaceAllString
        (wordwrap.StringWith wd (TrimSpace raw) 80)
        "\n\n")
      "-")
    "\n"

/-- The sequence of steps between the walk and the stored description (lines
147-156 and line 107) on the raw text `raw` of the walk: trim, wrap at 80,
collapse `\n\n\n`, replace the bullet, strip the spaces before a newline. -/
def normalize (raw : String) : String :=
  trailing.ReplaceAllString
    (dot.ReplaceAllString
      (doubleblank.ReplaceAllString
        (wordwrap.String (TrimSpace raw) 80)
        "\n\n")
      "-")
    "\n"

/-! ## Notions used to state the properties -/

/-- The attribute items with, for each label, only the last item carrying
that label kept: an item is dropped when a later one has the same label. -/
def keepLastPerLabel : List HTMLElement → List HTMLElement
  | [] => []
  | e :: es =>
    if e.attr ∈ es.map HTMLElement.attr then keepLastPerLabel es
    else e :: keepLastPerLabel es

/-- Tells that the previous sibling exists and is an `h2` element. -/
def prevIsH2 (prev : Option Node) : Bool :=
  match prev with
  | some p => p.Type_ = NodeType.ElementNode && p.Data = "h2"
  | none => false

/-- The contribution of a node by itself: the whitespace-collapsed text for a
text node, a newline for a `br` element, the heading marker for an `h2`
element, nothing for every other node. -/
def own (n : Node) : String :=
  if n.Type_ = NodeType.TextNode then space.ReplaceAllString n.Data " "
  else if n.Type_ = NodeType.ElementNode ∧ n.Data = "br" then "\n"
  else if n.Type_ = NodeType.ElementNode ∧ n.Data = "h2" then "\n# "
  else ""

/-- The raw text the walk emits for a node: what `f` writes to an empty
buffer. -/
def emitted (prev : Option Node) (n : Node) : String := f "" prev n

/-- The raw text emitted for each node of a list of siblings, in document
order, concatenated; `prev` is the previous sibling of the first. -/
def emittedSiblings (prev : Option Node) : List Node → String
  | [] => ""
  | c :: cs => emitted prev c ++ emittedSiblings (some c) cs

/-- The raw text emitted for each root of a selection, in order,
concatenated. -/
def emittedRoots : List Root → String
  | [] => ""
  | r :: rs => emitted r.PrevSibling r.node ++ emittedRoots rs

/-- The text with each maximal run of white space (runes of the class `\s`)
replaced by a single space: at the first rune of a run one space is written
and the rest of the run is skipped. -/
def collapseRuns : List Char → List Char
  | [] => []
  | c :: cs =>
    if isReSpace c then ' ' :: collapseRuns (cs.dropWhile isReSpace)
    else c :: collapseRuns cs
termination_by l => l.length
decreasing_by
  · simp only [List.length_cons]
    exact Nat.lt_succ_of_le (List.dropWhile_sublist _).length_le
  · simp only [List.length_cons]
    exact Nat.lt_succ_self _

/-- Tells that the text begins with zero or more spaces followed by a
newline. -/
def spacesThenNewline (cs : List Char) : Bool :=
  (cs.dropWhile (fun c => c = ' ')).head? = some '\n'

/-- The text with each run of one or more spaces that is immediately followed
by a newline removed: a space is dropped when the spaces after it lead to a
newline, every other rune is kept. -/
def stripBeforeNewline : List Char → List Char
  | [] => []
  | c :: cs =>
    if c = ' ' ∧ spacesThenNewline cs = true then stripBeforeNewline cs
    else c :: stripBeforeNewline cs

/-- The columns one rune takes as the writer counts them in the length of a
line, under the width table `wd`: a white-space rune counts the bytes of its
UTF-8 encoding (the pending white space is measured by its length in bytes),
a hyphen counts nothing (it is written without being counted), every other
rune counts its display width. -/
def runeCost (wd : Char → Nat) (c : Char) : Nat :=
  if isSpace c then c.utf8Size else if c = '-' then 0 else wd c

/-- The columns a text takes as the writer counts them. -/
def wrapCost (wd : Char → Nat) : List Char → Nat
  | [] => 0
  | c :: cs => runeCost wd c + wrapCost wd cs

/-- The columns one rune takes when white space is measured as the writer
measures it, under the width table `wd`: a white-space rune counts the bytes
of its UTF-8 encoding, every other rune counts its display width. -/
def runeColumns (wd : Char → Nat) (c : Char) : Nat :=
  if isSpace c then c.utf8Size else wd c

/-- The columns a text takes when white space is measured as the writer
measures it. -/
def textColumns (wd : Char → Nat) : List Char → Nat
  | [] => 0
  | c :: cs => runeColumns wd c + textColumns wd cs

/-- Tells whether a text that is read from the state `ansi` ends inside an
ANSI escape sequence. -/
def ansiAfter : Bool → List Char → Bool
  | b, [] => b
  | b, c :: cs =>
    if c = '\x1b' then ansiAfter true cs
    else if b then ansiAfter (!isTerminator c) cs
    else ansiAfter false cs

/-- Tells that no line of the text takes more than `limit` columns as the
writer counts them, `used` being the columns already taken on the first
line. -/
def linesFit (wd : Char → Nat) (limit : Nat) : Nat → List Char → Prop
  | used, [] => used ≤ limit
  | used, c :: cs =>
    if c = '\n' then used ≤ limit ∧ linesFit wd limit 0 cs
    else linesFit wd limit (used + runeCost wd c) cs

/-- One rune read while a text is split into lines: `st.1` holds the lines
that are complete, `st.2` the line being read. -/
def splitStep (st : List (List Char) × List Char) (c : Char) : List (List Char) × List Char :=
  if c = '\n' then (st.1 ++ [st.2], []) else (st.1, st.2 ++ [c])

/-- A text split at its newlines: the lines that end with a newline, and the
last line (after the last newline). -/
def splitLines (l : List Char) : List (List Char) × List Char :=
  l.foldl splitStep ([], [])

/-- The lines of a text, the last one included. -/
def textLines (l : List Char) : List (List Char) :=
  (splitLines l).1 ++ [(splitLines l).2]

/-- What holds of a line of the wrapped text: it takes at most `limit` columns
as the writer counts them, or it ends with a hyphen, or it ends with a word
free of white space that is at least `limit` columns wide. -/
def LineOK (wd : Char → Nat) (limit : Nat) (line : List Char) : Prop :=
  wrapCost wd line ≤ limit ∨ line.getLast? = some '-' ∨
    ∃ tok, tok <:+ line ∧ (∀ c ∈ tok, isSpace c = false) ∧
      limit ≤ printableWidthChars wd false tok

/-- The invariant of the writer on a text without escape runes: the pending
white space is white space other than a newline, the pending word holds no
white space and no hyphen, `lineLen` is the length of the line being written,
every line written satisfies `LineOK`, and the pending word either fits the
line or is at least as wide as the limit. -/
structure WrapInv (wd : Char → Nat) (w : WordWrap) : Prop where
  ansi : w.ansi = false
  space_ws : ∀ c ∈ w.space.data, isSpace c = true ∧ c ≠ '\n'
  word_tok : ∀ c ∈ w.word.data, isSpace c = false ∧ c ≠ '\x1b' ∧ c ≠ '-'
  lineLen_eq : w.lineLen = wrapCost wd (splitLines w.buf.data).2
  cur_ok : LineOK wd w.Limit (splitLines w.buf.data).2
  done_ok : ∀ line ∈ (splitLines w.buf.data).1, LineOK wd w.Limit line
  pending : w.word.data = [] ∨
    w.lineLen + w.space.utf8ByteSize + PrintableRuneWidth wd w.word ≤ w.Limit ∨
    w.Limit ≤ PrintableRuneWidth wd w.word

/-- The runes of a text that are not white space, in order. -/
def nonSpace (l : List Char) : List Char :=
  l.filter (fun c => !isSpace c)

/-- The bullet replacement on one rune: a bullet becomes a hyphen, every other
rune stays. -/
def bulletToHyphen (c : Char) : Char :=
  if c = '•' then '-' else c

/-! # Theorems -/

/-! ## The attribute collector -/

theorem getAttrsSwitch_eq_assign (m : Monster) (a v : String) :
    m.getAttrsSwitch a v = (match fieldOf a with
      | none => m
      | some f => f.assign m v) := by
  unfold Monster.getAttrsSwitch fieldOf
  by_cases h : a = "Size"
  · rw [if_pos h, if_pos h]; rfl
  rw [if_neg h, if_neg h]; clear h
  by_cases h : a = "Type"
  · rw [if_pos h, if_pos h]; rfl
  rw [if_neg h, if_neg h]; clear h
  by_cases h : a = "Alignment"
  · rw [if_pos h, if_pos h]; rfl
  rw [if_neg h, if_neg h]; clear h
  by_cases h : a = "AC"
  · rw [if_pos h, if_pos h]; rfl
  rw [if_neg h, if_neg h]; clear h
  by_cases h : a = "HP"
  · rw [if_pos h, if_pos h]; rfl
  rw [if_neg h, if_neg h]; clear h
  by_cases h : a = "Speed"
  · rw [if_pos h, if_pos h]; rfl
  rw [if_neg h, if_neg h]; clear h
  by_cases h : a = "STR"
  · rw [if_pos h, if_pos h]; rfl
  rw [if_neg h, if_neg h]; clear h
  by_cases h : a = "DEX"
  · rw [if_pos h, if_pos h]; rfl
  rw [if_neg h, if_neg h]; clear h
  by_cases h : a = "CON"
  · rw [if_pos h, if_pos h]; rfl
  rw [if_neg h, if_neg h]; clear h
  by_cases h : a = "INT"
  · rw [if_pos h, if_pos h]; rfl
  rw [if_neg h, if_neg h]; clear h
  by_cases h : a = "WIS"
  · rw [if_pos h, if_pos h]; rfl
  rw [if_neg h, if_neg h]; clear h
  by_cases h : a = "CHA"
  · rw [if_pos h, if_pos h]; rfl
  rw [if_neg h, if_neg h]; clear h
  by_cases h : a = "Skills"
  · rw [if_pos h, if_pos h]; rfl
  rw [if_neg h, if_neg h]; clear h
  by_cases h : a = "Saving Throws"
  · rw [if_pos h, if_pos h]; rfl
  rw [if_neg h, if_neg h]; clear h
  by_cases h : a = "Passive Perception"
  · rw [if_pos h, if_pos h]; rfl
  rw [if_neg h, if_neg h]; clear h
  by_cases h : a = "Languages"
  · rw [if_pos h, if_pos h]; rfl
  rw [if_neg h, if_neg h]; clear h
  by_cases h : a = "Challenge Rating"
  · rw [if_pos h, if_pos h]; rfl
  rw [if_neg h, if_neg h]; clear h
  by_cases h : a = "Proficiency"
  · rw [if_pos h, if_pos h]; rfl
  rw [if_neg h, if_neg h]

theorem fieldOf_eq_some {a : String} {f : Field} (h : fieldOf a = some f) : a = f.label := by
  unfold fieldOf at h
  by_cases h₁ : a = "Size"
  · rw [if_pos h₁] at h; cases h; exact h₁
  rw [if_neg h₁] at h; clear h₁
  by_cases h₁ : a = "Type"
  · rw [if_pos h₁] at h; cases h; exact h₁
  rw [if_neg h₁] at h; clear h₁
  by_cases h₁ : a = "Alignment"
  · rw [if_pos h₁] at h; cases h; exact h₁
  rw [if_neg h₁] at h; clear h₁
  by_cases h₁ : a = "AC"
  · rw [if_pos h₁] at h; cases h; exact h₁
  rw [if_neg h₁] at h; clear h₁
  by_cases h₁ : a = "HP"
  · rw [if_pos h₁] at h; cases h; exact h₁
  rw [if_neg h₁] at h; clear h₁
  by_cases h₁ : a = "Speed"
  · rw [if_pos h₁] at h; cases h; exact h₁
  rw [if_neg h₁] at h; clear h₁
  by_cases h₁ : a = "STR"
  · rw [if_pos h₁] at h; cases h; exact h₁
  rw [if_neg h₁] at h; clear h₁
  by_cases h₁ : a = "DEX"
  · rw [if_pos h₁] at h; cases h; exact h₁
  rw [if_neg h₁] at h; clear h₁
  by_cases h₁ : a = "CON"
  · rw [if_pos h₁] at h; cases h; exact h₁
  rw [if_neg h₁] at h; clear h₁
  by_cases h₁ : a = "INT"
  · rw [if_pos h₁] at h; cases h; exact h₁
  rw [if_neg h₁] at h; clear h₁
  by_cases h₁ : a = "WIS"
  · rw [if_pos h₁] at h; cases h; exact h₁
  rw [if_neg h₁] at h; clear h₁
  by_cases h₁ : a = "CHA"
  · rw [if_pos h₁] at h; cases h; exact h₁
  rw [if_neg h₁] at h; clear h₁
  by_cases h₁ : a = "Skills"
  · rw [if_pos h₁] at h; cases h; exact h₁
  rw [if_neg h₁] at h; clear h₁
  by_cases h₁ : a = "Saving Throws"
  · rw [if_pos h₁] at h; cases h; exact h₁
  rw [if_neg h₁] at h; clear h₁
  by_cases h₁ : a = "Passive Perception"
  · rw [if_pos h₁] at h; cases h; exact h₁
  rw [if_neg h₁] at h; clear h₁
  by_cases h₁ : a = "Languages"
  · rw [if_pos h₁] at h; cases h; exact h₁
  rw [if_neg h₁] at h; clear h₁
  by_cases h₁ : a = "Challenge Rating"
  · rw [if_pos h₁] at h; cases h; exact h₁
  rw [if_neg h₁] at h; clear h₁
  by_cases h₁ : a = "Proficiency"
  · rw [if_pos h₁] at h; cases h; exact h₁
  rw [if_neg h₁] at h; clear h₁
  cases h

theorem Field.assign_comm (m : Monster) (v w : String) (f g : Field) (h : f ≠ g) :
    g.assign (f.assign m v) w = f.assign (g.assign m w) v := by
  cases f <;> cases g <;> first | rfl | exact absurd rfl h

theorem Field.assign_assign (m : Monster) (v w : String) (f : Field) :
    f.assign (f.assign m v) w = f.assign m w := by
  cases f <;> rfl

theorem getAttrsSwitch_comm (m : Monster) (a₁ a₂ v₁ v₂ : String) (h : a₁ ≠ a₂) :
    (m.getAttrsSwitch a₁ v₁).getAttrsSwitch a₂ v₂ =
      (m.getAttrsSwitch a₂ v₂).getAttrsSwitch a₁ v₁ := by
  simp only [getAttrsSwitch_eq_assign]
  cases h₁ : fieldOf a₁ with
  | none => rfl
  | some f =>
    cases h₂ : fieldOf a₂ with
    | none => rfl
    | some g =>
      have hfg : f ≠ g := by
        rintro rfl
        exact h ((fieldOf_eq_some h₁).trans (fieldOf_eq_some h₂).symm)
      exact Field.assign_comm m v₁ v₂ f g hfg

theorem getAttrsSwitch_overwrite (m : Monster) (a v₁ v₂ : String) :
    (m.getAttrsSwitch a v₁).getAttrsSwitch a v₂ = m.getAttrsSwitch a v₂ := by
  simp only [getAttrsSwitch_eq_assign]
  cases h₁ : fieldOf a with
  | none => rfl
  | some f => exact Field.assign_assign m v₁ v₂ f

/-- C1: with one of the 18 mapped labels `getAttrs` sets exactly the mapped
field, to the value (to `"passive Perception "` followed by the value for
`Passive Perception`), and leaves every other field as it was; from the empty
record the items `AC` 15, `HP` 30, `Passive Perception` 12 give those three
fields and leave every other field empty. -/
theorem getAttrs_of_attr (m : Monster) (e : HTMLElement) :
    (e.attr = "Size" → m.getAttrs e = { m with Size := e.value }) ∧
    (e.attr = "Type" → m.getAttrs e = { m with Type_ := e.value }) ∧
    (e.attr = "Alignment" → m.getAttrs e = { m with Alignment := e.value }) ∧
    (e.attr = "AC" → m.getAttrs e = { m with AC := e.value }) ∧
    (e.attr = "HP" → m.getAttrs e = { m with HP := e.value }) ∧
    (e.attr = "Speed" → m.getAttrs e = { m with Speed := e.value }) ∧
    (e.attr = "STR" → m.getAttrs e = { m with STR := e.value }) ∧
    (e.attr = "DEX" → m.getAttrs e = { m with DEX := e.value }) ∧
    (e.attr = "CON" → m.getAttrs e = { m with CON := e.value }) ∧
    (e.attr = "INT" → m.getAttrs e = { m with INT := e.value }) ∧
    (e.attr = "WIS" → m.getAttrs e = { m with WIS := e.value }) ∧
    (e.attr = "CHA" → m.getAttrs e = { m with CHA := e.value }) ∧
    (e.attr = "Skills" → m.getAttrs e = { m with Skills := e.value }) ∧
    (e.attr = "Languages" → m.getAttrs e = { m with Languages := e.value }) ∧
    (e.attr = "Proficiency" → m.getAttrs e = { m with Proficiency := e.value }) ∧
    (e.attr = "Saving Throws" → m.getAttrs e = { m with Saves := e.value }) ∧
    (e.attr = "Challenge Rating" → m.getAttrs e = { m with Challenge := e.value }) ∧
    (e.attr = "Passive Perception" →
      m.getAttrs e = { m with Senses := "passive Perception " ++ e.value }) ∧
    collect Monster.zero
        [HTMLElement.item "AC" "15", HTMLElement.item "HP" "30",
         HTMLElement.item "Passive Perception" "12"] =
      { Monster.zero with AC := "15", HP := "30", Senses := "passive Perception 12" } := by
  refine ⟨?_, ?_, ?_, ?_, ?_, ?_, ?_, ?_, ?_, ?_, ?_, ?_, ?_, ?_, ?_, ?_, ?_, ?_, ?_⟩
  all_goals first
    | (intro h
       simp only [HTMLElement.attr] at h
       simp [Monster.getAttrs, Monster.getAttrsSwitch, HTMLElement.value, h])
    | decide

example : TrimSpace "  a b \n" = "a b" := by decide

/-- C2: with a label that is not exactly one of the 18 mapped labels
`getAttrs` leaves the record as it was, in every field. -/
theorem getAttrs_unmapped (m : Monster) (e : HTMLElement) (h : e.attr ∉ mappedLabels) :
    m.getAttrs e = m := by
  simp only [HTMLElement.attr, mappedLabels, List.mem_cons, List.mem_singleton, not_or, List.mem_nil_iff,
    or_false] at h
  simp [Monster.getAttrs, Monster.getAttrsSwitch, h]

theorem getAttrs_unmapped_witness :
    "Foo" ∉ mappedLabels ∧ "ac" ∉ mappedLabels ∧ "" ∉ mappedLabels ∧
    Monster.zero.getAttrs (HTMLElement.item "ac" "15") = Monster.zero :=
  ⟨by decide, by decide, by decide,
    getAttrs_unmapped Monster.zero (HTMLElement.item "ac" "15") (by decide)⟩

/-! ## The attribute collector: order and duplicates -/

theorem getAttrs_comm (m : Monster) (e₁ e₂ : HTMLElement) (h : e₁.attr ≠ e₂.attr) :
    (m.getAttrs e₁).getAttrs e₂ = (m.getAttrs e₂).getAttrs e₁ := by
  simp only [Monster.getAttrs]
  exact getAttrsSwitch_comm _ _ _ _ _ h

theorem getAttrs_overwrite (m : Monster) (e₁ e₂ : HTMLElement) (h : e₁.attr = e₂.attr) :
    (m.getAttrs e₁).getAttrs e₂ = m.getAttrs e₂ := by
  simp only [Monster.getAttrs]
  simp only [HTMLElement.attr] at h
  rw [h]
  exact getAttrsSwitch_overwrite _ _ _ _

theorem collect_absorb (e : HTMLElement) (es : List HTMLElement) :
    ∀ m : Monster, e.attr ∈ es.map HTMLElement.attr →
      collect (m.getAttrs e) es = collect m es := by
  induction es with
  | nil => intro m h; simp at h
  | cons x xs ih =>
    intro m h
    simp only [collect, List.foldl_cons] at ih ⊢
    by_cases hx : e.attr = x.attr
    · rw [getAttrs_overwrite m e x hx]
    · have hmem : e.attr ∈ xs.map HTMLElement.attr := by
        simp only [List.map_cons, List.mem_cons] at h
        exact h.resolve_left hx
      rw [getAttrs_comm m e x hx]
      exact ih (m.getAttrs x) hmem

theorem keepLastPerLabel_attr_mem (a : String) (es : List HTMLElement) :
    a ∈ (keepLastPerLabel es).map HTMLElement.attr ↔ a ∈ es.map HTMLElement.attr := by
  induction es with
  | nil => simp [keepLastPerLabel]
  | cons x xs ih =>
    simp only [keepLastPerLabel]
    split_ifs with hx
    · rw [ih]
      simp only [List.map_cons, List.mem_cons]
      constructor
      · exact Or.inr
      · rintro (rfl | h)
        · exact hx
        · exact h
    · simp only [List.map_cons, List.mem_cons, ih]

/-- C3: for every initial record and every list of attribute items whose
(trimmed) labels are pairwise distinct, running the collector over the list
and over any permutation of it gives the same record. -/
theorem collect_perm (m : Monster) (es es' : List HTMLElement)
    (hnd : (es.map HTMLElement.attr).Nodup) (hp : es.Perm es') :
    collect m es = collect m es' := by
  induction hp generalizing m with
  | nil => rfl
  | cons x _ ih =>
    simp only [List.map_cons, List.nodup_cons] at hnd
    simp only [collect, List.foldl_cons] at ih ⊢
    exact ih _ hnd.2
  | swap x y l =>
    simp only [List.map_cons, List.nodup_cons, List.mem_cons, not_or] at hnd
    simp only [collect, List.foldl_cons]
    rw [getAttrs_comm m y x hnd.1.1]
  | trans h₁ _ ih₁ ih₂ =>
    exact (ih₁ m hnd).trans (ih₂ m (((h₁.map HTMLElement.attr).nodup_iff).1 hnd))

theorem collect_perm_witness :
    collect Monster.zero
        [HTMLElement.item "AC" "15", HTMLElement.item "HP" "30",
         HTMLElement.item "Passive Perception" "12"] =
      collect Monster.zero
        [HTMLElement.item "HP" "30", HTMLElement.item "AC" "15",
         HTMLElement.item "Passive Perception" "12"] :=
  collect_perm Monster.zero _ _ (by decide)
    (List.Perm.swap (HTMLElement.item "HP" "30") (HTMLElement.item "AC" "15")
      [HTMLElement.item "Passive Perception" "12"])

/-- C4: duplicate labels are last-write-wins: for every initial record and
every list of attribute items, the collector gives the same record on the list
as on the list in which only the last item of each label is kept (a list whose
labels are pairwise distinct and are the labels of the list); and applying two
items of one label in a row equals applying the second alone. -/
theorem collect_keepLastPerLabel (m : Monster) (es : List HTMLElement) :
    collect m es = collect m (keepLastPerLabel es) ∧
    ((keepLastPerLabel es).map HTMLElement.attr).Nodup ∧
    (∀ a, a ∈ (keepLastPerLabel es).map HTMLElement.attr ↔ a ∈ es.map HTMLElement.attr) ∧
    (keepLastPerLabel es).Sublist es ∧
    (∀ e₁ e₂ : HTMLElement, e₁.attr = e₂.attr →
      (m.getAttrs e₁).getAttrs e₂ = m.getAttrs e₂) := by
  refine ⟨?_, ?_, fun a => keepLastPerLabel_attr_mem a es, ?_,
    fun e₁ e₂ h => getAttrs_overwrite m e₁ e₂ h⟩
  · induction es generalizing m with
    | nil => rfl
    | cons x xs ih =>
      simp only [keepLastPerLabel]
      split_ifs with hx
      · rw [← ih m]
        exact collect_absorb x xs m hx
      · simp only [collect, List.foldl_cons] at ih ⊢
        exact ih _
  · induction es with
    | nil => simp [keepLastPerLabel]
    | cons x xs ih =>
      simp only [keepLastPerLabel]
      split_ifs with hx
      · exact ih
      · simp only [List.map_cons, List.nodup_cons]
        exact ⟨fun h => hx ((keepLastPerLabel_attr_mem _ xs).1 h), ih⟩
  · induction es with
    | nil => simp [keepLastPerLabel]
    | cons x xs ih =>
      simp only [keepLastPerLabel]
      split_ifs with hx
      · exact ih.cons x
      · exact ih.cons₂ x

/-! ## The record formatter -/

theorem String_eq (m : Monster) : m.String = statsBlock m ++ trailer m := by
  simp only [Monster.String, statsBlock, trailer]
  split_ifs <;> simp only [String.append_assoc, String.append_empty, String.empty_append] <;> rfl

/-- C5: for every record `Monster.String` begins with the description, a blank
line, the `# Stats` header, the line of size, type and alignment joined by
single spaces, and the fenced block of the nine labelled values, in that
order; with size, type and alignment empty the line after the header is two
spaces. -/
theorem String_prefix (m : Monster) :
    (∃ rest, m.String = statsBlock m ++ rest) ∧
    (∃ rest, { m with Size := "", Type_ := "", Alignment := "" }.String =
        m.Description ++ "\n\n# Stats\n  \n```\n" ++ rest) := by
  refine ⟨⟨trailer m, String_eq m⟩, ?_⟩
  refine ⟨"Armor Class " ++ m.AC ++ "\nHit Points " ++ m.HP ++ "\nSpeed " ++ m.Speed ++
    "\nSTR " ++ m.STR ++ "\nDEX " ++ m.DEX ++ "\nCON " ++ m.CON ++ "\nINT " ++ m.INT ++
    "\nWIS " ++ m.WIS ++ "\nCHA " ++ m.CHA ++ "\n```\n" ++ trailer m, ?_⟩
  rw [String_eq]
  simp only [statsBlock, trailer, String.append_assoc, String.empty_append]
  rfl

/-- C6: for every record the part of `Monster.String` after the closing fence
line is the Skills, Senses and Languages lines, each present exactly when its
field is not empty, followed by `*Challenge* ` and the challenge with no
newline after it. -/
theorem String_trailer (m : Monster) :
    m.String = statsBlock m ++
      ((if m.Skills ≠ "" then "*Skills* " ++ m.Skills ++ "\n" else "") ++
       (if m.Senses ≠ "" then "*Senses* " ++ m.Senses ++ "\n" else "") ++
       (if m.Languages ≠ "" then "*Languages* " ++ m.Languages ++ "\n" else "") ++
       "*Challenge* " ++ m.Challenge) ∧
    trailer { Monster.zero with Senses := "passive Perception 15", Challenge := "10" } =
      "*Senses* passive Perception 15\n*Challenge* 10" ∧
    Monster.String { Monster.zero with
        Size := "Large", Type_ := "dragon", Alignment := "chaotic evil",
        Senses := "passive Perception 15", Challenge := "10" } =
      "\n\n# Stats\nLarge dragon chaotic evil\n```\nArmor Class \nHit Points \nSpeed \nSTR \nDEX \nCON \nINT \nWIS \nCHA \n```\n*Senses* passive Perception 15\n*Challenge* 10" :=
  ⟨String_eq m, by decide, by decide⟩

/-! ## The tree walk -/

theorem fNode_append (buf : String) (prev : Option Node) (ty : NodeType) (data : String) :
    fNode buf prev ty data = buf ++ fNode "" prev ty data := by
  unfold fNode
  cases prev with
  | none =>
    simp only
    split_ifs <;>
      simp only [String.append_assoc, String.append_empty, String.empty_append]
  | some p =>
    simp only
    split_ifs <;>
      simp only [String.append_assoc, String.append_empty, String.empty_append]

mutual
theorem f_append (buf : String) (prev : Option Node) :
    ∀ n : Node, f buf prev n = buf ++ f "" prev n
  | .mk ty data children => by
    simp only [f]
    rw [fChildren_append (fNode buf prev ty data) none children,
      fChildren_append (fNode "" prev ty data) none children,
      fNode_append buf prev ty data, String.append_assoc]
theorem fChildren_append (buf : String) (prev : Option Node) :
    ∀ cs : List Node, fChildren buf prev cs = buf ++ fChildren "" prev cs
  | [] => by simp only [fChildren, String.append_empty]
  | c :: cs => by
    simp only [fChildren]
    rw [fChildren_append (f buf prev c) (some c) cs,
      fChildren_append (f "" prev c) (some c) cs,
      f_append buf prev c, String.append_assoc]
end

theorem fChildren_eq_emittedSiblings (prev : Option Node) (cs : List Node) :
    fChildren "" prev cs = emittedSiblings prev cs := by
  induction cs generalizing prev with
  | nil => rfl
  | cons c cs ih =>
    simp only [fChildren, emittedSiblings, emitted]
    rw [fChildren_append, ih]

theorem walkNodes_append (buf : String) (rs : List Root) :
    walkNodes buf rs = buf ++ emittedRoots rs := by
  induction rs generalizing buf with
  | nil => simp only [walkNodes, emittedRoots, String.append_empty]
  | cons r rs ih =>
    simp only [walkNodes, emittedRoots, emitted]
    rw [ih, f_append buf, String.append_assoc]

theorem fNode_empty (prev : Option Node) (n : Node) :
    fNode "" prev n.Type_ n.Data = own n ++ (if prevIsH2 prev then "\n" else "") := by
  unfold fNode own prevIsH2
  cases prev with
  | none =>
    simp only
    split_ifs <;> simp_all
  | some p =>
    simp only
    split_ifs <;> simp_all

theorem emitted_eq (prev : Option Node) (n : Node) :
    emitted prev n =
      own n ++ (if prevIsH2 prev then "\n" else "") ++ emittedSiblings none n.children := by
  cases n with
  | mk ty data children =>
    simp only [emitted, f]
    rw [fChildren_append, fChildren_eq_emittedSiblings]
    rw [← fNode_empty prev (Node.mk ty data children)]
    rfl

/-- C7: where the previous sibling is an `h2` element the walk writes the
extra newline after the node's own contribution, not before it: the text of a
text node that follows a heading is written on the heading's line, and the
newline only after it. -/
theorem newline_after_own_text :
    walkNodes ""
        [⟨none, Node.mk NodeType.ElementNode "div"
          [Node.mk NodeType.ElementNode "h2" [Node.mk NodeType.TextNode "Actions" []],
           Node.mk NodeType.TextNode "Multiattack." []]⟩] =
      "\n# ActionsMultiattack.\n" ∧
    emitted (some (Node.mk NodeType.ElementNode "h2" [Node.mk NodeType.TextNode "Actions" []]))
        (Node.mk NodeType.TextNode "Multiattack." []) = "Multiattack.\n" ∧
    emitted (some (Node.mk NodeType.ElementNode "h2" [Node.mk NodeType.TextNode "Actions" []]))
        (Node.mk NodeType.ElementNode "strong" [Node.mk NodeType.TextNode "Multiattack." []]) =
      "\nMultiattack." ∧
    (∀ (prev : Option Node) (n : Node), prevIsH2 prev = true →
      emitted prev n = own n ++ "\n" ++ emittedSiblings none n.children) := by
  refine ⟨by decide, by decide, by decide, ?_⟩
  intro prev n h
  rw [emitted_eq, h]
  rfl

/-- C8, as the code has it: an `h2` element writes the literal `"\n# "`, one
newline and the heading prefix, and nothing before it; where the previous
sibling is not an `h2` element the heading's children follow directly. -/
theorem emitted_h2 (prev : Option Node) (n : Node)
    (hn : n.Type_ = NodeType.ElementNode ∧ n.Data = "h2") :
    own n = "\n# " ∧
    (∀ buf, ∃ rest, f buf prev n = buf ++ "\n# " ++ rest) ∧
    (prevIsH2 prev = false →
      ∀ buf, f buf prev n = buf ++ "\n# " ++ emittedSiblings none n.children) := by
  have hown : own n = "\n# " := by
    have h₁ : ¬ n.Type_ = NodeType.TextNode := by rw [hn.1]; decide
    have h₂ : ¬ (n.Type_ = NodeType.ElementNode ∧ n.Data = "br") := by
      rintro ⟨_, hb⟩
      rw [hn.2] at hb
      exact absurd hb (by decide)
    unfold own
    rw [if_neg h₁, if_neg h₂, if_pos hn]
  have hem := emitted_eq prev n
  rw [hown] at hem
  refine ⟨hown, fun buf => ?_, fun hp buf => ?_⟩
  · refine ⟨(if prevIsH2 prev then "\n" else "") ++ emittedSiblings none n.children, ?_⟩
    rw [f_append, ← emitted, hem]
    simp only [String.append_assoc]
  · rw [f_append, ← emitted, hem, hp]
    simp only [String.append_assoc, Bool.false_eq_true, if_false, String.empty_append]

theorem emitted_h2_witness :
    (∀ buf, ∃ rest,
      f buf (some (Node.mk NodeType.TextNode "foo" []))
        (Node.mk NodeType.ElementNode "h2" [Node.mk NodeType.TextNode "Title" []]) =
      buf ++ "\n# " ++ rest) ∧
    f "foo" (some (Node.mk NodeType.TextNode "foo" []))
        (Node.mk NodeType.ElementNode "h2" [Node.mk NodeType.TextNode "Title" []]) =
      "foo\n# Title" :=
  ⟨(emitted_h2 (some (Node.mk NodeType.TextNode "foo" []))
      (Node.mk NodeType.ElementNode "h2" [Node.mk NodeType.TextNode "Title" []])
      ⟨rfl, rfl⟩).2.1,
   ((emitted_h2 (some (Node.mk NodeType.TextNode "foo" []))
      (Node.mk NodeType.ElementNode "h2" [Node.mk NodeType.TextNode "Title" []])
      ⟨rfl, rfl⟩).2.2 rfl "foo").trans (by decide)⟩

/-- C8 as stated fails: for a heading that follows the text `foo` the raw
stream is `foo`, one newline and the heading prefix; no blank line (two
newlines in a row) stands before the prefix. -/
theorem h2_no_blank_line :
    walkNodes ""
        [⟨none, Node.mk NodeType.ElementNode "div"
          [Node.mk NodeType.TextNode "foo" [],
           Node.mk NodeType.ElementNode "h2" [Node.mk NodeType.TextNode "Title" []]]⟩] =
      "foo\n# Title" ∧
    ¬ (['\n', '\n', '#', ' '] <:+:
      (walkNodes ""
        [⟨none, Node.mk NodeType.ElementNode "div"
          [Node.mk NodeType.TextNode "foo" [],
           Node.mk NodeType.ElementNode "h2" [Node.mk NodeType.TextNode "Title" []]]⟩]).data) := by
  constructor
  · decide
  · decide

/-- C9: the walk is a pre-order depth-first traversal: for every node whose
previous sibling is not an `h2` element the raw text emitted is the node's own
contribution followed by the raw text emitted for each child in document
order; a node that is neither a text node nor a `br` or `h2` element
contributes nothing itself and its children are still visited; the raw stream
of a selection is the concatenation over its roots in order. -/
theorem emitted_preorder (prev : Option Node) (n : Node) (h : prevIsH2 prev = false) :
    emitted prev n = own n ++ emittedSiblings none n.children ∧
    (∀ buf, f buf prev n = buf ++ (own n ++ emittedSiblings none n.children)) ∧
    (n.Type_ ≠ NodeType.TextNode →
      ¬ (n.Type_ = NodeType.ElementNode ∧ (n.Data = "br" ∨ n.Data = "h2")) →
      emitted prev n = emittedSiblings none n.children) ∧
    (∀ rs : List Root, walkNodes "" rs = emittedRoots rs) := by
  have hem : emitted prev n = own n ++ emittedSiblings none n.children := by
    rw [emitted_eq, h]
    simp only [Bool.false_eq_true, if_false, String.append_empty]
  refine ⟨hem, fun buf => ?_, fun ht he => ?_, fun rs => ?_⟩
  · rw [f_append, ← emitted, hem]
  · rw [hem]
    have : own n = "" := by
      unfold own
      rw [if_neg ht, if_neg (fun hc => he ⟨hc.1, Or.inl hc.2⟩),
        if_neg (fun hc => he ⟨hc.1, Or.inr hc.2⟩)]
    rw [this, String.empty_append]
  · rw [walkNodes_append, String.empty_append]

theorem emitted_preorder_witness :
    emitted none
        (Node.mk NodeType.ElementNode "div"
          [Node.mk NodeType.TextNode "a \n b" [],
           Node.mk NodeType.ElementNode "br" [],
           Node.mk NodeType.ElementNode "span" [Node.mk NodeType.TextNode "c" []]]) =
      "a b\nc" :=
  ((emitted_preorder none
      (Node.mk NodeType.ElementNode "div"
        [Node.mk NodeType.TextNode "a \n b" [],
         Node.mk NodeType.ElementNode "br" [],
         Node.mk NodeType.ElementNode "span" [Node.mk NodeType.TextNode "c" []]])
      rfl).1).trans (by decide)

/-! ## The normalisation steps -/

theorem getDescription_eq_normalize (m : Monster) (dom : List Root) :
    (m.getDescription dom).Description = normalize (walkNodes "" dom) := rfl

theorem doubleblankReplaceChars_of_no_match (repl : List Char) (l : List Char)
    (h : ¬ (['\n', '\n', '\n'] <:+: l)) : doubleblankReplaceChars repl l = l := by
  induction l with
  | nil => rfl
  | cons c cs ih =>
    have htail : ¬ (['\n', '\n', '\n'] <:+: cs) := fun hc => h (hc.trans (List.infix_cons (List.infix_refl _)))
    match cs, ih, htail, h with
    | [], _, _, _ => rfl
    | [_], _, _, _ => rfl
    | c₁ :: c₂ :: rest, ih, htail, h =>
      rw [doubleblankReplaceChars]
      split_ifs with hc
      · exfalso
        apply h
        obtain ⟨rfl, rfl, rfl⟩ := hc
        exact (List.prefix_append ['\n', '\n', '\n'] rest).isInfix
      · rw [ih htail]

theorem mem_dotReplaceChars {repl l : List Char} {c : Char}
    (h : c ∈ dotReplaceChars repl l) : c ∈ repl ∨ (c ∈ l ∧ c ≠ '•') := by
  induction l with
  | nil => simp [dotReplaceChars] at h
  | cons x xs ih =>
    simp only [dotReplaceChars] at h
    split_ifs at h with hx
    · rcases List.mem_append.1 h with h | h
      · exact Or.inl h
      · rcases ih h with h | h
        · exact Or.inl h
        · exact Or.inr ⟨List.mem_cons_of_mem _ h.1, h.2⟩
    · rcases List.mem_cons.1 h with h | h
      · subst h
        exact Or.inr ⟨List.mem_cons_self _ _, hx⟩
      · rcases ih h with h | h
        · exact Or.inl h
        · exact Or.inr ⟨List.mem_cons_of_mem _ h.1, h.2⟩

theorem mem_trailingReplaceChars {repl l : List Char} {c : Char} :
    ∀ {k : Nat}, c ∈ trailingReplaceChars repl k l → c = ' ' ∨ c ∈ repl ∨ c ∈ l := by
  induction l with
  | nil =>
    intro k h
    simp only [trailingReplaceChars] at h
    exact Or.inl (List.eq_of_mem_replicate h)
  | cons x xs ih =>
    intro k h
    simp only [trailingReplaceChars] at h
    split_ifs at h with h₁ h₂ h₃
    · rcases ih h with h | h | h
      · exact Or.inl h
      · exact Or.inr (Or.inl h)
      · exact Or.inr (Or.inr (List.mem_cons_of_mem _ h))
    · rcases List.mem_append.1 h with h | h
      · exact Or.inr (Or.inl h)
      · rcases ih h with h | h | h
        · exact Or.inl h
        · exact Or.inr (Or.inl h)
        · exact Or.inr (Or.inr (List.mem_cons_of_mem _ h))
    · rcases List.mem_cons.1 h with h | h
      · subst h
        exact Or.inr (Or.inr (by rw [h₂]; exact List.mem_cons_self _ _))
      · rcases ih h with h | h | h
        · exact Or.inl h
        · exact Or.inr (Or.inl h)
        · exact Or.inr (Or.inr (List.mem_cons_of_mem _ h))
    · rcases List.mem_append.1 h with h | h
      · exact Or.inl (List.eq_of_mem_replicate h)
      · rcases List.mem_cons.1 h with h | h
        · subst h
          exact Or.inr (Or.inr (List.mem_cons_self _ _))
        · rcases ih h with h | h | h
          · exact Or.inl h
          · exact Or.inr (Or.inl h)
          · exact Or.inr (Or.inr (List.mem_cons_of_mem _ h))

theorem dotReplaceChars_of_not_mem (repl : List Char) (l : List Char) (h : '•' ∉ l) :
    dotReplaceChars repl l = l := by
  induction l with
  | nil => rfl
  | cons x xs ih =>
    simp only [List.mem_cons, not_or] at h
    simp only [dotReplaceChars]
    rw [if_neg (fun hx => h.1 hx.symm), ih h.2]

theorem trailingReplaceChars_replicate (repl : List Char) (k : Nat) :
    ∀ (j : Nat) (l : List Char),
      trailingReplaceChars repl j (List.replicate k ' ' ++ l) =
        trailingReplaceChars repl (j + k) l := by
  induction k with
  | zero => intro j l; rfl
  | succ k ih =>
    intro j l
    rw [List.replicate_succ, List.cons_append, trailingReplaceChars, if_pos rfl, ih]
    congr 1
    omega

theorem trailingReplaceChars_idem (l : List Char) :
    ∀ k : Nat, trailingReplaceChars ['\n'] 0 (trailingReplaceChars ['\n'] k l) =
      trailingReplaceChars ['\n'] k l := by
  induction l with
  | nil =>
    intro k
    have := trailingReplaceChars_replicate ['\n'] k 0 []
    simp only [List.append_nil, Nat.zero_add] at this
    simp only [trailingReplaceChars]
    rw [this]
    simp only [trailingReplaceChars]
  | cons x xs ih =>
    intro k
    rw [trailingReplaceChars]
    split_ifs with h₁ h₂ h₃
    · exact ih (k + 1)
    · rw [List.singleton_append, trailingReplaceChars, if_neg (by decide), if_pos rfl,
        if_neg (by decide), ih 0]
    · rw [trailingReplaceChars, if_neg (by decide), if_pos rfl, if_neg (by decide), ih 0]
    · rw [trailingReplaceChars_replicate, Nat.zero_add, trailingReplaceChars, if_neg h₁,
        if_neg h₂, ih 0]

theorem dot_normalize (s : String) : dot.ReplaceAllString (normalize s) "-" = normalize s := by
  have hmem : '•' ∉ (normalize s).data := by
    intro h
    simp only [normalize, trailing.ReplaceAllString, dot.ReplaceAllString] at h
    rcases mem_trailingReplaceChars h with h | h | h
    · exact absurd h (by decide)
    · exact absurd h (by decide)
    · rcases mem_dotReplaceChars h with h | h
      · exact absurd h (by decide)
      · exact h.2 rfl
  show (⟨dotReplaceChars "-".data (normalize s).data⟩ : String) = normalize s
  rw [dotReplaceChars_of_not_mem _ _ hmem]

theorem trailing_normalize (s : String) :
    trailing.ReplaceAllString (normalize s) "\n" = normalize s := by
  simp only [normalize, trailing.ReplaceAllString]
  congr 1
  exact trailingReplaceChars_idem _ 0

theorem doubleblank_of_no_match (t : String) (h : ¬ (['\n', '\n', '\n'] <:+: t.data)) :
    doubleblank.ReplaceAllString t "\n\n" = t := by
  show (⟨doubleblankReplaceChars "\n\n".data t.data⟩ : String) = t
  rw [doubleblankReplaceChars_of_no_match _ _ h]

/-! ## The blank-line collapse -/

theorem doubleblankReplaceChars_nnn (repl rest : List Char) :
    doubleblankReplaceChars repl ('\n' :: '\n' :: '\n' :: rest) =
      repl ++ doubleblankReplaceChars repl rest := by
  rw [doubleblankReplaceChars, if_pos ⟨rfl, rfl, rfl⟩]

theorem doubleblankReplaceChars_cons (repl : List Char) (c : Char) (l : List Char)
    (h : ¬ (['\n', '\n', '\n'] <+: c :: l)) :
    doubleblankReplaceChars repl (c :: l) = c :: doubleblankReplaceChars repl l := by
  match l, h with
  | [], _ => rfl
  | [_], _ => rfl
  | c₁ :: c₂ :: rest, h =>
    rw [doubleblankReplaceChars, if_neg]
    rintro ⟨rfl, rfl, rfl⟩
    exact h (List.prefix_append _ rest)

theorem doubleblankReplaceChars_cons_of_ne (repl : List Char) (c : Char) (l : List Char)
    (h : c ≠ '\n') :
    doubleblankReplaceChars repl (c :: l) = c :: doubleblankReplaceChars repl l := by
  apply doubleblankReplaceChars_cons
  rintro ⟨t, ht⟩
  simp only [List.cons_append, List.cons.injEq] at ht
  exact h ht.1.symm

/-- The number of newlines left of a run of `n` by one pass of the collapse. -/
theorem collapsedRun_add_three (n : Nat) :
    2 * ((n + 3) / 3) + (n + 3) % 3 = 2 * (n / 3) + n % 3 + 2 := by
  omega

theorem doubleblankReplaceChars_run (b : List Char) (hb : b.head? ≠ some '\n') :
    ∀ n : Nat, doubleblankReplaceChars ['\n', '\n'] (List.replicate n '\n' ++ b) =
      List.replicate (2 * (n / 3) + n % 3) '\n' ++ doubleblankReplaceChars ['\n', '\n'] b
  | 0 => by simp
  | 1 => by
    have h1 : ¬ (['\n', '\n', '\n'] <+: '\n' :: b) := by
      rintro ⟨t, ht⟩
      cases b with
      | nil => simp at ht
      | cons x xs =>
        simp only [List.cons_append, List.cons.injEq] at ht
        exact hb (by rw [← ht.2.1]; rfl)
    show doubleblankReplaceChars ['\n', '\n'] ('\n' :: b) = _
    rw [doubleblankReplaceChars_cons _ _ _ h1]
    rfl
  | 2 => by
    have h1 : ¬ (['\n', '\n', '\n'] <+: '\n' :: b) := by
      rintro ⟨t, ht⟩
      cases b with
      | nil => simp at ht
      | cons x xs =>
        simp only [List.cons_append, List.cons.injEq] at ht
        exact hb (by rw [← ht.2.1]; rfl)
    have h2 : ¬ (['\n', '\n', '\n'] <+: '\n' :: '\n' :: b) := by
      rintro ⟨t, ht⟩
      cases b with
      | nil => simp at ht
      | cons x xs =>
        simp only [List.cons_append, List.cons.injEq] at ht
        exact hb (by rw [← ht.2.2.1]; rfl)
    show doubleblankReplaceChars ['\n', '\n'] ('\n' :: '\n' :: b) = _
    rw [doubleblankReplaceChars_cons _ _ _ h2, doubleblankReplaceChars_cons _ _ _ h1]
    rfl
  | n + 3 => by
    have ih := doubleblankReplaceChars_run b hb n
    rw [collapsedRun_add_three]
    show doubleblankReplaceChars ['\n', '\n']
      ('\n' :: '\n' :: '\n' :: (List.replicate n '\n' ++ b)) = _
    rw [doubleblankReplaceChars_nnn, ih, List.replicate_add]
    simp [List.replicate_succ]

theorem doubleblankReplaceChars_append (repl : List Char) (r : List Char) :
    ∀ a : List Char, a.getLast? ≠ some '\n' →
      doubleblankReplaceChars repl (a ++ r) =
        doubleblankReplaceChars repl a ++ doubleblankReplaceChars repl r
  | [], _ => rfl
  | [c], h => by
    have hc : c ≠ '\n' := fun hc => h (by rw [hc]; rfl)
    show doubleblankReplaceChars repl (c :: r) = _
    rw [doubleblankReplaceChars_cons_of_ne _ _ _ hc]
    rfl
  | [c, d], h => by
    have hd : d ≠ '\n' := fun hd => h (by rw [hd]; rfl)
    have h1 : ¬ (['\n', '\n', '\n'] <+: c :: d :: r) := by
      rintro ⟨t, ht⟩
      simp only [List.cons_append, List.cons.injEq] at ht
      exact hd ht.2.1.symm
    show doubleblankReplaceChars repl (c :: d :: r) = _
    rw [doubleblankReplaceChars_cons _ _ _ h1, doubleblankReplaceChars_cons_of_ne _ _ _ hd]
    rfl
  | c :: c₁ :: c₂ :: rest, h => by
    by_cases hc : c = '\n' ∧ c₁ = '\n' ∧ c₂ = '\n'
    · obtain ⟨rfl, rfl, rfl⟩ := hc
      have hrest : rest.getLast? ≠ some '\n' := by
        cases rest with
        | nil => exact absurd rfl h
        | cons x xs => simpa [List.getLast?_cons_cons] using h
      show doubleblankReplaceChars repl ('\n' :: '\n' :: '\n' :: (rest ++ r)) = _
      rw [doubleblankReplaceChars_nnn, doubleblankReplaceChars_nnn,
        doubleblankReplaceChars_append repl r rest hrest, List.append_assoc]
    · have htail : (c₁ :: c₂ :: rest).getLast? ≠ some '\n' := by
        simpa [List.getLast?_cons_cons] using h
      have h1 : ¬ (['\n', '\n', '\n'] <+: c :: c₁ :: c₂ :: rest) := by
        rintro ⟨t, ht⟩
        simp only [List.cons_append, List.cons.injEq] at ht
        exact hc ⟨ht.1.symm, ht.2.1.symm, ht.2.2.1.symm⟩
      have h2 : ¬ (['\n', '\n', '\n'] <+: c :: (c₁ :: c₂ :: rest ++ r)) := by
        rintro ⟨t, ht⟩
        simp only [List.cons_append, List.cons.injEq] at ht
        exact hc ⟨ht.1.symm, ht.2.1.symm, ht.2.2.1.symm⟩
      show doubleblankReplaceChars repl (c :: (c₁ :: c₂ :: rest ++ r)) = _
      rw [doubleblankReplaceChars_cons _ _ _ h2, doubleblankReplaceChars_cons _ _ _ h1,
        doubleblankReplaceChars_append repl r (c₁ :: c₂ :: rest) htail]
      rfl

theorem doubleblankReplaceChars_through (repl : List Char) (c : Char) (r : List Char)
    (hc : c ≠ '\n') :
    ∀ l : List Char, doubleblankReplaceChars repl (l ++ c :: r) =
      doubleblankReplaceChars repl l ++ c :: doubleblankReplaceChars repl r
  | [] => doubleblankReplaceChars_cons_of_ne repl c r hc
  | [x] => by
    have h1 : ¬ (['\n', '\n', '\n'] <+: x :: c :: r) := by
      rintro ⟨t, ht⟩
      simp only [List.cons_append, List.cons.injEq] at ht
      exact hc ht.2.1.symm
    show doubleblankReplaceChars repl (x :: c :: r) = _
    rw [doubleblankReplaceChars_cons _ _ _ h1, doubleblankReplaceChars_cons_of_ne _ _ _ hc]
    rfl
  | [x, y] => by
    have h1 : ¬ (['\n', '\n', '\n'] <+: x :: y :: c :: r) := by
      rintro ⟨t, ht⟩
      simp only [List.cons_append, List.cons.injEq] at ht
      exact hc ht.2.2.1.symm
    have h2 : ¬ (['\n', '\n', '\n'] <+: y :: c :: r) := by
      rintro ⟨t, ht⟩
      simp only [List.cons_append, List.cons.injEq] at ht
      exact hc ht.2.1.symm
    show doubleblankReplaceChars repl (x :: y :: c :: r) = _
    rw [doubleblankReplaceChars_cons _ _ _ h1, doubleblankReplaceChars_cons _ _ _ h2,
      doubleblankReplaceChars_cons_of_ne _ _ _ hc]
    rfl
  | x :: y :: z :: rest => by
    by_cases hm : x = '\n' ∧ y = '\n' ∧ z = '\n'
    · obtain ⟨rfl, rfl, rfl⟩ := hm
      show doubleblankReplaceChars repl ('\n' :: '\n' :: '\n' :: (rest ++ c :: r)) = _
      rw [doubleblankReplaceChars_nnn, doubleblankReplaceChars_nnn,
        doubleblankReplaceChars_through repl c r hc rest, List.append_assoc]
    · have h1 : ¬ (['\n', '\n', '\n'] <+: x :: y :: z :: rest) := by
        rintro ⟨t, ht⟩
        simp only [List.cons_append, List.cons.injEq] at ht
        exact hm ⟨ht.1.symm, ht.2.1.symm, ht.2.2.1.symm⟩
      have h2 : ¬ (['\n', '\n', '\n'] <+: x :: (y :: z :: rest ++ c :: r)) := by
        rintro ⟨t, ht⟩
        simp only [List.cons_append, List.cons.injEq] at ht
        exact hm ⟨ht.1.symm, ht.2.1.symm, ht.2.2.1.symm⟩
      show doubleblankReplaceChars repl (x :: (y :: z :: rest ++ c :: r)) = _
      rw [doubleblankReplaceChars_cons _ _ _ h2, doubleblankReplaceChars_cons _ _ _ h1,
        doubleblankReplaceChars_through repl c r hc (y :: z :: rest)]
      rfl

theorem doubleblankReplaceChars_getLast (repl : List Char) (a : List Char)
    (ha : a.getLast? ≠ some '\n') : (doubleblankReplaceChars repl a).getLast? ≠ some '\n' := by
  rcases List.eq_nil_or_concat a with rfl | ⟨l, c, rfl⟩
  · exact ha
  · have hc : c ≠ '\n' := by
      intro hc
      apply ha
      rw [hc]
      simp
    have := doubleblankReplaceChars_through repl c [] hc l
    rw [List.concat_eq_append, this]
    have h0 : doubleblankReplaceChars repl [] = [] := rfl
    rw [h0, List.getLast?_append]
    simpa using hc

theorem doubleblankReplaceChars_head (repl : List Char) (b : List Char)
    (hb : b.head? ≠ some '\n') : (doubleblankReplaceChars repl b).head? ≠ some '\n' := by
  cases b with
  | nil => exact hb
  | cons c r =>
    have hc : c ≠ '\n' := fun hc => hb (by rw [hc]; rfl)
    rw [doubleblankReplaceChars_cons_of_ne _ _ _ hc]
    simpa using hc

theorem doubleblank_newlines_eq (a b : String) (n : Nat)
    (ha : a.data.getLast? ≠ some '\n') (hb : b.data.head? ≠ some '\n') :
    doubleblank.ReplaceAllString (a ++ String.mk (List.replicate n '\n') ++ b) "\n\n" =
      doubleblank.ReplaceAllString a "\n\n" ++
        String.mk (List.replicate (2 * (n / 3) + n % 3) '\n') ++
        doubleblank.ReplaceAllString b "\n\n" := by
  apply String.ext
  simp only [doubleblank.ReplaceAllString, String.data_append, List.append_assoc]
  show doubleblankReplaceChars ['\n', '\n'] _ = _
  rw [doubleblankReplaceChars_append _ _ _ ha, doubleblankReplaceChars_run _ hb]


/-- C11: the blank-line collapse turns a maximal run of exactly three newlines
(the text before it not ending in a newline, the text after it not beginning
with one) into a maximal run of exactly two, the texts before and after being
collapsed on their own; and it leaves unchanged every text that holds no three
newlines in a row, that is whose runs of newlines all have length 0, 1 or 2. -/
theorem doubleblank_three (a b s : String) :
    (a.data.getLast? ≠ some '\n' → b.data.head? ≠ some '\n' →
      doubleblank.ReplaceAllString (a ++ "\n\n\n" ++ b) "\n\n" =
        doubleblank.ReplaceAllString a "\n\n" ++ "\n\n" ++
          doubleblank.ReplaceAllString b "\n\n" ∧
      (doubleblank.ReplaceAllString a "\n\n").data.getLast? ≠ some '\n' ∧
      (doubleblank.ReplaceAllString b "\n\n").data.head? ≠ some '\n') ∧
    (¬ (['\n', '\n', '\n'] <:+: s.data) → doubleblank.ReplaceAllString s "\n\n" = s) := by
  refine ⟨fun ha hb => ⟨?_, ?_, ?_⟩, fun hs => doubleblank_of_no_match s hs⟩
  · exact doubleblank_newlines_eq a b 3 ha hb
  · exact doubleblankReplaceChars_getLast _ _ ha
  · exact doubleblankReplaceChars_head _ _ hb

theorem doubleblank_three_witness :
    doubleblank.ReplaceAllString ("a\n\n\n\nb" ++ "\n\n\n" ++ "c\nd") "\n\n" =
      "a\n\n\nb" ++ "\n\n" ++ "c\nd" ∧
    doubleblank.ReplaceAllString "a\nb\n\nc" "\n\n" = "a\nb\n\nc" :=
  ⟨((doubleblank_three "a\n\n\n\nb" "c\nd" "").1 (by decide) (by decide)).1.trans (by decide),
   (doubleblank_three "" "" "a\nb\n\nc").2 (by decide)⟩

/-- C18, as the code has it: where `a` does not end with a newline and `b`
does not begin with one, the blank-line collapse maps `a`, `n` newlines, `b`
to the collapse of `a`, `2 * (n / 3) + n % 3` newlines, the collapse of `b`;
that is `a`, the newlines, `b` when neither `a` nor `b` holds three newlines
in a row. -/
theorem doubleblank_run (a b : String) (n : Nat)
    (ha : a.data.getLast? ≠ some '\n') (hb : b.data.head? ≠ some '\n') :
    doubleblank.ReplaceAllString (a ++ String.mk (List.replicate n '\n') ++ b) "\n\n" =
      doubleblank.ReplaceAllString a "\n\n" ++
        String.mk (List.replicate (2 * (n / 3) + n % 3) '\n') ++
        doubleblank.ReplaceAllString b "\n\n" ∧
    (¬ (['\n', '\n', '\n'] <:+: a.data) → ¬ (['\n', '\n', '\n'] <:+: b.data) →
      doubleblank.ReplaceAllString (a ++ String.mk (List.replicate n '\n') ++ b) "\n\n" =
        a ++ String.mk (List.replicate (2 * (n / 3) + n % 3) '\n') ++ b) := by
  refine ⟨doubleblank_newlines_eq a b n ha hb, fun ha' hb' => ?_⟩
  rw [doubleblank_newlines_eq a b n ha hb, doubleblank_of_no_match a ha',
    doubleblank_of_no_match b hb']

theorem doubleblank_run_witness :
    doubleblank.ReplaceAllString "a\n\n\n\nb" "\n\n" = "a\n\n\nb" ∧
    doubleblank.ReplaceAllString "a\n\n\n\n\n\nb" "\n\n" = "a\n\n\n\nb" :=
  ⟨((doubleblank_run "a" "b" 4 (by decide) (by decide)).2 (by decide) (by decide)),
   ((doubleblank_run "a" "b" 6 (by decide) (by decide)).2 (by decide) (by decide))⟩

/-- C18 as stated fails: `a` and `b` are themselves collapsed, so the result
is not `a`, the newlines, `b` when `a` holds a run of three newlines. -/
theorem doubleblank_run_prefix_collapsed :
    "x\n\n\ny".data.getLast? ≠ some '\n' ∧ "z".data.head? ≠ some '\n' ∧
    doubleblank.ReplaceAllString ("x\n\n\ny" ++ String.mk (List.replicate 1 '\n') ++ "z") "\n\n" =
      "x\n\ny\nz" ∧
    doubleblank.ReplaceAllString ("x\n\n\ny" ++ String.mk (List.replicate 1 '\n') ++ "z") "\n\n" ≠
      "x\n\n\ny" ++ String.mk (List.replicate (2 * (1 / 3) + 1 % 3) '\n') ++ "z" := by
  refine ⟨by decide, by decide, by decide, by decide⟩


/-! ## The whitespace collapse -/

theorem collapseRuns_cons_space (c : Char) (cs : List Char) (h : isReSpace c = true) :
    collapseRuns (c :: cs) = ' ' :: collapseRuns (cs.dropWhile isReSpace) := by
  rw [collapseRuns, if_pos h]

theorem collapseRuns_cons_other (c : Char) (cs : List Char) (h : ¬ isReSpace c = true) :
    collapseRuns (c :: cs) = c :: collapseRuns cs := by
  rw [collapseRuns, if_neg h]

theorem spaceReplaceChars_eq_collapseRuns (l : List Char) :
    spaceReplaceChars [' '] true l = collapseRuns (l.dropWhile isReSpace) ∧
    spaceReplaceChars [' '] false l = collapseRuns l := by
  induction l with
  | nil => exact ⟨by simp [spaceReplaceChars, collapseRuns], by simp [spaceReplaceChars, collapseRuns]⟩
  | cons c cs ih =>
    by_cases h : isReSpace c = true
    · refine ⟨?_, ?_⟩
      · rw [spaceReplaceChars, if_pos h, if_pos rfl, ih.1, List.dropWhile_cons_of_pos h]
      · rw [spaceReplaceChars, if_pos h, if_neg (by decide), ih.1, collapseRuns_cons_space c cs h]
        rfl
    · refine ⟨?_, ?_⟩
      · rw [spaceReplaceChars, if_neg h, ih.2, List.dropWhile_cons_of_neg h,
          collapseRuns_cons_other c cs h]
      · rw [spaceReplaceChars, if_neg h, ih.2, collapseRuns_cons_other c cs h]

theorem spaceReplaceChars_chain (l : List Char) :
    List.Chain' (fun a b => ¬ (a = ' ' ∧ b = ' ')) (spaceReplaceChars [' '] false l) ∧
    List.Chain' (fun a b => ¬ (a = ' ' ∧ b = ' ')) (spaceReplaceChars [' '] true l) ∧
    (spaceReplaceChars [' '] true l).head? ≠ some ' ' := by
  induction l with
  | nil => simp [spaceReplaceChars]
  | cons c cs ih =>
    by_cases h : isReSpace c = true
    · refine ⟨?_, ?_, ?_⟩
      · rw [spaceReplaceChars, if_pos h, if_neg (by decide)]
        show List.Chain' _ (' ' :: spaceReplaceChars [' '] true cs)
        rw [List.chain'_cons']
        refine ⟨fun y hy hc => ih.2.2 ?_, ih.2.1⟩
        rw [Option.mem_def] at hy
        rw [hy, hc.2]
      · rw [spaceReplaceChars, if_pos h, if_pos rfl]
        exact ih.2.1
      · rw [spaceReplaceChars, if_pos h, if_pos rfl]
        exact ih.2.2
    · have hc : c ≠ ' ' := fun hc => h (by rw [hc]; rfl)
      have hchain : ∀ b, List.Chain' (fun a b => ¬ (a = ' ' ∧ b = ' '))
          (spaceReplaceChars [' '] b (c :: cs)) := by
        intro b
        rw [spaceReplaceChars, if_neg h, List.chain'_cons']
        exact ⟨fun y _ hcy => hc hcy.1, ih.1⟩
      refine ⟨hchain false, hchain true, ?_⟩
      rw [spaceReplaceChars, if_neg h]
      simpa using hc

theorem mem_spaceReplaceChars {l : List Char} {x : Char} :
    ∀ {b : Bool}, x ∈ spaceReplaceChars [' '] b l → x = ' ' ∨ isReSpace x = false := by
  induction l with
  | nil => intro b h; simp [spaceReplaceChars] at h
  | cons c cs ih =>
    intro b h
    rw [spaceReplaceChars] at h
    split_ifs at h with h₁ h₂
    · exact ih h
    · rcases List.mem_append.1 h with h | h
      · exact Or.inl (List.mem_singleton.1 h)
      · exact ih h
    · rcases List.mem_cons.1 h with h | h
      · right
        rw [h]
        simpa using h₁
      · exact ih h

theorem not_infix_of_chain' {R : Char → Char → Prop} {l : List Char} {a b : Char}
    (h : List.Chain' R l) (hab : ¬ R a b) : ¬ ([a, b] <:+: l) := by
  intro hin
  have := h.infix hin
  rw [List.chain'_cons'] at this
  exact hab (this.1 b rfl)


/-- C12: for every text-node payload the whitespace collapse (`\s+` replaced by
one space) yields a text with no two spaces in a row and with no newline and
no tab (nor form feed or carriage return), which is the payload with each
maximal run of white space replaced by a single space. -/
theorem space_collapse (t : String) :
    ¬ ([' ', ' '] <:+: (space.ReplaceAllString t " ").data) ∧
    '\n' ∉ (space.ReplaceAllString t " ").data ∧
    '\t' ∉ (space.ReplaceAllString t " ").data ∧
    '\x0c' ∉ (space.ReplaceAllString t " ").data ∧
    '\r' ∉ (space.ReplaceAllString t " ").data ∧
    (space.ReplaceAllString t " ").data = collapseRuns t.data ∧
    space.ReplaceAllString "A  great\nbeast.\t\n" " " = "A great beast. " := by
  have hmem : ∀ x, x ∈ (space.ReplaceAllString t " ").data → x = ' ' ∨ isReSpace x = false :=
    fun x hx => mem_spaceReplaceChars hx
  refine ⟨?_, ?_, ?_, ?_, ?_, (spaceReplaceChars_eq_collapseRuns t.data).2, by decide⟩
  · exact not_infix_of_chain' (spaceReplaceChars_chain t.data).1 (by simp)
  · intro h
    rcases hmem _ h with h | h
    · exact absurd h (by decide)
    · exact absurd h (by decide)
  · intro h
    rcases hmem _ h with h | h
    · exact absurd h (by decide)
    · exact absurd h (by decide)
  · intro h
    rcases hmem _ h with h | h
    · exact absurd h (by decide)
    · exact absurd h (by decide)
  · intro h
    rcases hmem _ h with h | h
    · exact absurd h (by decide)
    · exact absurd h (by decide)

/-! ## The strip of spaces before a newline -/

theorem spacesThenNewline_cons_space (cs : List Char) :
    spacesThenNewline (' ' :: cs) = spacesThenNewline cs := by
  simp [spacesThenNewline]

theorem spacesThenNewline_cons_newline (cs : List Char) :
    spacesThenNewline ('\n' :: cs) = true := by
  simp [spacesThenNewline]

theorem spacesThenNewline_cons_other (c : Char) (cs : List Char) (h₁ : c ≠ ' ')
    (h₂ : c ≠ '\n') : spacesThenNewline (c :: cs) = false := by
  simp [spacesThenNewline, h₁, h₂]

theorem trailingReplaceChars_eq_strip (l : List Char) :
    ∀ k : Nat, trailingReplaceChars ['\n'] k l =
      (if spacesThenNewline l = true then [] else List.replicate k ' ') ++
        stripBeforeNewline l := by
  induction l with
  | nil => intro k; simp [trailingReplaceChars, spacesThenNewline, stripBeforeNewline]
  | cons c cs ih =>
    intro k
    by_cases h₁ : c = ' '
    · subst h₁
      rw [trailingReplaceChars, if_pos rfl, ih (k + 1), stripBeforeNewline,
        spacesThenNewline_cons_space]
      by_cases h : spacesThenNewline cs = true
      · rw [if_pos h, if_pos h, if_pos ⟨rfl, h⟩]
      · rw [if_neg h, if_neg h, if_neg (fun hc => h hc.2), List.replicate_succ']
        simp
    · have hs : stripBeforeNewline (c :: cs) = c :: stripBeforeNewline cs := by
        rw [stripBeforeNewline, if_neg (fun hc => h₁ hc.1)]
      by_cases h₂ : c = '\n'
      · subst h₂
        rw [trailingReplaceChars, if_neg h₁, if_pos rfl, ih 0, hs,
          if_pos (spacesThenNewline_cons_newline cs)]
        by_cases hk : 0 < k
        · rw [if_pos hk]
          split_ifs <;> simp
        · rw [if_neg hk]
          split_ifs <;> simp
      · rw [trailingReplaceChars, if_neg h₁, if_neg h₂, ih 0, hs,
          spacesThenNewline_cons_other c cs h₁ h₂]
        simp only [Bool.false_eq_true, if_false]
        split_ifs <;> simp

theorem stripBeforeNewline_head (l : List Char) :
    (stripBeforeNewline l).head? = some '\n' → spacesThenNewline l = true := by
  induction l with
  | nil => intro h; simp [stripBeforeNewline] at h
  | cons c cs ih =>
    intro h
    rw [stripBeforeNewline] at h
    split_ifs at h with hc
    · rw [hc.1, spacesThenNewline_cons_space]
      exact hc.2
    · simp only [List.head?_cons, Option.some.injEq] at h
      rw [h]
      exact spacesThenNewline_cons_newline cs

theorem stripBeforeNewline_chain (l : List Char) :
    List.Chain' (fun a b => ¬ (a = ' ' ∧ b = '\n')) (stripBeforeNewline l) := by
  induction l with
  | nil => simp [stripBeforeNewline]
  | cons c cs ih =>
    rw [stripBeforeNewline]
    split_ifs with hc
    · exact ih
    · rw [List.chain'_cons']
      refine ⟨fun y hy hcy => hc ⟨hcy.1, stripBeforeNewline_head cs ?_⟩, ih⟩
      rw [Option.mem_def] at hy
      rw [hy, hcy.2]

theorem stripBeforeNewline_sublist (l : List Char) : (stripBeforeNewline l).Sublist l := by
  induction l with
  | nil => simp [stripBeforeNewline]
  | cons c cs ih =>
    rw [stripBeforeNewline]
    split_ifs with hc
    · exact ih.cons c
    · exact ih.cons₂ c

theorem stripBeforeNewline_filter (l : List Char) :
    (stripBeforeNewline l).filter (fun c => c ≠ ' ') = l.filter (fun c => c ≠ ' ') := by
  induction l with
  | nil => simp [stripBeforeNewline]
  | cons c cs ih =>
    rw [stripBeforeNewline]
    split_ifs with hc
    · rw [ih, hc.1]
      simp
    · simp only [List.filter_cons, ih]

theorem trailing_eq_strip (r : String) :
    (trailing.ReplaceAllString r "\n").data = stripBeforeNewline r.data := by
  show trailingReplaceChars ['\n'] 0 r.data = _
  rw [trailingReplaceChars_eq_strip]
  split_ifs <;> simp

/-- C13: for every rendered text the description stored by `getDescription`
(the text after ` +\n` is replaced by a newline) holds no space directly
before a newline, and is the text with each run of spaces that is immediately
followed by a newline removed: a subsequence of the text that keeps every
rune other than a space. -/
theorem trailing_strip (r : String) :
    ¬ ([' ', '\n'] <:+: (trailing.ReplaceAllString r "\n").data) ∧
    (trailing.ReplaceAllString r "\n").data = stripBeforeNewline r.data ∧
    (trailing.ReplaceAllString r "\n").data.Sublist r.data ∧
    (trailing.ReplaceAllString r "\n").data.filter (fun c => c ≠ ' ') =
      r.data.filter (fun c => c ≠ ' ') ∧
    (∀ (m : Monster) (dom : List Root),
      (m.getDescription dom).Description = trailing.ReplaceAllString (renderHTML dom) "\n") ∧
    trailing.ReplaceAllString "a  \nb \n\n c  d  " "\n" = "a\nb\n\n c  d  " := by
  refine ⟨?_, trailing_eq_strip r, ?_, ?_, fun _ _ => rfl, by decide⟩
  · rw [trailing_eq_strip]
    exact not_infix_of_chain' (stripBeforeNewline_chain r.data) (by simp)
  · rw [trailing_eq_strip]
    exact stripBeforeNewline_sublist r.data
  · rw [trailing_eq_strip]
    exact stripBeforeNewline_filter r.data


/-! ## The bullet replacement and the empty subtree -/

theorem dotReplaceChars_eq_map (l : List Char) :
    dotReplaceChars ['-'] l = l.map (fun c => if c = '•' then '-' else c) := by
  induction l with
  | nil => rfl
  | cons c cs ih =>
    rw [dotReplaceChars, List.map_cons, ih]
    split_ifs <;> rfl

theorem not_mem_dot (x : String) : '•' ∉ (dot.ReplaceAllString x "-").data := by
  intro h
  rcases mem_dotReplaceChars h with h | h
  · exact absurd h (by decide)
  · exact h.2 rfl

/-- C16: for every input tree the renderer's output holds no bullet: the last
step of `renderHTML` replaces every bullet of the wrapped and collapsed text
by one hyphen and leaves every other rune as it is. -/
theorem renderHTML_no_bullet (dom : List Root) (x : String) :
    '•' ∉ (renderHTML dom).data ∧
    renderHTML dom =
      dot.ReplaceAllString
        (doubleblank.ReplaceAllString
          (wordwrap.String (TrimSpace (walkNodes "" dom)) 80) "\n\n") "-" ∧
    (dot.ReplaceAllString x "-").data = x.data.map (fun c => if c = '•' then '-' else c) ∧
    (dot.ReplaceAllString x "-").length = x.length ∧
    '•' ∉ (dot.ReplaceAllString x "-").data ∧
    renderHTML [⟨none, Node.mk NodeType.TextNode "• a • b-c" []⟩] = "- a - b-c" := by
  refine ⟨not_mem_dot _, rfl, dotReplaceChars_eq_map x.data, ?_, not_mem_dot x, by decide⟩
  show (dotReplaceChars ['-'] x.data).length = x.data.length
  rw [dotReplaceChars_eq_map, List.length_map]

/-- C17: rendering an empty subtree gives the empty text: a selection with no
nodes, and every selection whose walk emits no text (or white space only),
renders to the empty string (the renderer is a total function, it has no
error result), and the stored description is empty as well. -/
theorem renderHTML_empty (s : List Root) (h : TrimSpace (walkNodes "" s) = "") :
    renderHTML s = "" ∧
    (Monster.zero.getDescription s).Description = "" ∧
    renderHTML [] = "" ∧
    (walkNodes "" s = "" → renderHTML s = "") := by
  have h1 : renderHTML s = "" := by
    show dot.ReplaceAllString
      (doubleblank.ReplaceAllString (wordwrap.String (TrimSpace (walkNodes "" s)) 80) "\n\n")
      "-" = ""
    rw [h]
    decide
  refine ⟨h1, ?_, by decide, fun _ => h1⟩
  show trailing.ReplaceAllString (renderHTML s) "\n" = ""
  rw [h1]
  decide

theorem renderHTML_empty_witness :
    renderHTML
        [⟨none, Node.mk NodeType.ElementNode "div"
          [Node.mk NodeType.CommentNode "note" [],
           Node.mk NodeType.ElementNode "span" [],
           Node.mk NodeType.TextNode " \n " []]⟩] = "" ∧
    renderHTML [] = "" :=
  ⟨(renderHTML_empty _ (by decide)).1, (renderHTML_empty [] (by decide)).1⟩

/-! ## The record formatter: fields not shown, and the Senses line -/

/-- C19: the formatted text does not depend on `Name`, `Saves` or
`Proficiency`: two records that agree on every other field (that are equal
once these three fields are blanked) have the same `Monster.String`. -/
theorem String_independent (m₁ m₂ : Monster)
    (h : { m₁ with Name := "", Saves := "", Proficiency := "" } =
      { m₂ with Name := "", Saves := "", Proficiency := "" }) :
    m₁.String = m₂.String := by
  have key : ∀ m : Monster,
      m.String = Monster.String { m with Name := "", Saves := "", Proficiency := "" } :=
    fun _ => rfl
  rw [key m₁, key m₂, h]

theorem String_independent_witness :
    Monster.String { Monster.zero with Name := "Aboleth", Saves := "CON +6", AC := "17" } =
      Monster.String { Monster.zero with Proficiency := "+4", AC := "17" } :=
  String_independent _ _ rfl

theorem senses_ne_empty (v : String) : "passive Perception " ++ v ≠ "" := by
  intro h
  have := congrArg String.length h
  rw [String.length_append] at this
  have h19 : "passive Perception ".length = 19 := by decide
  have h0 : "".length = 0 := by decide
  omega

/-- C20: after `getAttrs` with the label `Passive Perception` and any value,
the empty one included, `Senses` is not empty, so `Monster.String` of the
record holds the line `*Senses* passive Perception `, the value, a newline,
after the Skills line (if any) and directly before the Languages line (if
any) and the Challenge text. -/
theorem senses_line (m : Monster) (e : HTMLElement) (h : e.attr = "Passive Perception") :
    (m.getAttrs e).Senses = "passive Perception " ++ e.value ∧
    (m.getAttrs e).Senses ≠ "" ∧
    (m.getAttrs e).String =
      statsBlock (m.getAttrs e) ++
        ((if m.Skills ≠ "" then "*Skills* " ++ m.Skills ++ "\n" else "") ++
         ("*Senses* passive Perception " ++ e.value ++ "\n") ++
         ((if m.Languages ≠ "" then "*Languages* " ++ m.Languages ++ "\n" else "") ++
          "*Challenge* " ++ m.Challenge)) := by
  have hget : m.getAttrs e = { m with Senses := "passive Perception " ++ e.value } := by
    simp only [HTMLElement.attr] at h
    simp [Monster.getAttrs, Monster.getAttrsSwitch, HTMLElement.value, h]
  refine ⟨by rw [hget], by rw [hget]; exact senses_ne_empty _, ?_⟩
  rw [String_eq, hget]
  simp only [trailer, if_pos (senses_ne_empty e.value), String.append_assoc]
  rfl

theorem senses_line_witness :
    (Monster.zero.getAttrs (HTMLElement.item "Passive Perception" "")).Senses ≠ "" ∧
    (Monster.zero.getAttrs (HTMLElement.item "Passive Perception" "")).String =
      "\n\n# Stats\n  \n```\nArmor Class \nHit Points \nSpeed \nSTR \nDEX \nCON \nINT \nWIS \nCHA \n```\n*Senses* passive Perception \n*Challenge* " :=
  ⟨(senses_line Monster.zero (HTMLElement.item "Passive Perception" "") (by decide)).2.1,
   by decide⟩

/-! ## The word-wrapping writer, case by case -/

theorem utf8ByteSize_eq (s : String) : s.utf8ByteSize = String.utf8Len s.data := by
  cases s; rfl

theorem utf8ByteSize_pos_iff (s : String) : 0 < s.utf8ByteSize ↔ s.data ≠ [] := by
  rw [utf8ByteSize_eq, Nat.pos_iff_ne_zero, ne_eq, String.utf8Len_eq_zero]

theorem utf8ByteSize_eq_zero_iff (s : String) : s.utf8ByteSize = 0 ↔ s.data = [] := by
  rw [utf8ByteSize_eq, String.utf8Len_eq_zero]

theorem addWord_of_empty {wd : Char → Nat} (w : WordWrap) (h : w.word.data = []) : w.addWord wd = w := by
  unfold WordWrap.addWord
  rw [if_neg]
  rw [utf8ByteSize_pos_iff]
  exact fun hc => hc h

theorem addWord_of_nonempty {wd : Char → Nat} (w : WordWrap) (h : w.word.data ≠ []) :
    w.addWord wd =
      { w with
        lineLen := w.lineLen + w.space.utf8ByteSize + PrintableRuneWidth wd w.word
        buf := w.buf ++ w.space ++ w.word
        space := ""
        word := "" } := by
  unfold WordWrap.addWord
  rw [if_pos ((utf8ByteSize_pos_iff _).2 h)]
  rfl

theorem writeRune_esc {wd : Char → Nat} (w : WordWrap) :
    w.writeRune wd '\x1b' = { w with word := w.word.push '\x1b', ansi := true } := by
  unfold WordWrap.writeRune
  rw [if_pos rfl]

theorem writeRune_ansi {wd : Char → Nat} (w : WordWrap) (c : Char) (hc : c ≠ '\x1b') (ha : w.ansi = true) :
    w.writeRune wd c = { w with word := w.word.push c, ansi := !isTerminator c } := by
  unfold WordWrap.writeRune
  rw [if_neg hc, if_pos ha]

theorem writeRune_space {wd : Char → Nat} (w : WordWrap) (c : Char) (hc : c ≠ '\x1b') (ha : w.ansi = false)
    (hn : c ≠ '\n') (hs : isSpace c = true) :
    w.writeRune wd c = { w.addWord wd with space := (w.addWord wd).space.push c } := by
  unfold WordWrap.writeRune
  rw [if_neg hc, if_neg (by rw [ha]; decide), if_neg hn, if_pos hs]

theorem writeRune_hyphen {wd : Char → Nat} (w : WordWrap) (ha : w.ansi = false) :
    w.writeRune wd '-' =
      { w.addSpace.addWord wd with buf := (w.addSpace.addWord wd).buf.push '-' } := by
  unfold WordWrap.writeRune
  rw [if_neg (by decide), if_neg (by rw [ha]; decide), if_neg (by decide), if_neg (by decide),
    if_pos rfl]

theorem writeRune_other {wd : Char → Nat} (w : WordWrap) (c : Char) (hc : c ≠ '\x1b') (ha : w.ansi = false)
    (hn : c ≠ '\n') (hs : isSpace c = false) (hh : c ≠ '-') :
    w.writeRune wd c =
      if w.lineLen + w.space.utf8ByteSize + PrintableRuneWidth wd (w.word.push c) > w.Limit
          ∧ PrintableRuneWidth wd (w.word.push c) < w.Limit then
        { w with word := w.word.push c, buf := w.buf.push '\n', lineLen := 0, space := "" }
      else { w with word := w.word.push c } := by
  unfold WordWrap.writeRune
  rw [if_neg hc, if_neg (by rw [ha]; decide), if_neg hn, if_neg (by rw [hs]; decide), if_neg hh]
  rfl

theorem writeRune_newline {wd : Char → Nat} (w : WordWrap) (ha : w.ansi = false) :
    w.writeRune wd '\n' =
      if w.word.data = [] then
        if w.lineLen + w.space.utf8ByteSize > w.Limit then
          { w with buf := w.buf.push '\n', lineLen := 0, space := "" }
        else { w with buf := (w.buf ++ w.space).push '\n', lineLen := 0, space := "" }
      else
        { w with
          buf := (w.buf ++ w.space ++ w.word).push '\n'
          lineLen := 0
          space := ""
          word := "" } := by
  unfold WordWrap.writeRune
  rw [if_neg (by decide), if_neg (by rw [ha]; decide), if_pos rfl]
  by_cases hw : w.word.data = []
  · rw [if_pos hw]
    simp only [utf8ByteSize_eq_zero_iff, hw, if_true]
    split_ifs
    · rw [addWord_of_empty]
      · rfl
      · exact hw
    · rw [addWord_of_empty]
      · rfl
      · exact hw
  · rw [if_neg hw]
    simp only [utf8ByteSize_eq_zero_iff, hw, if_false]
    rw [addWord_of_nonempty _ hw]
    rfl

theorem addWord_limit {wd : Char → Nat} (w : WordWrap) : (w.addWord wd).Limit = w.Limit := by
  unfold WordWrap.addWord
  split_ifs <;> rfl

theorem writeRune_limit {wd : Char → Nat} (w : WordWrap) (c : Char) : (w.writeRune wd c).Limit = w.Limit := by
  unfold WordWrap.writeRune
  split_ifs
  all_goals first
    | rfl
    | (simp only [WordWrap.addNewLine, WordWrap.addSpace, addWord_limit]; done)
    | (simp only [WordWrap.addNewLine]
       split_ifs <;> rfl)

/-! ## Word wrap of a text that fits the line -/

theorem ansiAfter_cons (b : Bool) (x : Char) (xs : List Char) :
    ansiAfter b (x :: xs) =
      ansiAfter (if x = '\x1b' then true else if b then !isTerminator x else false) xs := by
  rw [ansiAfter]
  split_ifs <;> rfl

theorem printableWidthChars_cons {wd : Char → Nat} (b : Bool) (x : Char) (xs : List Char) :
    printableWidthChars wd b (x :: xs) =
      (if x = '\x1b' then 0 else if b then 0 else wd x) +
        printableWidthChars wd
          (if x = '\x1b' then true else if b then !isTerminator x else false) xs := by
  rw [printableWidthChars]
  split_ifs <;> simp

theorem ansiAfter_concat (c : Char) (l : List Char) :
    ∀ b : Bool, ansiAfter b (l ++ [c]) =
      if c = '\x1b' then true else if ansiAfter b l then !isTerminator c else false := by
  induction l with
  | nil =>
    intro b
    rw [List.nil_append, ansiAfter_cons]
    cases b <;> split_ifs <;> simp_all [ansiAfter]
  | cons x xs ih =>
    intro b
    rw [List.cons_append, ansiAfter_cons, ansiAfter_cons, ih]

theorem printableWidthChars_concat {wd : Char → Nat} (c : Char) (l : List Char) :
    ∀ b : Bool, printableWidthChars wd b (l ++ [c]) =
      printableWidthChars wd b l +
        (if c = '\x1b' then 0 else if ansiAfter b l then 0 else wd c) := by
  induction l with
  | nil =>
    intro b
    rw [List.nil_append, printableWidthChars_cons]
    cases b <;> split_ifs <;> simp_all [ansiAfter, printableWidthChars]
  | cons x xs ih =>
    intro b
    rw [List.cons_append, printableWidthChars_cons, printableWidthChars_cons, ansiAfter_cons, ih]
    omega

theorem printableWidthChars_concat_le {wd : Char → Nat} (c : Char) (l : List Char) (b : Bool) :
    printableWidthChars wd b (l ++ [c]) ≤ printableWidthChars wd b l + wd c := by
  rw [printableWidthChars_concat]
  split_ifs <;> omega

theorem PrintableRuneWidth_push_le {wd : Char → Nat} (s : String) (c : Char) :
    PrintableRuneWidth wd (s.push c) ≤ PrintableRuneWidth wd s + wd c :=
  printableWidthChars_concat_le c s.data false

theorem wrapCost_append {wd : Char → Nat} (l r : List Char) :
    wrapCost wd (l ++ r) = wrapCost wd l + wrapCost wd r := by
  induction l with
  | nil => simp [wrapCost]
  | cons x xs ih =>
    show runeCost wd x + wrapCost wd (xs ++ r) = runeCost wd x + wrapCost wd xs + wrapCost wd r
    rw [ih]
    omega

theorem foldl_writeRune_limit {wd : Char → Nat} (rest : List Char) :
    ∀ w : WordWrap, (rest.foldl (WordWrap.writeRune wd) w).Limit = w.Limit := by
  induction rest with
  | nil => intro w; rfl
  | cons c cs ih => intro w; rw [List.foldl_cons, ih, writeRune_limit]

/-- One rune other than a newline is read by a writer whose line has room for
it: nothing is dropped and no newline is written. -/
theorem writeRune_fits {wd : Char → Nat} (w : WordWrap) (c : Char) (hn : c ≠ '\n')
    (hA : w.ansi = ansiAfter false w.word.data)
    (hb : w.lineLen + w.space.utf8ByteSize + PrintableRuneWidth wd w.word + runeCost wd c
      ≤ w.Limit) :
    (w.writeRune wd c).buf.data ++ (w.writeRune wd c).space.data ++ (w.writeRune wd c).word.data =
      w.buf.data ++ w.space.data ++ w.word.data ++ [c] ∧
    (w.writeRune wd c).lineLen + (w.writeRune wd c).space.utf8ByteSize +
        PrintableRuneWidth wd (w.writeRune wd c).word ≤
      w.lineLen + w.space.utf8ByteSize + PrintableRuneWidth wd w.word + runeCost wd c ∧
    (w.writeRune wd c).ansi = ansiAfter false (w.writeRune wd c).word.data ∧
    (isSpace c = false →
      (w.writeRune wd c).word.data ≠ [] ∨ (w.writeRune wd c).space.data = []) ∧
    (w.ansi = false → c ≠ '\x1b' → (w.writeRune wd c).ansi = false) := by
  have hpush : PrintableRuneWidth wd (w.word.push c) = PrintableRuneWidth wd w.word +
      (if c = '\x1b' then 0 else if ansiAfter false w.word.data then 0 else wd c) :=
    printableWidthChars_concat c w.word.data false
  have hansi : ansiAfter false (w.word.push c).data =
      if c = '\x1b' then true else if ansiAfter false w.word.data then !isTerminator c
        else false := ansiAfter_concat c w.word.data false
  by_cases hc : c = '\x1b'
  · subst hc
    rw [writeRune_esc]
    rw [if_pos rfl] at hpush hansi
    refine ⟨by simp, ?_, ?_, fun _ => Or.inl (by simp), fun _ h => absurd rfl h⟩
    · simp only
      omega
    · simp only
      exact hansi.symm
  by_cases ha : w.ansi = true
  · rw [writeRune_ansi w c hc ha]
    rw [if_neg hc, ← hA, ha, if_pos rfl] at hpush hansi
    refine ⟨by simp, ?_, ?_, fun _ => Or.inl (by simp), fun h => absurd ha (by rw [h]; decide)⟩
    · simp only
      omega
    · simp only
      exact hansi.symm
  have ha' : w.ansi = false := by simpa using ha
  rw [if_neg hc, ← hA, ha', if_neg (by decide)] at hpush hansi
  have h0 : PrintableRuneWidth wd "" = 0 := rfl
  have h1 : "".data = [] := rfl
  by_cases hs : isSpace c = true
  · rw [writeRune_space w c hc ha' hn hs]
    have hcs : runeCost wd c = c.utf8Size := by unfold runeCost; rw [if_pos hs]
    by_cases hw : w.word.data = []
    · rw [addWord_of_empty _ hw]
      refine ⟨by simp [hw], ?_, ?_, fun h => absurd hs (by rw [h]; decide), fun _ _ => ha'⟩
      · simp only [utf8ByteSize_eq, String.data_push, String.utf8Len_append, String.utf8Len_cons,
          String.utf8Len_nil]
        simp only [utf8ByteSize_eq] at hb
        omega
      · simp only
        rw [ha', hw]
        rfl
    · rw [addWord_of_nonempty _ hw]
      refine ⟨by simp, ?_, ?_, fun h => absurd hs (by rw [h]; decide), fun _ _ => ha'⟩
      · simp only [utf8ByteSize_eq, String.data_push, String.utf8Len_append,
          String.utf8Len_cons, String.utf8Len_nil]
        simp only [h0, h1, String.utf8Len_nil, List.nil_append, String.utf8Len_cons]
        omega
      · simp only
        rw [ha']
        rfl
  have hs' : isSpace c = false := by simpa using hs
  by_cases hh : c = '-'
  · subst hh
    rw [writeRune_hyphen w ha']
    have hcs : runeCost wd '-' = 0 := by
      unfold runeCost
      rw [if_neg (by decide), if_pos rfl]
    by_cases hw : w.word.data = []
    · rw [addWord_of_empty _ (by exact hw)]
      refine ⟨by simp [WordWrap.addSpace, hw], ?_, ?_,
        fun _ => Or.inr (by simp [WordWrap.addSpace]), fun _ _ => ha'⟩
      · have hw0 : PrintableRuneWidth wd w.word = 0 := by
          unfold PrintableRuneWidth
          rw [hw]
          rfl
        simp only [WordWrap.addSpace, utf8ByteSize_eq]
        simp only [utf8ByteSize_eq] at hb
        simp only [h1, String.utf8Len_nil, hw0]
        omega
      · simp only [WordWrap.addSpace]
        rw [ha', hw]
        rfl
    · rw [addWord_of_nonempty _ (by exact hw)]
      refine ⟨by simp [WordWrap.addSpace], ?_, ?_,
        fun _ => Or.inr (by simp [WordWrap.addSpace]), fun _ _ => ha'⟩
      · simp only [WordWrap.addSpace, utf8ByteSize_eq]
        simp only [h1, String.utf8Len_nil, h0]
        omega
      · simp only [WordWrap.addSpace]
        rw [ha']
        rfl
  · have hcs : runeCost wd c = wd c := by
      unfold runeCost
      rw [if_neg (by rw [hs']; decide), if_neg hh]
    rw [writeRune_other w c hc ha' hn hs' hh, if_neg]
    · refine ⟨by simp, ?_, ?_, fun _ => Or.inl (by simp), fun _ _ => ha'⟩
      · simp only
        omega
      · simp only
        rw [ha']
        exact hansi.symm
    · rintro ⟨h1, _⟩
      omega

/-- A newline is read by a writer outside an escape sequence whose line is
within the limit: the pending white space and word are written, then the
newline. -/
theorem writeRune_newline_fits {wd : Char → Nat} (w : WordWrap) (ha : w.ansi = false)
    (hb : w.lineLen + w.space.utf8ByteSize + PrintableRuneWidth wd w.word ≤ w.Limit) :
    (w.writeRune wd '\n').buf.data ++ (w.writeRune wd '\n').space.data
        ++ (w.writeRune wd '\n').word.data =
      w.buf.data ++ w.space.data ++ w.word.data ++ ['\n'] ∧
    (w.writeRune wd '\n').lineLen = 0 ∧ (w.writeRune wd '\n').space = "" ∧
    (w.writeRune wd '\n').word = "" ∧ (w.writeRune wd '\n').ansi = false := by
  rw [writeRune_newline w ha]
  by_cases hw : w.word.data = []
  · have hw' : w.word = "" := String.ext hw
    rw [if_pos hw, if_neg (by omega)]
    refine ⟨by simp [hw], rfl, rfl, hw', ha⟩
  · rw [if_neg hw]
    refine ⟨by simp, rfl, rfl, rfl, ha⟩

theorem linesFit_le {wd : Char → Nat} (limit : Nat) (rest : List Char) :
    ∀ used : Nat, linesFit wd limit used rest → used ≤ limit := by
  induction rest with
  | nil => intro used h; exact h
  | cons c cs ih =>
    intro used h
    rw [linesFit] at h
    split_ifs at h
    · exact h.1
    · have := ih _ h
      omega

theorem linesFit_of_wrapCost {wd : Char → Nat} (limit : Nat) (rest : List Char)
    (hn : '\n' ∉ rest) :
    ∀ used : Nat, used + wrapCost wd rest ≤ limit → linesFit wd limit used rest := by
  induction rest with
  | nil => intro used h; simpa [linesFit, wrapCost] using h
  | cons c cs ih =>
    intro used h
    have hc : c ≠ '\n' := fun h => hn (by rw [h]; exact List.mem_cons_self _ _)
    rw [linesFit, if_neg hc]
    apply ih (fun h => hn (List.mem_cons_of_mem _ h))
    simp only [wrapCost] at h
    omega

/-- A text of which every line fits the limit is written as it is: the text
written, the pending white space and the pending word hold the text read. The
text holds no escape rune, or no newline. -/
theorem foldl_writeRune_fits {wd : Char → Nat} (rest : List Char) :
    ∀ (w : WordWrap) (used : Nat),
      w.ansi = ansiAfter false w.word.data →
      ((w.ansi = false ∧ '\x1b' ∉ rest) ∨ '\n' ∉ rest) →
      w.lineLen + w.space.utf8ByteSize + PrintableRuneWidth wd w.word ≤ used →
      linesFit wd w.Limit used rest →
      (rest.foldl (WordWrap.writeRune wd) w).buf.data
          ++ (rest.foldl (WordWrap.writeRune wd) w).space.data
          ++ (rest.foldl (WordWrap.writeRune wd) w).word.data =
        w.buf.data ++ w.space.data ++ w.word.data ++ rest ∧
      (∀ c, rest.getLast? = some c → isSpace c = false →
        (rest.foldl (WordWrap.writeRune wd) w).word.data ≠ [] ∨
        (rest.foldl (WordWrap.writeRune wd) w).space.data = []) := by
  induction rest with
  | nil => intro w used _ _ _ _; exact ⟨by simp, fun c h => by simp at h⟩
  | cons c cs ih =>
    intro w used hA hH hU hF
    rw [List.foldl_cons]
    rw [linesFit] at hF
    by_cases hc : c = '\n'
    · subst hc
      rw [if_pos rfl] at hF
      have ha : w.ansi = false := by
        rcases hH with h | h
        · exact h.1
        · exact absurd (List.mem_cons_self _ _) h
      have hesc : '\x1b' ∉ cs := by
        rcases hH with h | h
        · exact fun hm => h.2 (List.mem_cons_of_mem _ hm)
        · exact absurd (List.mem_cons_self _ _) h
      have hstep := @writeRune_newline_fits wd w ha (by omega)
      obtain ⟨hd, hl, hsp, hwo, han⟩ := hstep
      have hF' : linesFit wd (w.writeRune wd '\n').Limit 0 cs := by
        rw [writeRune_limit]
        exact hF.2
      have := ih (w.writeRune wd '\n') 0 (by rw [han, hwo]; rfl) (Or.inl ⟨han, hesc⟩)
        (by rw [hl, hsp, hwo]; exact Nat.le_refl _) hF'
      refine ⟨?_, ?_⟩
      · rw [this.1, hd]
        simp
      · intro x hx hxs
        cases cs with
        | nil =>
          simp only [List.getLast?_singleton, Option.some.injEq] at hx
          rw [← hx] at hxs
          exact absurd hxs (by decide)
        | cons y ys =>
          rw [List.getLast?_cons_cons] at hx
          exact this.2 x hx hxs
    · rw [if_neg hc] at hF
      have hle := linesFit_le _ _ _ hF
      have hstep := @writeRune_fits wd w c hc hA (by omega)
      obtain ⟨hd, hl, han, hlast, hkeep⟩ := hstep
      have hH' : ((w.writeRune wd c).ansi = false ∧ '\x1b' ∉ cs) ∨ '\n' ∉ cs := by
        rcases hH with h | h
        · exact Or.inl ⟨hkeep h.1 (fun he => h.2 (by rw [he]; exact List.mem_cons_self _ _)),
            fun hm => h.2 (List.mem_cons_of_mem _ hm)⟩
        · exact Or.inr (fun hm => h (List.mem_cons_of_mem _ hm))
      have hF' : linesFit wd (w.writeRune wd c).Limit (used + runeCost wd c) cs := by
        rw [writeRune_limit]
        exact hF
      have := ih (w.writeRune wd c) (used + runeCost wd c) han hH' (by omega) hF'
      refine ⟨?_, ?_⟩
      · rw [this.1, hd]
        simp
      · intro x hx hxs
        cases cs with
        | nil =>
          simp only [List.getLast?_singleton, Option.some.injEq] at hx
          rw [← hx] at hxs
          simp only [List.foldl_nil]
          exact hlast hxs
        | cons y ys =>
          rw [List.getLast?_cons_cons] at hx
          exact this.2 x hx hxs

/-- The wrap step leaves a text as it is when every line fits the limit, the
text holds no escape rune or no newline, and it does not end with white
space. -/
theorem wordwrap_of_fits {wd : Char → Nat} (u : String)
    (hH : '\x1b' ∉ u.data ∨ '\n' ∉ u.data) (hfit : linesFit wd 80 0 u.data)
    (hlast : ∀ c, u.data.getLast? = some c → isSpace c = false) :
    wordwrap.StringWith wd u 80 = u := by
  unfold wordwrap.StringWith
  rw [if_neg (by decide)]
  apply String.ext
  have hH' : ((WordWrap.NewWriter 80).ansi = false ∧ '\x1b' ∉ u.data) ∨ '\n' ∉ u.data := by
    rcases hH with h | h
    · exact Or.inl ⟨rfl, h⟩
    · exact Or.inr h
  have h0 := @foldl_writeRune_fits wd u.data (WordWrap.NewWriter 80) 0 rfl hH'
    (Nat.le_refl _) hfit
  have hdata : (WordWrap.NewWriter 80).buf.data ++ (WordWrap.NewWriter 80).space.data
      ++ (WordWrap.NewWriter 80).word.data = [] := rfl
  rw [hdata, List.nil_append] at h0
  by_cases hw : (u.data.foldl (WordWrap.writeRune wd) (WordWrap.NewWriter 80)).word.data = []
  · rw [addWord_of_empty _ hw]
    rcases List.eq_nil_or_concat u.data with h | ⟨init, c, h⟩
    · rw [h]
      rfl
    · have hc : u.data.getLast? = some c := by rw [h]; simp
      rcases h0.2 c hc (hlast c hc) with h2 | h2
      · exact absurd hw h2
      · have := h0.1
        rw [hw, h2, List.append_nil, List.append_nil] at this
        exact this
  · rw [addWord_of_nonempty _ hw]
    exact h0.1

/-! ## A single text node -/

theorem trimSpaceChars_sublist (l : List Char) : (trimSpaceChars l).Sublist l := by
  unfold trimSpaceChars
  have h1 : ((l.dropWhile isSpace).reverse.dropWhile isSpace).Sublist (l.dropWhile isSpace).reverse :=
    List.dropWhile_sublist _
  have h2 := h1.reverse
  rw [List.reverse_reverse] at h2
  exact h2.trans (List.dropWhile_sublist _)

theorem trimSpaceChars_getLast (l : List Char) (c : Char)
    (h : (trimSpaceChars l).getLast? = some c) : isSpace c = false := by
  unfold trimSpaceChars at h
  rw [List.getLast?_reverse] at h
  have := List.head?_dropWhile_not isSpace (l.dropWhile isSpace).reverse
  rw [h] at this
  simpa using this

theorem wrapCost_le_of_sublist {wd : Char → Nat} {l₁ l₂ : List Char} (h : l₁.Sublist l₂) :
    wrapCost wd l₁ ≤ wrapCost wd l₂ := by
  induction h with
  | slnil => exact Nat.le_refl _
  | cons a _ ih => simp only [wrapCost]; omega
  | cons₂ a _ ih => simp only [wrapCost]; omega

theorem space_newline_not_mem (t : String) :
    '\n' ∉ (space.ReplaceAllString t " ").data := by
  intro h
  rcases mem_spaceReplaceChars h with h | h
  · exact absurd h (by decide)
  · exact absurd h (by decide)

theorem walkNodes_single_text (t : String) :
    walkNodes "" [⟨none, Node.mk NodeType.TextNode t []⟩] = space.ReplaceAllString t " " := by
  simp only [walkNodes, f, fNode, fChildren]
  simp

theorem wrapCost_le_textColumns {wd : Char → Nat} (l : List Char) :
    wrapCost wd l ≤ textColumns wd l := by
  induction l with
  | nil => exact Nat.le_refl _
  | cons c cs ih =>
    rw [wrapCost, textColumns]
    have h : runeCost wd c ≤ runeColumns wd c := by
      unfold runeCost runeColumns
      split_ifs <;> omega
    omega

/-- C15, as the code has it, whatever the table of display widths: for a tree
of a single text node whose whitespace-collapsed payload takes at most 80
columns, a white-space rune being counted by the bytes of its encoding and
every other rune by its display width, and holds no bullet, the renderer's
output is the whitespace-collapsed payload with leading and trailing white
space trimmed. -/
theorem renderHTML_single_text (wd : Char → Nat) (t : String)
    (hfit : textColumns wd (space.ReplaceAllString t " ").data ≤ 80)
    (hdot : '•' ∉ (space.ReplaceAllString t " ").data) :
    renderHTMLWith wd [⟨none, Node.mk NodeType.TextNode t []⟩] =
      TrimSpace (space.ReplaceAllString t " ") := by
  have hsub : (TrimSpace (space.ReplaceAllString t " ")).data.Sublist
      (space.ReplaceAllString t " ").data := trimSpaceChars_sublist _
  have hn : '\n' ∉ (TrimSpace (space.ReplaceAllString t " ")).data := fun h =>
    (space_newline_not_mem t) (hsub.subset h)
  have hwrap : wordwrap.StringWith wd (TrimSpace (space.ReplaceAllString t " ")) 80 =
      TrimSpace (space.ReplaceAllString t " ") :=
    wordwrap_of_fits _ (Or.inr hn)
      (linesFit_of_wrapCost 80 _ hn 0
        (by
          have := Nat.le_trans (@wrapCost_le_of_sublist wd _ _ hsub)
            (Nat.le_trans (wrapCost_le_textColumns _) hfit)
          omega))
      (trimSpaceChars_getLast _)
  have hblank : ¬ (['\n', '\n', '\n'] <:+: (TrimSpace (space.ReplaceAllString t " ")).data) :=
    fun h => hn (h.subset (List.mem_cons_self _ _))
  show dot.ReplaceAllString (doubleblank.ReplaceAllString
    (wordwrap.StringWith wd
      (TrimSpace (walkNodes "" [⟨none, Node.mk NodeType.TextNode t []⟩])) 80)
    "\n\n") "-" = _
  rw [walkNodes_single_text, hwrap, doubleblank_of_no_match _ hblank]
  apply String.ext
  exact dotReplaceChars_of_not_mem _ _ (fun h => hdot (hsub.subset h))

theorem renderHTML_single_text_witness :
    renderHTML [⟨none, Node.mk NodeType.TextNode "A  great\nbeast." []⟩] = "A great beast." :=
  (renderHTML_single_text runeWidth "A  great\nbeast." (by decide) (by decide)).trans (by decide)

set_option maxRecDepth 100000 in
/-- C15 as stated fails: a payload of 42 runes, 42 columns wide, with 40
no-break spaces between two letters is broken by the wrap step, which counts
the no-break spaces by their 80 bytes. -/
theorem renderHTML_single_text_nbsp :
    PrintableRuneWidth runeWidth (space.ReplaceAllString "a\u00a0\u00a0\u00a0\u00a0\u00a0\u00a0\u00a0\u00a0\u00a0\u00a0\u00a0\u00a0\u00a0\u00a0\u00a0\u00a0\u00a0\u00a0\u00a0\u00a0\u00a0\u00a0\u00a0\u00a0\u00a0\u00a0\u00a0\u00a0\u00a0\u00a0\u00a0\u00a0\u00a0\u00a0\u00a0\u00a0\u00a0\u00a0\u00a0\u00a0b" " ") = 42 ∧
    (space.ReplaceAllString "a\u00a0\u00a0\u00a0\u00a0\u00a0\u00a0\u00a0\u00a0\u00a0\u00a0\u00a0\u00a0\u00a0\u00a0\u00a0\u00a0\u00a0\u00a0\u00a0\u00a0\u00a0\u00a0\u00a0\u00a0\u00a0\u00a0\u00a0\u00a0\u00a0\u00a0\u00a0\u00a0\u00a0\u00a0\u00a0\u00a0\u00a0\u00a0\u00a0\u00a0b" " ").length = 42 ∧
    '•' ∉ (space.ReplaceAllString "a\u00a0\u00a0\u00a0\u00a0\u00a0\u00a0\u00a0\u00a0\u00a0\u00a0\u00a0\u00a0\u00a0\u00a0\u00a0\u00a0\u00a0\u00a0\u00a0\u00a0\u00a0\u00a0\u00a0\u00a0\u00a0\u00a0\u00a0\u00a0\u00a0\u00a0\u00a0\u00a0\u00a0\u00a0\u00a0\u00a0\u00a0\u00a0\u00a0\u00a0b" " ").data ∧
    TrimSpace (space.ReplaceAllString "a\u00a0\u00a0\u00a0\u00a0\u00a0\u00a0\u00a0\u00a0\u00a0\u00a0\u00a0\u00a0\u00a0\u00a0\u00a0\u00a0\u00a0\u00a0\u00a0\u00a0\u00a0\u00a0\u00a0\u00a0\u00a0\u00a0\u00a0\u00a0\u00a0\u00a0\u00a0\u00a0\u00a0\u00a0\u00a0\u00a0\u00a0\u00a0\u00a0\u00a0b" " ") = "a\u00a0\u00a0\u00a0\u00a0\u00a0\u00a0\u00a0\u00a0\u00a0\u00a0\u00a0\u00a0\u00a0\u00a0\u00a0\u00a0\u00a0\u00a0\u00a0\u00a0\u00a0\u00a0\u00a0\u00a0\u00a0\u00a0\u00a0\u00a0\u00a0\u00a0\u00a0\u00a0\u00a0\u00a0\u00a0\u00a0\u00a0\u00a0\u00a0\u00a0b" ∧
    renderHTML [⟨none, Node.mk NodeType.TextNode "a\u00a0\u00a0\u00a0\u00a0\u00a0\u00a0\u00a0\u00a0\u00a0\u00a0\u00a0\u00a0\u00a0\u00a0\u00a0\u00a0\u00a0\u00a0\u00a0\u00a0\u00a0\u00a0\u00a0\u00a0\u00a0\u00a0\u00a0\u00a0\u00a0\u00a0\u00a0\u00a0\u00a0\u00a0\u00a0\u00a0\u00a0\u00a0\u00a0\u00a0b" []⟩] = "a\nb" ∧
    renderHTML [⟨none, Node.mk NodeType.TextNode "a\u00a0\u00a0\u00a0\u00a0\u00a0\u00a0\u00a0\u00a0\u00a0\u00a0\u00a0\u00a0\u00a0\u00a0\u00a0\u00a0\u00a0\u00a0\u00a0\u00a0\u00a0\u00a0\u00a0\u00a0\u00a0\u00a0\u00a0\u00a0\u00a0\u00a0\u00a0\u00a0\u00a0\u00a0\u00a0\u00a0\u00a0\u00a0\u00a0\u00a0b" []⟩] ≠
      TrimSpace (space.ReplaceAllString "a\u00a0\u00a0\u00a0\u00a0\u00a0\u00a0\u00a0\u00a0\u00a0\u00a0\u00a0\u00a0\u00a0\u00a0\u00a0\u00a0\u00a0\u00a0\u00a0\u00a0\u00a0\u00a0\u00a0\u00a0\u00a0\u00a0\u00a0\u00a0\u00a0\u00a0\u00a0\u00a0\u00a0\u00a0\u00a0\u00a0\u00a0\u00a0\u00a0\u00a0b" " ") := by
  refine ⟨by decide, by decide, by decide, by decide, by decide, by decide⟩

/-! ## The lines of the wrapped text -/

theorem foldl_splitStep_of_no_newline (x : List Char) (hx : '\n' ∉ x) :
    ∀ st : List (List Char) × List Char, x.foldl splitStep st = (st.1, st.2 ++ x) := by
  induction x with
  | nil => intro st; simp
  | cons c cs ih =>
    intro st
    have hc : c ≠ '\n' := fun h => hx (by rw [h]; exact List.mem_cons_self _ _)
    have hcs : '\n' ∉ cs := fun h => hx (List.mem_cons_of_mem _ h)
    rw [List.foldl_cons, ih hcs]
    simp [splitStep, hc]

theorem splitLines_append (l x : List Char) (hx : '\n' ∉ x) :
    splitLines (l ++ x) = ((splitLines l).1, (splitLines l).2 ++ x) := by
  unfold splitLines
  rw [List.foldl_append, foldl_splitStep_of_no_newline x hx]

theorem splitLines_concat_newline (l : List Char) :
    splitLines (l ++ ['\n']) = ((splitLines l).1 ++ [(splitLines l).2], []) := by
  unfold splitLines
  rw [List.foldl_append]
  simp [splitStep]

theorem printableWidthChars_eq_wrapCost {wd : Char → Nat} (l : List Char)
    (h : ∀ c ∈ l, isSpace c = false ∧ c ≠ '\x1b' ∧ c ≠ '-') :
    printableWidthChars wd false l = wrapCost wd l := by
  induction l with
  | nil => rfl
  | cons c cs ih =>
    have hc := h c (List.mem_cons_self _ _)
    rw [printableWidthChars, if_neg hc.2.1, if_neg (by decide), wrapCost,
      ih (fun x hx => h x (List.mem_cons_of_mem _ hx))]
    unfold runeCost
    rw [if_neg (by rw [hc.1]; decide), if_neg hc.2.2]

theorem utf8Len_eq_wrapCost {wd : Char → Nat} (l : List Char) (h : ∀ c ∈ l, isSpace c = true ∧ c ≠ '\n') :
    String.utf8Len l = wrapCost wd l := by
  induction l with
  | nil => rfl
  | cons c cs ih =>
    have hc := h c (List.mem_cons_self _ _)
    rw [String.utf8Len_cons, wrapCost, ih (fun x hx => h x (List.mem_cons_of_mem _ hx))]
    unfold runeCost
    rw [if_pos hc.1]
    omega

theorem wrapCost_hyphen {wd : Char → Nat} : wrapCost wd ['-'] = 0 := by
  unfold wrapCost runeCost
  rw [if_neg (by decide), if_pos rfl]
  rfl

theorem lineOK_nil {wd : Char → Nat} (limit : Nat) : LineOK wd limit [] := Or.inl (Nat.zero_le _)

/-- The line after the pending white space and the pending word are written
to it. -/
theorem lineOK_addWord {wd : Char → Nat} (w : WordWrap) (h : WrapInv wd w) (hw : w.word.data ≠ []) :
    LineOK wd w.Limit ((splitLines w.buf.data).2 ++ w.space.data ++ w.word.data) := by
  have hcost : wrapCost wd ((splitLines w.buf.data).2 ++ w.space.data ++ w.word.data) =
      w.lineLen + w.space.utf8ByteSize + PrintableRuneWidth wd w.word := by
    rw [wrapCost_append, wrapCost_append, ← h.lineLen_eq, ← utf8Len_eq_wrapCost _ h.space_ws,
      ← printableWidthChars_eq_wrapCost _ h.word_tok, utf8ByteSize_eq]
    rfl
  rcases h.pending with hp | hp | hp
  · exact absurd hp hw
  · exact Or.inl (by rw [hcost]; exact hp)
  · exact Or.inr (Or.inr ⟨w.word.data, List.suffix_append _ _,
      fun c hc => (h.word_tok c hc).1, hp⟩)


theorem space_no_newline {wd : Char → Nat} (w : WordWrap) (h : WrapInv wd w) : '\n' ∉ w.space.data :=
  fun hc => (h.space_ws _ hc).2 rfl

theorem word_no_newline {wd : Char → Nat} (w : WordWrap) (h : WrapInv wd w) : '\n' ∉ w.word.data :=
  fun hc => absurd (h.word_tok _ hc).1 (by decide)

theorem wrapCost_addWord {wd : Char → Nat} (w : WordWrap) (h : WrapInv wd w) :
    wrapCost wd ((splitLines w.buf.data).2 ++ w.space.data ++ w.word.data) =
      w.lineLen + w.space.utf8ByteSize + PrintableRuneWidth wd w.word := by
  rw [wrapCost_append, wrapCost_append, ← h.lineLen_eq, ← utf8Len_eq_wrapCost _ h.space_ws,
    ← printableWidthChars_eq_wrapCost _ h.word_tok, utf8ByteSize_eq]
  rfl

theorem wrapCost_addSpace {wd : Char → Nat} (w : WordWrap) (h : WrapInv wd w) :
    wrapCost wd ((splitLines w.buf.data).2 ++ w.space.data) = w.lineLen + w.space.utf8ByteSize := by
  rw [wrapCost_append, ← h.lineLen_eq, ← utf8Len_eq_wrapCost _ h.space_ws, utf8ByteSize_eq]

theorem splitLines_space_word {wd : Char → Nat} (w : WordWrap) (h : WrapInv wd w) :
    splitLines (w.buf.data ++ w.space.data ++ w.word.data) =
      ((splitLines w.buf.data).1, (splitLines w.buf.data).2 ++ w.space.data ++ w.word.data) := by
  rw [splitLines_append _ _ (word_no_newline w h), splitLines_append _ _ (space_no_newline w h)]

theorem wrapInv_newline {wd : Char → Nat} (w : WordWrap) (h : WrapInv wd w) : WrapInv wd (w.writeRune wd '\n') := by
  rw [writeRune_newline w h.ansi]
  by_cases hw : w.word.data = []
  · rw [if_pos hw]
    by_cases hover : w.lineLen + w.space.utf8ByteSize > w.Limit
    · rw [if_pos hover]
      have hsplit : splitLines (w.buf.push '\n').data =
          ((splitLines w.buf.data).1 ++ [(splitLines w.buf.data).2], []) := by
        rw [String.data_push, splitLines_concat_newline]
      refine ⟨h.ansi, ?_, h.word_tok, ?_, ?_, ?_, Or.inl hw⟩
      · intro c hc
        exact absurd hc (List.not_mem_nil c)
      · show 0 = wrapCost wd (splitLines (w.buf.push '\n').data).2
        rw [hsplit]
        rfl
      · show LineOK wd w.Limit (splitLines (w.buf.push '\n').data).2
        rw [hsplit]
        exact lineOK_nil _
      · intro line hl
        change line ∈ (splitLines (w.buf.push '\n').data).1 at hl
        rw [hsplit, List.mem_append, List.mem_singleton] at hl
        rcases hl with hl | rfl
        · exact h.done_ok line hl
        · exact h.cur_ok
    · rw [if_neg hover]
      have hsplit : splitLines ((w.buf ++ w.space).push '\n').data =
          ((splitLines w.buf.data).1 ++ [(splitLines w.buf.data).2 ++ w.space.data], []) := by
        rw [String.data_push, String.data_append, splitLines_concat_newline,
          splitLines_append _ _ (space_no_newline w h)]
      refine ⟨h.ansi, ?_, h.word_tok, ?_, ?_, ?_, Or.inl hw⟩
      · intro c hc
        exact absurd hc (List.not_mem_nil c)
      · show 0 = wrapCost wd (splitLines ((w.buf ++ w.space).push '\n').data).2
        rw [hsplit]
        rfl
      · show LineOK wd w.Limit (splitLines ((w.buf ++ w.space).push '\n').data).2
        rw [hsplit]
        exact lineOK_nil _
      · intro line hl
        change line ∈ (splitLines ((w.buf ++ w.space).push '\n').data).1 at hl
        rw [hsplit, List.mem_append, List.mem_singleton] at hl
        rcases hl with hl | rfl
        · exact h.done_ok line hl
        · refine Or.inl ?_
          show wrapCost wd ((splitLines w.buf.data).2 ++ w.space.data) ≤ w.Limit
          rw [wrapCost_addSpace w h]
          omega
  · rw [if_neg hw]
    have hsplit : splitLines ((w.buf ++ w.space ++ w.word).push '\n').data =
        ((splitLines w.buf.data).1 ++
          [(splitLines w.buf.data).2 ++ w.space.data ++ w.word.data], []) := by
      rw [String.data_push, String.data_append, String.data_append, splitLines_concat_newline,
        splitLines_space_word w h]
    refine ⟨h.ansi, ?_, ?_, ?_, ?_, ?_, Or.inl rfl⟩
    · intro c hc
      exact absurd hc (List.not_mem_nil c)
    · intro c hc
      exact absurd hc (List.not_mem_nil c)
    · show 0 = wrapCost wd (splitLines ((w.buf ++ w.space ++ w.word).push '\n').data).2
      rw [hsplit]
      rfl
    · show LineOK wd w.Limit (splitLines ((w.buf ++ w.space ++ w.word).push '\n').data).2
      rw [hsplit]
      exact lineOK_nil _
    · intro line hl
      change line ∈ (splitLines ((w.buf ++ w.space ++ w.word).push '\n').data).1 at hl
      rw [hsplit, List.mem_append, List.mem_singleton] at hl
      rcases hl with hl | rfl
      · exact h.done_ok line hl
      · exact lineOK_addWord w h hw


theorem wrapInv_space {wd : Char → Nat} (w : WordWrap) (h : WrapInv wd w) (c : Char) (hc : c ≠ '\x1b')
    (hn : c ≠ '\n') (hs : isSpace c = true) : WrapInv wd (w.writeRune wd c) := by
  rw [writeRune_space w c hc h.ansi hn hs]
  by_cases hw : w.word.data = []
  · rw [addWord_of_empty _ hw]
    refine ⟨h.ansi, ?_, h.word_tok, h.lineLen_eq, h.cur_ok, h.done_ok, Or.inl hw⟩
    intro x hx
    change x ∈ (w.space.push c).data at hx
    rw [String.data_push, List.mem_append, List.mem_singleton] at hx
    rcases hx with hx | rfl
    · exact h.space_ws x hx
    · exact ⟨hs, hn⟩
  · rw [addWord_of_nonempty _ hw]
    have hsplit : splitLines (w.buf ++ w.space ++ w.word).data =
        ((splitLines w.buf.data).1, (splitLines w.buf.data).2 ++ w.space.data ++ w.word.data) := by
      rw [String.data_append, String.data_append, splitLines_space_word w h]
    refine ⟨h.ansi, ?_, ?_, ?_, ?_, ?_, Or.inl rfl⟩
    · intro x hx
      change x ∈ ("".push c).data at hx
      rw [String.data_push] at hx
      have hx' : x = c := by simpa using hx
      rw [hx']
      exact ⟨hs, hn⟩
    · intro x hx
      exact absurd hx (List.not_mem_nil x)
    · show w.lineLen + w.space.utf8ByteSize + PrintableRuneWidth wd w.word =
        wrapCost wd (splitLines (w.buf ++ w.space ++ w.word).data).2
      rw [hsplit, wrapCost_addWord w h]
    · show LineOK wd w.Limit (splitLines (w.buf ++ w.space ++ w.word).data).2
      rw [hsplit]
      exact lineOK_addWord w h hw
    · intro line hl
      change line ∈ (splitLines (w.buf ++ w.space ++ w.word).data).1 at hl
      rw [hsplit] at hl
      exact h.done_ok line hl

theorem wrapInv_hyphen {wd : Char → Nat} (w : WordWrap) (h : WrapInv wd w) : WrapInv wd (w.writeRune wd '-') := by
  rw [writeRune_hyphen w h.ansi]
  have hlast : ∀ l : List Char, LineOK wd w.Limit (l ++ ['-']) := fun l =>
    Or.inr (Or.inl (by simp))
  by_cases hw : w.word.data = []
  · rw [addWord_of_empty _ (by exact hw)]
    have hsplit : splitLines ((w.buf ++ w.space).push '-').data =
        ((splitLines w.buf.data).1, (splitLines w.buf.data).2 ++ w.space.data ++ ['-']) := by
      rw [String.data_push, String.data_append, splitLines_append _ _ (by decide),
        splitLines_append _ _ (space_no_newline w h)]
    refine ⟨h.ansi, ?_, h.word_tok, ?_, ?_, ?_, Or.inl hw⟩
    · intro x hx
      exact absurd hx (List.not_mem_nil x)
    · show w.lineLen + w.space.utf8ByteSize =
        wrapCost wd (splitLines ((w.buf ++ w.space).push '-').data).2
      rw [hsplit, wrapCost_append, wrapCost_addSpace w h, wrapCost_hyphen]
      rfl
    · show LineOK wd w.Limit (splitLines ((w.buf ++ w.space).push '-').data).2
      rw [hsplit]
      exact hlast _
    · intro line hl
      change line ∈ (splitLines ((w.buf ++ w.space).push '-').data).1 at hl
      rw [hsplit] at hl
      exact h.done_ok line hl
  · rw [addWord_of_nonempty _ (by exact hw)]
    have hsplit : splitLines ((w.buf ++ w.space ++ "" ++ w.word).push '-').data =
        ((splitLines w.buf.data).1,
          (splitLines w.buf.data).2 ++ w.space.data ++ w.word.data ++ ['-']) := by
      rw [String.data_push, String.data_append, String.data_append, String.data_append,
        splitLines_append _ _ (by decide)]
      have h0 : "".data = [] := rfl
      rw [h0, List.append_nil, splitLines_space_word w h]
    refine ⟨h.ansi, ?_, ?_, ?_, ?_, ?_, Or.inl rfl⟩
    · intro x hx
      exact absurd hx (List.not_mem_nil x)
    · intro x hx
      exact absurd hx (List.not_mem_nil x)
    · show w.lineLen + w.space.utf8ByteSize + "".utf8ByteSize + PrintableRuneWidth wd w.word =
        wrapCost wd (splitLines ((w.buf ++ w.space ++ "" ++ w.word).push '-').data).2
      rw [hsplit, wrapCost_append, wrapCost_addWord w h, wrapCost_hyphen]
      rfl
    · show LineOK wd w.Limit (splitLines ((w.buf ++ w.space ++ "" ++ w.word).push '-').data).2
      rw [hsplit]
      exact hlast _
    · intro line hl
      change line ∈ (splitLines ((w.buf ++ w.space ++ "" ++ w.word).push '-').data).1 at hl
      rw [hsplit] at hl
      exact h.done_ok line hl

theorem wrapInv_other {wd : Char → Nat} (w : WordWrap) (h : WrapInv wd w) (c : Char) (hc : c ≠ '\x1b')
    (hn : c ≠ '\n') (hs : isSpace c = false) (hh : c ≠ '-') : WrapInv wd (w.writeRune wd c) := by
  rw [writeRune_other w c hc h.ansi hn hs hh]
  have hword : ∀ x ∈ (w.word.push c).data, isSpace x = false ∧ x ≠ '\x1b' ∧ x ≠ '-' := by
    intro x hx
    rw [String.data_push, List.mem_append, List.mem_singleton] at hx
    rcases hx with hx | rfl
    · exact h.word_tok x hx
    · exact ⟨hs, hc, hh⟩
  by_cases hbreak : w.lineLen + w.space.utf8ByteSize + PrintableRuneWidth wd (w.word.push c) > w.Limit
      ∧ PrintableRuneWidth wd (w.word.push c) < w.Limit
  · rw [if_pos hbreak]
    have hsplit : splitLines (w.buf.push '\n').data =
        ((splitLines w.buf.data).1 ++ [(splitLines w.buf.data).2], []) := by
      rw [String.data_push, splitLines_concat_newline]
    refine ⟨h.ansi, ?_, hword, ?_, ?_, ?_, Or.inr (Or.inl ?_)⟩
    · intro x hx
      exact absurd hx (List.not_mem_nil x)
    · show 0 = wrapCost wd (splitLines (w.buf.push '\n').data).2
      rw [hsplit]
      rfl
    · show LineOK wd w.Limit (splitLines (w.buf.push '\n').data).2
      rw [hsplit]
      exact lineOK_nil _
    · intro line hl
      change line ∈ (splitLines (w.buf.push '\n').data).1 at hl
      rw [hsplit, List.mem_append, List.mem_singleton] at hl
      rcases hl with hl | rfl
      · exact h.done_ok line hl
      · exact h.cur_ok
    · show 0 + "".utf8ByteSize + PrintableRuneWidth wd (w.word.push c) ≤ w.Limit
      have h0 : "".utf8ByteSize = 0 := rfl
      rw [h0]
      omega
  · rw [if_neg hbreak]
    refine ⟨h.ansi, h.space_ws, hword, h.lineLen_eq, h.cur_ok, h.done_ok, Or.inr ?_⟩
    show w.lineLen + w.space.utf8ByteSize + PrintableRuneWidth wd (w.word.push c) ≤ w.Limit ∨
      w.Limit ≤ PrintableRuneWidth wd (w.word.push c)
    by_cases h1 : w.lineLen + w.space.utf8ByteSize + PrintableRuneWidth wd (w.word.push c) ≤ w.Limit
    · exact Or.inl h1
    · right
      by_contra h2
      exact hbreak ⟨by omega, by omega⟩

theorem wrapInv_writeRune {wd : Char → Nat} (w : WordWrap) (h : WrapInv wd w) (c : Char) (hc : c ≠ '\x1b') :
    WrapInv wd (w.writeRune wd c) := by
  by_cases hn : c = '\n'
  · rw [hn]
    exact wrapInv_newline w h
  by_cases hs : isSpace c = true
  · exact wrapInv_space w h c hc hn hs
  by_cases hh : c = '-'
  · rw [hh]
    exact wrapInv_hyphen w h
  · exact wrapInv_other w h c hc hn (by simpa using hs) hh

theorem wrapInv_foldl {wd : Char → Nat} (cs : List Char) (hcs : '\x1b' ∉ cs) :
    ∀ w : WordWrap, WrapInv wd w → WrapInv wd (cs.foldl (WordWrap.writeRune wd) w) := by
  induction cs with
  | nil => intro w h; exact h
  | cons c cs ih =>
    intro w h
    rw [List.foldl_cons]
    exact ih (fun hx => hcs (List.mem_cons_of_mem _ hx)) _
      (wrapInv_writeRune w h c (fun hc => hcs (by rw [hc]; exact List.mem_cons_self _ _)))

theorem wrapInv_newWriter {wd : Char → Nat} (limit : Nat) : WrapInv wd (WordWrap.NewWriter limit) :=
  ⟨rfl, fun c hc => absurd hc (List.not_mem_nil c), fun c hc => absurd hc (List.not_mem_nil c),
    rfl, lineOK_nil _, fun l hl => absurd hl (List.not_mem_nil l), Or.inl rfl⟩

theorem wordwrap_lines_ok {wd : Char → Nat} (s : String) (hs : '\x1b' ∉ s.data) :
    ∀ line ∈ textLines (wordwrap.StringWith wd s 80).data, LineOK wd 80 line := by
  unfold wordwrap.StringWith
  rw [if_neg (by decide)]
  have hinv := @wrapInv_foldl wd s.data hs _ (wrapInv_newWriter 80)
  have hL : (s.data.foldl (WordWrap.writeRune wd) (WordWrap.NewWriter 80)).Limit = 80 := by
    rw [foldl_writeRune_limit]
    rfl
  generalize s.data.foldl (WordWrap.writeRune wd) (WordWrap.NewWriter 80) = w at hinv hL
  intro line hl
  unfold textLines at hl
  by_cases hw : w.word.data = []
  · rw [addWord_of_empty _ hw, List.mem_append, List.mem_singleton] at hl
    rw [← hL]
    rcases hl with hl | rfl
    · exact hinv.done_ok line hl
    · exact hinv.cur_ok
  · rw [addWord_of_nonempty _ hw] at hl
    change line ∈ (splitLines (w.buf ++ w.space ++ w.word).data).1 ++
      [(splitLines (w.buf ++ w.space ++ w.word).data).2] at hl
    rw [String.data_append, String.data_append, splitLines_space_word w hinv, List.mem_append,
      List.mem_singleton] at hl
    rw [← hL]
    rcases hl with hl | rfl
    · exact hinv.done_ok line hl
    · exact lineOK_addWord w hinv hw

/-! ## Tokens in the wrapped text -/

theorem nonSpace_append (l r : List Char) : nonSpace (l ++ r) = nonSpace l ++ nonSpace r := by
  unfold nonSpace
  exact List.filter_append _ _

theorem nonSpace_of_spaces (m : List Char) (h : ∀ y ∈ m, isSpace y = true) : nonSpace m = [] := by
  unfold nonSpace
  rw [List.filter_eq_nil_iff]
  intro y hy
  rw [h y hy]
  decide

/-- The shape of one step of the writer: either the rune is added to the
pending word, at most white space being written before it, or the pending word
is written out after at most white space and the rune follows it (when it is
not white space). -/
theorem writeRune_shape {wd : Char → Nat} (w : WordWrap) (c : Char) (hS : ∀ y ∈ w.space.data, isSpace y = true) :
    (∀ y ∈ (w.writeRune wd c).space.data, isSpace y = true) ∧
    (∃ m, (∀ y ∈ m, isSpace y = true) ∧
      (((w.writeRune wd c).buf.data = w.buf.data ++ m ∧
          (w.writeRune wd c).word.data = w.word.data ++ [c]) ∨
        ∃ x, (w.writeRune wd c).buf.data = w.buf.data ++ m ++ w.word.data ++ x ∧
          (w.writeRune wd c).word.data = [] ∧ nonSpace x = nonSpace [c])) ∧
    (isSpace c = false → c ≠ '-' →
      (w.writeRune wd c).word.data = w.word.data ++ [c] ∧
        ∃ m, (∀ y ∈ m, isSpace y = true) ∧ (w.writeRune wd c).buf.data = w.buf.data ++ m) := by
  have hnil : ∀ y ∈ ([] : List Char), isSpace y = true := fun y hy => absurd hy (List.not_mem_nil y)
  have hnl : ∀ y ∈ ['\n'], isSpace y = true := by
    intro y hy
    rw [List.mem_singleton] at hy
    rw [hy]
    decide
  by_cases hc : c = '\x1b'
  · subst hc
    rw [writeRune_esc]
    exact ⟨hS, ⟨[], hnil, Or.inl ⟨by simp, by simp⟩⟩, fun _ _ => ⟨by simp, [], hnil, by simp⟩⟩
  by_cases ha : w.ansi = true
  · rw [writeRune_ansi w c hc ha]
    exact ⟨hS, ⟨[], hnil, Or.inl ⟨by simp, by simp⟩⟩, fun _ _ => ⟨by simp, [], hnil, by simp⟩⟩
  have ha' : w.ansi = false := by simpa using ha
  by_cases hn : c = '\n'
  · subst hn
    rw [writeRune_newline w ha']
    refine ⟨?_, ?_, fun h => absurd h (by decide)⟩
    · split_ifs <;> exact hnil
    · by_cases hw : w.word.data = []
      · rw [if_pos hw]
        by_cases hover : w.lineLen + w.space.utf8ByteSize > w.Limit
        · rw [if_pos hover]
          exact ⟨[], hnil, Or.inr ⟨['\n'], by simp [hw], hw, rfl⟩⟩
        · rw [if_neg hover]
          exact ⟨w.space.data, hS, Or.inr ⟨['\n'], by simp [hw], hw, rfl⟩⟩
      · rw [if_neg hw]
        exact ⟨w.space.data, hS, Or.inr ⟨['\n'], by simp, rfl, rfl⟩⟩
  by_cases hs : isSpace c = true
  · rw [writeRune_space w c hc ha' hn hs]
    have hx : nonSpace ([] : List Char) = nonSpace [c] := by
      simp [nonSpace, hs]
    refine ⟨?_, ?_, fun h => absurd hs (by rw [h]; decide)⟩
    · by_cases hw : w.word.data = []
      · rw [addWord_of_empty _ hw]
        intro y hy
        change y ∈ (w.space.push c).data at hy
        rw [String.data_push, List.mem_append, List.mem_singleton] at hy
        rcases hy with hy | rfl
        · exact hS y hy
        · exact hs
      · rw [addWord_of_nonempty _ hw]
        intro y hy
        change y ∈ ("".push c).data at hy
        have hy' : y = c := by simpa using hy
        rw [hy']
        exact hs
    · by_cases hw : w.word.data = []
      · rw [addWord_of_empty _ hw]
        exact ⟨[], hnil, Or.inr ⟨[], by simp [hw], hw, hx⟩⟩
      · rw [addWord_of_nonempty _ hw]
        exact ⟨w.space.data, hS, Or.inr ⟨[], by simp, rfl, hx⟩⟩
  have hs' : isSpace c = false := by simpa using hs
  by_cases hh : c = '-'
  · subst hh
    rw [writeRune_hyphen w ha']
    refine ⟨?_, ?_, fun _ h => absurd rfl h⟩
    · by_cases hw : w.word.data = []
      · rw [addWord_of_empty _ (by exact hw)]
        exact hnil
      · rw [addWord_of_nonempty _ (by exact hw)]
        exact hnil
    · by_cases hw : w.word.data = []
      · rw [addWord_of_empty _ (by exact hw)]
        exact ⟨w.space.data, hS, Or.inr ⟨['-'], by simp [WordWrap.addSpace, hw], hw, rfl⟩⟩
      · rw [addWord_of_nonempty _ (by exact hw)]
        exact ⟨w.space.data, hS, Or.inr ⟨['-'], by simp [WordWrap.addSpace], rfl, rfl⟩⟩
  · rw [writeRune_other w c hc ha' hn hs' hh]
    split_ifs
    · exact ⟨hnil, ⟨['\n'], hnl, Or.inl ⟨by simp, by simp⟩⟩,
        fun _ _ => ⟨by simp, ['\n'], hnl, by simp⟩⟩
    · exact ⟨hS, ⟨[], hnil, Or.inl ⟨by simp, by simp⟩⟩, fun _ _ => ⟨by simp, [], hnil, by simp⟩⟩


theorem foldl_writeRune_nonSpace {wd : Char → Nat} (a : List Char) :
    ∀ w : WordWrap, (∀ y ∈ w.space.data, isSpace y = true) →
      (∀ y ∈ (a.foldl (WordWrap.writeRune wd) w).space.data, isSpace y = true) ∧
      nonSpace ((a.foldl (WordWrap.writeRune wd) w).buf.data ++
          (a.foldl (WordWrap.writeRune wd) w).word.data) =
        nonSpace (w.buf.data ++ w.word.data) ++ nonSpace a := by
  induction a with
  | nil => intro w hS; exact ⟨hS, by simp [nonSpace]⟩
  | cons c cs ih =>
    intro w hS
    obtain ⟨hS1, ⟨m, hm, hshape⟩, _⟩ := writeRune_shape w c hS
    have := ih (w.writeRune wd c) hS1
    rw [List.foldl_cons]
    refine ⟨this.1, ?_⟩
    rw [this.2]
    have hsplit : nonSpace (c :: cs) = nonSpace [c] ++ nonSpace cs := nonSpace_append [c] cs
    rw [hsplit, ← List.append_assoc]
    congr 1
    rcases hshape with ⟨hb, hw⟩ | ⟨x, hb, hw, hx⟩
    · rw [hb, hw]
      simp only [nonSpace_append, nonSpace_of_spaces m hm, List.append_nil, List.nil_append,
        List.append_assoc]
    · rw [hb, hw]
      simp only [nonSpace_append, nonSpace_of_spaces m hm, List.append_nil, List.nil_append,
        hx, List.append_assoc]

theorem foldl_writeRune_token {wd : Char → Nat} (tok : List Char)
    (htok : ∀ c ∈ tok, isSpace c = false ∧ c ≠ '-') :
    ∀ w : WordWrap, (∀ y ∈ w.space.data, isSpace y = true) →
      (∀ y ∈ (tok.foldl (WordWrap.writeRune wd) w).space.data, isSpace y = true) ∧
      (tok.foldl (WordWrap.writeRune wd) w).word.data = w.word.data ++ tok ∧
      ∃ m, (∀ y ∈ m, isSpace y = true) ∧
        (tok.foldl (WordWrap.writeRune wd) w).buf.data = w.buf.data ++ m := by
  induction tok with
  | nil =>
    intro w hS
    exact ⟨hS, by simp, [], fun y hy => absurd hy (List.not_mem_nil y), by simp⟩
  | cons c cs ih =>
    intro w hS
    have hc := htok c (List.mem_cons_self _ _)
    obtain ⟨hS1, _, hpush⟩ := writeRune_shape w c hS
    obtain ⟨hw1, m1, hm1, hb1⟩ := hpush hc.1 hc.2
    obtain ⟨hS2, hw2, m2, hm2, hb2⟩ :=
      ih (fun x hx => htok x (List.mem_cons_of_mem _ hx)) (w.writeRune wd c) hS1
    rw [List.foldl_cons]
    refine ⟨hS2, ?_, m1 ++ m2, ?_, ?_⟩
    · rw [hw2, hw1]
      simp
    · intro y hy
      rcases List.mem_append.1 hy with hy | hy
      · exact hm1 y hy
      · exact hm2 y hy
    · rw [hb2, hb1]
      simp

theorem foldl_writeRune_close {wd : Char → Nat} (r : List Char) :
    ∀ w : WordWrap, (∀ y ∈ w.space.data, isSpace y = true) →
      ∃ m e, (∀ y ∈ m, isSpace y = true) ∧
        ((r.foldl (WordWrap.writeRune wd) w).addWord wd).buf.data =
          w.buf.data ++ m ++ w.word.data ++ e ∧
        nonSpace e = nonSpace r := by
  induction r with
  | nil =>
    intro w hS
    by_cases hw : w.word.data = []
    · refine ⟨[], [], fun y hy => absurd hy (List.not_mem_nil y), ?_, rfl⟩
      rw [List.foldl_nil, addWord_of_empty _ hw, hw]
      simp
    · refine ⟨w.space.data, [], hS, ?_, rfl⟩
      rw [List.foldl_nil, addWord_of_nonempty _ hw]
      simp
  | cons c cs ih =>
    intro w hS
    obtain ⟨hS1, ⟨m, hm, hshape⟩, _⟩ := writeRune_shape w c hS
    obtain ⟨m1, e1, hm1, hb1, he1⟩ := ih (w.writeRune wd c) hS1
    have hsplit : nonSpace (c :: cs) = nonSpace [c] ++ nonSpace cs := nonSpace_append [c] cs
    rw [List.foldl_cons]
    rcases hshape with ⟨hb, hw⟩ | ⟨x, hb, hw, hx⟩
    · refine ⟨m ++ m1, c :: e1, ?_, ?_, ?_⟩
      · intro y hy
        rcases List.mem_append.1 hy with hy | hy
        · exact hm y hy
        · exact hm1 y hy
      · rw [hb1, hb, hw]
        simp
      · have : nonSpace (c :: e1) = nonSpace [c] ++ nonSpace e1 := nonSpace_append [c] e1
        rw [this, he1, hsplit]
    · refine ⟨m, x ++ m1 ++ e1, hm, ?_, ?_⟩
      · rw [hb1, hb, hw]
        simp
      · rw [nonSpace_append, nonSpace_append, nonSpace_of_spaces m1 hm1, hx, he1, hsplit]
        simp

/-- A token free of white space and hyphens is not broken by the wrap step:
the wrapped text is the token between two texts that hold the runes (other
than white space) of what stands before and after the token. -/
theorem wordwrap_token {wd : Char → Nat} (a tok b : List Char) (htok : ∀ c ∈ tok, isSpace c = false ∧ c ≠ '-') :
    ∃ a' b', (wordwrap.StringWith wd (String.mk (a ++ tok ++ b)) 80).data = a' ++ tok ++ b' ∧
      nonSpace a' = nonSpace a ∧ nonSpace b' = nonSpace b := by
  unfold wordwrap.StringWith
  rw [if_neg (by decide)]
  have hS0 : ∀ y ∈ (WordWrap.NewWriter 80).space.data, isSpace y = true :=
    fun y hy => absurd hy (List.not_mem_nil y)
  obtain ⟨hSa, hKa⟩ := foldl_writeRune_nonSpace a (WordWrap.NewWriter 80) hS0
  obtain ⟨hSt, hwt, m, hm, hbt⟩ :=
    foldl_writeRune_token tok htok (a.foldl (WordWrap.writeRune wd) (WordWrap.NewWriter 80)) hSa
  obtain ⟨m', e, hm', hfin, he⟩ := foldl_writeRune_close b
    (tok.foldl (WordWrap.writeRune wd) (a.foldl (WordWrap.writeRune wd) (WordWrap.NewWriter 80))) hSt
  refine ⟨(a.foldl (WordWrap.writeRune wd) (WordWrap.NewWriter 80)).buf.data ++ m ++ m' ++
    (a.foldl (WordWrap.writeRune wd) (WordWrap.NewWriter 80)).word.data, e, ?_, ?_, he⟩
  · show (((a ++ tok ++ b).foldl (WordWrap.writeRune wd) (WordWrap.NewWriter 80)).addWord wd).buf.data = _
    rw [List.foldl_append, List.foldl_append, hfin, hbt, hwt]
    simp
  · have h0 : nonSpace ((WordWrap.NewWriter 80).buf.data ++ (WordWrap.NewWriter 80).word.data)
        = [] := rfl
    rw [h0, List.nil_append] at hKa
    rw [← hKa]
    simp only [nonSpace_append, nonSpace_of_spaces m hm, nonSpace_of_spaces m' hm',
      List.append_nil, List.nil_append, List.append_assoc]

/-! ## The lines of the renderer's output -/

theorem foldl_splitStep_done (y : List Char) :
    ∀ (d : List (List Char)) (c : List Char),
      y.foldl splitStep (d, c) =
        (d ++ (y.foldl splitStep ([], c)).1, (y.foldl splitStep ([], c)).2) := by
  induction y with
  | nil => intro d c; simp
  | cons x xs ih =>
    intro d c
    rw [List.foldl_cons, List.foldl_cons]
    by_cases hx : x = '\n'
    · simp only [splitStep, hx, if_true]
      rw [ih (d ++ [c]) [], ih ([] ++ [c]) []]
      simp
    · simp only [splitStep, hx, if_false]
      rw [ih d (c ++ [x])]

theorem foldl_splitStep_collapse :
    ∀ (y : List Char) (c : List Char),
      ((doubleblankReplaceChars ['\n', '\n'] y).foldl splitStep ([], c)).2 =
        (y.foldl splitStep ([], c)).2 ∧
      ∀ line ∈ ((doubleblankReplaceChars ['\n', '\n'] y).foldl splitStep ([], c)).1,
        line ∈ (y.foldl splitStep ([], c)).1
  | [], _ => ⟨rfl, fun _ h => h⟩
  | [_], _ => ⟨rfl, fun _ h => h⟩
  | [_, _], _ => ⟨rfl, fun _ h => h⟩
  | x :: y :: z :: rest, c => by
    by_cases hm : x = '\n' ∧ y = '\n' ∧ z = '\n'
    · obtain ⟨rfl, rfl, rfl⟩ := hm
      rw [doubleblankReplaceChars_nnn]
      have ih := foldl_splitStep_collapse rest []
      have hl : (['\n', '\n'] ++ doubleblankReplaceChars ['\n', '\n'] rest).foldl splitStep ([], c)
          = ([c, []] ++ ((doubleblankReplaceChars ['\n', '\n'] rest).foldl splitStep ([], [])).1,
             ((doubleblankReplaceChars ['\n', '\n'] rest).foldl splitStep ([], [])).2) := by
        rw [List.foldl_append]
        simp only [List.foldl_cons, List.foldl_nil, splitStep, if_true, List.nil_append,
          List.cons_append]
        exact foldl_splitStep_done _ _ _
      have hr : ('\n' :: '\n' :: '\n' :: rest).foldl splitStep ([], c)
          = ([c, [], []] ++ (rest.foldl splitStep ([], [])).1,
             (rest.foldl splitStep ([], [])).2) := by
        simp only [List.foldl_cons, splitStep, if_true, List.nil_append, List.cons_append]
        exact foldl_splitStep_done _ _ _
      rw [hl, hr]
      refine ⟨ih.1, fun line hl => ?_⟩
      simp only [List.cons_append, List.nil_append, List.mem_cons] at hl ⊢
      rcases hl with hl | hl | hl
      · exact Or.inl hl
      · exact Or.inr (Or.inl hl)
      · exact Or.inr (Or.inr (Or.inr (ih.2 line hl)))
    · have h1 : ¬ (['\n', '\n', '\n'] <+: x :: y :: z :: rest) := by
        rintro ⟨t, ht⟩
        simp only [List.cons_append, List.cons.injEq] at ht
        exact hm ⟨ht.1.symm, ht.2.1.symm, ht.2.2.1.symm⟩
      rw [doubleblankReplaceChars_cons _ _ _ h1, List.foldl_cons, List.foldl_cons]
      have ih := foldl_splitStep_collapse (y :: z :: rest) (splitStep ([], c) x).2
      rw [foldl_splitStep_done _ (splitStep ([], c) x).1 (splitStep ([], c) x).2,
        foldl_splitStep_done (y :: z :: rest) (splitStep ([], c) x).1 (splitStep ([], c) x).2]
      refine ⟨ih.1, fun line hl => ?_⟩
      rw [List.mem_append] at hl ⊢
      rcases hl with hl | hl
      · exact Or.inl hl
      · exact Or.inr (ih.2 line hl)

theorem textLines_collapse (y : List Char) :
    ∀ line ∈ textLines (doubleblankReplaceChars ['\n', '\n'] y), line ∈ textLines y := by
  intro line hl
  unfold textLines splitLines at hl ⊢
  have h := foldl_splitStep_collapse y []
  rw [List.mem_append, List.mem_singleton] at hl ⊢
  rcases hl with hl | hl
  · exact Or.inl (h.2 line hl)
  · exact Or.inr (by rw [hl, h.1])

theorem foldl_splitStep_map (g : Char → Char) (hg : ∀ c, g c = '\n' ↔ c = '\n') (l : List Char) :
    ∀ (d : List (List Char)) (c : List Char),
      (l.map g).foldl splitStep (d.map (List.map g), c.map g) =
        ((l.foldl splitStep (d, c)).1.map (List.map g), (l.foldl splitStep (d, c)).2.map g) := by
  induction l with
  | nil => intro d c; rfl
  | cons x xs ih =>
    intro d c
    rw [List.map_cons, List.foldl_cons, List.foldl_cons]
    by_cases hx : x = '\n'
    · subst hx
      have hgx : g '\n' = '\n' := (hg '\n').2 rfl
      simp only [splitStep, hgx, if_true]
      have := ih (d ++ [c]) []
      simp only [List.map_append, List.map_cons, List.map_nil] at this
      exact this
    · have hgx : g x ≠ '\n' := fun h => hx ((hg x).1 h)
      simp only [splitStep, hx, hgx, if_false]
      have := ih d (c ++ [x])
      simp only [List.map_append, List.map_cons, List.map_nil] at this
      exact this

theorem textLines_map (g : Char → Char) (hg : ∀ c, g c = '\n' ↔ c = '\n') (l : List Char) :
    textLines (l.map g) = (textLines l).map (List.map g) := by
  unfold textLines splitLines
  have := foldl_splitStep_map g hg l [] []
  simp only [List.map_nil] at this
  rw [this]
  simp


theorem bulletToHyphen_props (c : Char) :
    (bulletToHyphen c = '\n' ↔ c = '\n') ∧ (bulletToHyphen c = '\x1b' ↔ c = '\x1b') ∧
    isSpace (bulletToHyphen c) = isSpace c := by
  unfold bulletToHyphen
  by_cases h : c = '•'
  · subst h
    rw [if_pos rfl]
    decide
  · rw [if_neg h]
    exact ⟨Iff.rfl, Iff.rfl, rfl⟩

theorem runeCost_bullet_le {wd : Char → Nat} (c : Char) :
    runeCost wd (bulletToHyphen c) ≤ runeCost wd c := by
  unfold bulletToHyphen
  by_cases h : c = '•'
  · rw [if_pos h]
    have h0 : runeCost wd '-' = 0 := by
      unfold runeCost
      rw [if_neg (by decide), if_pos rfl]
    rw [h0]
    exact Nat.zero_le _
  · rw [if_neg h]

theorem wrapCost_map_bullet_le {wd : Char → Nat} (l : List Char) :
    wrapCost wd (l.map bulletToHyphen) ≤ wrapCost wd l := by
  induction l with
  | nil => exact Nat.le_refl _
  | cons c cs ih =>
    rw [List.map_cons, wrapCost, wrapCost]
    have := @runeCost_bullet_le wd c
    omega

theorem dot_data_eq_map (x : String) :
    (dot.ReplaceAllString x "-").data = x.data.map bulletToHyphen :=
  dotReplaceChars_eq_map x.data

/-- Every line of the renderer's output is a line of the wrapped text with its
bullets replaced, and that line of the wrapped text satisfies `LineOK`. -/
theorem render_lines_ok {wd : Char → Nat} (dom : List Root)
    (hesc : '\x1b' ∉ (walkNodes "" dom).data) :
    ∀ line ∈ textLines (renderHTMLWith wd dom).data,
      ∃ l0 ∈ textLines (wordwrap.StringWith wd (TrimSpace (walkNodes "" dom)) 80).data,
        line = l0.map bulletToHyphen ∧ LineOK wd 80 l0 ∧ wrapCost wd line ≤ wrapCost wd l0 := by
  intro line hl
  have hesc' : '\x1b' ∉ (TrimSpace (walkNodes "" dom)).data :=
    fun h => hesc ((trimSpaceChars_sublist _).subset h)
  have hr : (renderHTMLWith wd dom).data =
      (doubleblankReplaceChars ['\n', '\n']
        (wordwrap.StringWith wd (TrimSpace (walkNodes "" dom)) 80).data).map bulletToHyphen :=
    dot_data_eq_map _
  rw [hr, textLines_map bulletToHyphen (fun c => (bulletToHyphen_props c).1)] at hl
  obtain ⟨l0, hl0, rfl⟩ := List.mem_map.1 hl
  have hmem := textLines_collapse _ l0 hl0
  exact ⟨l0, hmem, rfl, wordwrap_lines_ok _ hesc' l0 hmem, wrapCost_map_bullet_le l0⟩

/-- C14, as the code has it, whatever the table of display widths: when the
raw text holds no escape rune, every line of the renderer's output is a line
of the wrapped text with its bullets replaced by hyphens, and that line of the
wrapped text takes at most 80 columns as the writer counts them (a white-space
rune by the bytes of its encoding, a hyphen as none, every other rune by its
display width), unless it ends with a hyphen or with a word free of white
space that is at least 80 columns wide; the line of the output counts no more
than the line of the wrapped text. And the wrap step never breaks a token that
holds neither white space nor a hyphen: the token stands unbroken in the
wrapped text, between texts with the same runes (other than white space) as
before and after it in the input. -/
theorem renderHTML_lines (wd : Char → Nat) (dom : List Root) :
    ('\x1b' ∉ (walkNodes "" dom).data →
      ∀ line ∈ textLines (renderHTMLWith wd dom).data,
        ∃ l0 ∈ textLines (wordwrap.StringWith wd (TrimSpace (walkNodes "" dom)) 80).data,
          line = l0.map bulletToHyphen ∧ LineOK wd 80 l0 ∧
            wrapCost wd line ≤ wrapCost wd l0) ∧
    (∀ a tok b : List Char, (TrimSpace (walkNodes "" dom)).data = a ++ tok ++ b →
      (∀ c ∈ tok, isSpace c = false ∧ c ≠ '-') →
      ∃ a' b', (wordwrap.StringWith wd (TrimSpace (walkNodes "" dom)) 80).data =
          a' ++ tok ++ b' ∧
        nonSpace a' = nonSpace a ∧ nonSpace b' = nonSpace b) := by
  refine ⟨render_lines_ok dom, ?_⟩
  intro a tok b hdata htok
  have hs : TrimSpace (walkNodes "" dom) = String.mk (a ++ tok ++ b) := String.ext hdata
  rw [hs]
  exact wordwrap_token a tok b htok

set_option maxRecDepth 100000 in
theorem renderHTML_lines_witness :
    textLines (renderHTML [⟨none, Node.mk NodeType.TextNode "The aboleth can breathe air and water. It makes three tentacle attacks, one after another." []⟩]).data =
      ["The aboleth can breathe air and water. It makes three tentacle attacks, one".data,
       "after another.".data] ∧
    ∃ l0 ∈ textLines (wordwrap.StringWith runeWidth (TrimSpace (walkNodes ""
        [⟨none, Node.mk NodeType.TextNode "The aboleth can breathe air and water. It makes three tentacle attacks, one after another." []⟩])) 80).data,
      "after another.".data = l0.map bulletToHyphen ∧ LineOK runeWidth 80 l0 ∧
        wrapCost runeWidth "after another.".data ≤ wrapCost runeWidth l0 :=
  ⟨by decide,
   (renderHTML_lines runeWidth [⟨none, Node.mk NodeType.TextNode "The aboleth can breathe air and water. It makes three tentacle attacks, one after another." []⟩]).1
      (by decide) _ (by decide)⟩

set_option maxRecDepth 100000 in
/-- C14 as stated fails. A token of 91 runes without white space is broken
after its hyphen. A line of 81 columns is made of two tokens of 40 columns
each, the hyphen not being counted. A line of 82 columns ends with a hyphen
that follows white space, and the token that begins with that hyphen is
broken. A line of 81 columns is made of a space and a token of 80 columns.
With an escape sequence in the text a line takes 81 columns and more, ends
with no hyphen and holds no word of 80 columns. -/
theorem renderHTML_breaks_after_hyphen :
    (∀ c ∈ "xxxxxxxxxxxxxxxxxxxxxxxxxxxxxxxxxxxxxxxxxxxxxxxxxxxxxxxxxxxxxxxxxxxxxx-yyyyyyyyyyyyyyyyyyyy".data, isSpace c = false) ∧
    renderHTML [⟨none, Node.mk NodeType.TextNode "xxxxxxxxxxxxxxxxxxxxxxxxxxxxxxxxxxxxxxxxxxxxxxxxxxxxxxxxxxxxxxxxxxxxxx-yyyyyyyyyyyyyyyyyyyy" []⟩] = "xxxxxxxxxxxxxxxxxxxxxxxxxxxxxxxxxxxxxxxxxxxxxxxxxxxxxxxxxxxxxxxxxxxxxx-\nyyyyyyyyyyyyyyyyyyyy" ∧
    renderHTML [⟨none, Node.mk NodeType.TextNode "aaaaaaaaaaaaaaaaaaaaaaaaaaaaaaaaaaaaaaaa bbbbbbbbbbbbbbbbbbbbbbbbbbbbbbbbbbbbbb-c" []⟩] = "aaaaaaaaaaaaaaaaaaaaaaaaaaaaaaaaaaaaaaaa bbbbbbbbbbbbbbbbbbbbbbbbbbbbbbbbbbbbbb-c" ∧
    PrintableRuneWidth runeWidth "aaaaaaaaaaaaaaaaaaaaaaaaaaaaaaaaaaaaaaaa bbbbbbbbbbbbbbbbbbbbbbbbbbbbbbbbbbbbbb-c" = 81 ∧
    renderHTML [⟨none, Node.mk NodeType.TextNode "aaaaaaaaaaaaaaaaaaaaaaaaaaaaaaaaaaaaaaaa bbbbbbbbbbbbbbbbbbbbbbbbbbbbbbbbbbbbbbb -c" []⟩] = "aaaaaaaaaaaaaaaaaaaaaaaaaaaaaaaaaaaaaaaa bbbbbbbbbbbbbbbbbbbbbbbbbbbbbbbbbbbbbbb -\nc" ∧
    PrintableRuneWidth runeWidth "aaaaaaaaaaaaaaaaaaaaaaaaaaaaaaaaaaaaaaaa bbbbbbbbbbbbbbbbbbbbbbbbbbbbbbbbbbbbbbb -" = 82 ∧
    wrapCost runeWidth "aaaaaaaaaaaaaaaaaaaaaaaaaaaaaaaaaaaaaaaa bbbbbbbbbbbbbbbbbbbbbbbbbbbbbbbbbbbbbbb -".data = 81 ∧
    renderHTML [⟨none, Node.mk NodeType.TextNode "a" []⟩,
        ⟨none, Node.mk NodeType.ElementNode "br" []⟩,
        ⟨none, Node.mk NodeType.TextNode " xxxxxxxxxxxxxxxxxxxxxxxxxxxxxxxxxxxxxxxxxxxxxxxxxxxxxxxxxxxxxxxxxxxxxxxxxxxxxxxx" []⟩] = "a\n xxxxxxxxxxxxxxxxxxxxxxxxxxxxxxxxxxxxxxxxxxxxxxxxxxxxxxxxxxxxxxxxxxxxxxxxxxxxxxxx" ∧
    PrintableRuneWidth runeWidth " xxxxxxxxxxxxxxxxxxxxxxxxxxxxxxxxxxxxxxxxxxxxxxxxxxxxxxxxxxxxxxxxxxxxxxxxxxxxxxxx" = 81 ∧
    renderHTML [⟨none, Node.mk NodeType.TextNode "aaaaaaaaaaaaaaaaaaaaaaaaaaaaaaaaaaaaaaaa bbbbbbbbbbbbbbbbbbbbbbbbbbbbbbbbbbbbbbb \x1b[0m z" []⟩] = "aaaaaaaaaaaaaaaaaaaaaaaaaaaaaaaaaaaaaaaa bbbbbbbbbbbbbbbbbbbbbbbbbbbbbbbbbbbbbbb \x1b[0m\nz" ∧
    PrintableRuneWidth runeWidth "aaaaaaaaaaaaaaaaaaaaaaaaaaaaaaaaaaaaaaaa bbbbbbbbbbbbbbbbbbbbbbbbbbbbbbbbbbbbbbb \x1b[0m" = 81 ∧
    ¬ LineOK runeWidth 80 "aaaaaaaaaaaaaaaaaaaaaaaaaaaaaaaaaaaaaaaa bbbbbbbbbbbbbbbbbbbbbbbbbbbbbbbbbbbbbbb \x1b[0m".data := by
  refine ⟨by decide, by decide, by decide, by decide, by decide, by decide, by decide,
    by decide, by decide, by decide, by decide, ?_⟩
  have key : ∀ tok ∈ "aaaaaaaaaaaaaaaaaaaaaaaaaaaaaaaaaaaaaaaa bbbbbbbbbbbbbbbbbbbbbbbbbbbbbbbbbbbbbbb \x1b[0m".data.tails, (∀ c ∈ tok, isSpace c = false) →
      ¬ 80 ≤ printableWidthChars runeWidth false tok := by decide
  rintro (h | h | ⟨tok, hsuf, hws, hwid⟩)
  · exact absurd h (by decide)
  · exact absurd h (by decide)
  · exact key tok ((List.mem_tails _ _).2 hsuf) hws hwid

/-! ## The ends of the normalised text -/

theorem trimSpaceChars_head (l : List Char) (c : Char)
    (h : (trimSpaceChars l).head? = some c) : isSpace c = false := by
  unfold trimSpaceChars at h
  rw [List.head?_reverse] at h
  have hsuf : (l.dropWhile isSpace).reverse.dropWhile isSpace <:+ (l.dropWhile isSpace).reverse :=
    List.dropWhile_suffix _
  obtain ⟨t, ht⟩ := hsuf
  have hne : (l.dropWhile isSpace).reverse.dropWhile isSpace ≠ [] := by
    intro h0
    rw [h0] at h
    simp at h
  have hlast : (l.dropWhile isSpace).reverse.getLast? = some c := by
    rw [← ht, List.getLast?_append_of_ne_nil _ hne]
    exact h
  rw [List.getLast?_reverse] at hlast
  have := List.head?_dropWhile_not isSpace l
  rw [hlast] at this
  simpa using this

theorem trimSpaceChars_of_ends (l : List Char)
    (hd : ∀ c, l.head? = some c → isSpace c = false)
    (lst : ∀ c, l.getLast? = some c → isSpace c = false) : trimSpaceChars l = l := by
  have key : ∀ m : List Char, (∀ c, m.head? = some c → isSpace c = false) →
      m.dropWhile isSpace = m := by
    intro m hm
    cases m with
    | nil => rfl
    | cons c cs =>
      rw [List.dropWhile_cons_of_neg]
      rw [hm c rfl]
      decide
  unfold trimSpaceChars
  rw [key l hd, key l.reverse (by rw [List.head?_reverse]; exact lst), List.reverse_reverse]

theorem writeRune_head {wd : Char → Nat} (w : WordWrap) (c c0 : Char)
    (hS : ∀ y ∈ w.space.data, isSpace y = true)
    (hK : w.buf.data.head? = some c0 ∨
      (w.buf.data = [] ∧ w.space.data = [] ∧ w.lineLen = 0 ∧ w.word.data.head? = some c0)) :
    (w.writeRune wd c).buf.data.head? = some c0 ∨
      ((w.writeRune wd c).buf.data = [] ∧ (w.writeRune wd c).space.data = [] ∧
        (w.writeRune wd c).lineLen = 0 ∧ (w.writeRune wd c).word.data.head? = some c0) := by
  rcases hK with hK | ⟨hb, hsp, hl, hw⟩
  · left
    have hne : w.buf.data ≠ [] := by
      intro h0
      rw [h0] at hK
      simp at hK
    obtain ⟨_, ⟨m, _, hshape⟩, _⟩ := @writeRune_shape wd w c hS
    rcases hshape with ⟨h1, _⟩ | ⟨x, h1, _⟩
    · rw [h1, List.head?_append_of_ne_nil _ hne]
      exact hK
    · rw [h1, List.append_assoc, List.append_assoc, List.head?_append_of_ne_nil _ hne]
      exact hK
  · have hwne : w.word.data ≠ [] := by
      intro h0
      rw [h0] at hw
      simp at hw
    have hsp' : w.space = "" := String.ext hsp
    have hb' : w.buf = "" := String.ext hb
    have hpush : ∀ x : Char, (w.word.push x).data.head? = some c0 := by
      intro x
      rw [String.data_push, List.head?_append_of_ne_nil _ hwne]
      exact hw
    by_cases hc : c = '\x1b'
    · subst hc
      rw [writeRune_esc]
      exact Or.inr ⟨hb, hsp, hl, hpush _⟩
    by_cases ha : w.ansi = true
    · rw [writeRune_ansi w c hc ha]
      exact Or.inr ⟨hb, hsp, hl, hpush _⟩
    have ha' : w.ansi = false := by simpa using ha
    by_cases hn : c = '\n'
    · subst hn
      rw [writeRune_newline w ha', if_neg hwne]
      left
      show ((w.buf ++ w.space ++ w.word).push '\n').data.head? = some c0
      rw [hb', hsp']
      simp only [String.data_push, String.data_append, List.nil_append]
      rw [List.head?_append_of_ne_nil _ hwne]
      exact hw
    by_cases hs : isSpace c = true
    · rw [writeRune_space w c hc ha' hn hs, addWord_of_nonempty _ hwne]
      left
      show (w.buf ++ w.space ++ w.word).data.head? = some c0
      rw [hb', hsp']
      simp only [String.data_append, List.nil_append]
      exact hw
    have hs' : isSpace c = false := by simpa using hs
    by_cases hh : c = '-'
    · subst hh
      rw [writeRune_hyphen w ha', addWord_of_nonempty _ (by exact hwne)]
      left
      show ((w.addSpace.buf ++ w.addSpace.space ++ w.addSpace.word).push '-').data.head? = some c0
      simp only [WordWrap.addSpace, String.data_push, String.data_append]
      rw [hb, hsp]
      simp only [List.nil_append]
      rw [List.head?_append_of_ne_nil _ hwne]
      exact hw
    · rw [writeRune_other w c hc ha' hn hs' hh, if_neg]
      · exact Or.inr ⟨hb, hsp, hl, hpush _⟩
      · rintro ⟨h1, h2⟩
        rw [hl, hsp'] at h1
        have h0 : "".utf8ByteSize = 0 := rfl
        rw [h0] at h1
        omega

theorem foldl_writeRune_head {wd : Char → Nat} (c0 : Char) (rest : List Char) :
    ∀ w : WordWrap, (∀ y ∈ w.space.data, isSpace y = true) →
      (w.buf.data.head? = some c0 ∨
        (w.buf.data = [] ∧ w.space.data = [] ∧ w.lineLen = 0 ∧ w.word.data.head? = some c0)) →
      ((rest.foldl (WordWrap.writeRune wd) w).addWord wd).buf.data.head? = some c0 := by
  induction rest with
  | nil =>
    intro w _ hK
    rw [List.foldl_nil]
    rcases hK with hK | ⟨hb, hsp, _, hw⟩
    · have hne : w.buf.data ≠ [] := by
        intro h0
        rw [h0] at hK
        simp at hK
      by_cases hwe : w.word.data = []
      · rw [addWord_of_empty _ hwe]
        exact hK
      · rw [addWord_of_nonempty _ hwe]
        show (w.buf ++ w.space ++ w.word).data.head? = some c0
        rw [String.data_append, String.data_append, List.append_assoc,
          List.head?_append_of_ne_nil _ hne]
        exact hK
    · have hwne : w.word.data ≠ [] := by
        intro h0
        rw [h0] at hw
        simp at hw
      rw [addWord_of_nonempty _ hwne]
      show (w.buf ++ w.space ++ w.word).data.head? = some c0
      rw [String.data_append, String.data_append, hb, hsp, List.nil_append, List.nil_append]
      exact hw
  | cons c cs ih =>
    intro w hS hK
    rw [List.foldl_cons]
    exact ih _ (@writeRune_shape wd w c hS).1 (writeRune_head w c c0 hS hK)

/-- The wrapped text begins with the first rune of the text when that rune is
not white space. -/
theorem wordwrap_head {wd : Char → Nat} (t : String) (c0 : Char) (rest : List Char)
    (ht : t.data = c0 :: rest) (hc0 : isSpace c0 = false) :
    (wordwrap.StringWith wd t 80).data.head? = some c0 := by
  unfold wordwrap.StringWith
  rw [if_neg (by decide), ht, List.foldl_cons]
  have hS0 : ∀ y ∈ (WordWrap.NewWriter 80).space.data, isSpace y = true :=
    fun y hy => absurd hy (List.not_mem_nil y)
  apply foldl_writeRune_head c0 rest _ (@writeRune_shape wd _ c0 hS0).1
  have hn : c0 ≠ '\n' := fun h => by rw [h] at hc0; exact absurd hc0 (by decide)
  by_cases hc : c0 = '\x1b'
  · subst hc
    rw [writeRune_esc]
    exact Or.inr ⟨rfl, rfl, rfl, rfl⟩
  by_cases hh : c0 = '-'
  · subst hh
    rw [writeRune_hyphen _ rfl]
    exact Or.inl rfl
  · rw [writeRune_other _ c0 hc rfl hn hc0 hh, if_neg]
    · exact Or.inr ⟨rfl, rfl, rfl, rfl⟩
    · rintro ⟨h1, h2⟩
      have h0 : (WordWrap.NewWriter 80).lineLen + (WordWrap.NewWriter 80).space.utf8ByteSize = 0 :=
        rfl
      omega

/-- The wrapped text ends with the last rune of the text when that rune is
not white space. -/
theorem wordwrap_getLast {wd : Char → Nat} (t : String) (init : List Char) (c : Char)
    (ht : t.data = init ++ [c]) (hc : isSpace c = false) :
    (wordwrap.StringWith wd t 80).data.getLast? = some c := by
  unfold wordwrap.StringWith
  rw [if_neg (by decide), ht, List.foldl_append, List.foldl_cons, List.foldl_nil]
  have hS0 : ∀ y ∈ (WordWrap.NewWriter 80).space.data, isSpace y = true :=
    fun y hy => absurd hy (List.not_mem_nil y)
  have hS := (@foldl_writeRune_nonSpace wd init (WordWrap.NewWriter 80) hS0).1
  generalize init.foldl (WordWrap.writeRune wd) (WordWrap.NewWriter 80) = w at hS
  have hpush : (w.writeRune wd c).word.data = w.word.data ++ [c] →
      (((w.writeRune wd c).addWord wd).buf.data).getLast? = some c := by
    intro hw
    have hne : (w.writeRune wd c).word.data ≠ [] := by
      rw [hw]
      simp
    rw [addWord_of_nonempty _ hne]
    show ((w.writeRune wd c).buf ++ (w.writeRune wd c).space ++ (w.writeRune wd c).word).data.getLast?
      = some c
    rw [String.data_append, hw, ← List.append_assoc, List.getLast?_append]
    simp
  by_cases hh : c = '-'
  · subst hh
    by_cases ha : w.ansi = true
    · apply hpush
      rw [writeRune_ansi w '-' (by decide) ha]
      simp
    · have ha' : w.ansi = false := by simpa using ha
      have hword : (w.writeRune wd '-').word.data = [] := by
        rw [writeRune_hyphen w ha']
        by_cases hw : w.word.data = []
        · rw [addWord_of_empty w.addSpace hw]
          exact hw
        · rw [addWord_of_nonempty w.addSpace hw]
      have hbuf : ∃ x, (w.writeRune wd '-').buf.data = x ++ ['-'] := by
        rw [writeRune_hyphen w ha']
        exact ⟨_, String.data_push _ _⟩
      obtain ⟨x, hx⟩ := hbuf
      rw [addWord_of_empty _ hword, hx, List.getLast?_append]
      simp
  · exact hpush ((@writeRune_shape wd w c hS).2.2 hc hh).1

/-! ## The ends of the text through the other steps -/

theorem doubleblankReplaceChars_head_eq (repl : List Char) (l : List Char)
    (hd : ∀ c, l.head? = some c → isSpace c = false) :
    (doubleblankReplaceChars repl l).head? = l.head? := by
  cases l with
  | nil => rfl
  | cons c r =>
    have hc : c ≠ '\n' := fun h => by
      have := hd c rfl
      rw [h] at this
      exact absurd this (by decide)
    rw [doubleblankReplaceChars_cons_of_ne _ _ _ hc]
    rfl

theorem doubleblankReplaceChars_getLast_eq (repl : List Char) (l : List Char)
    (lst : ∀ c, l.getLast? = some c → isSpace c = false) :
    (doubleblankReplaceChars repl l).getLast? = l.getLast? := by
  rcases List.eq_nil_or_concat l with rfl | ⟨m, c, rfl⟩
  · rfl
  · have hc : c ≠ '\n' := fun h => by
      have := lst c (by simp)
      rw [h] at this
      exact absurd this (by decide)
    have := doubleblankReplaceChars_through repl c [] hc m
    rw [List.concat_eq_append, this]
    have h0 : doubleblankReplaceChars repl [] = [] := rfl
    rw [h0, List.getLast?_append, List.getLast?_append]
    simp

theorem stripBeforeNewline_head_eq (l : List Char)
    (hd : ∀ c, l.head? = some c → isSpace c = false) :
    (stripBeforeNewline l).head? = l.head? := by
  cases l with
  | nil => rfl
  | cons c r =>
    have hc : c ≠ ' ' := fun h => by
      have := hd c rfl
      rw [h] at this
      exact absurd this (by decide)
    rw [stripBeforeNewline, if_neg (fun h => hc h.1)]
    rfl

theorem stripBeforeNewline_concat (c : Char) (l : List Char) :
    ∃ m, stripBeforeNewline (l ++ [c]) = m ++ [c] := by
  induction l with
  | nil =>
    refine ⟨[], ?_⟩
    rw [List.nil_append, stripBeforeNewline, if_neg]
    · rfl
    · rintro ⟨_, h⟩
      exact absurd h (by decide)
  | cons x xs ih =>
    obtain ⟨m, hm⟩ := ih
    rw [List.cons_append, stripBeforeNewline]
    split_ifs
    · exact ⟨m, hm⟩
    · exact ⟨x :: m, by rw [hm]; rfl⟩

theorem stripBeforeNewline_getLast_eq (l : List Char) :
    (stripBeforeNewline l).getLast? = l.getLast? := by
  rcases List.eq_nil_or_concat l with rfl | ⟨m, c, rfl⟩
  · rfl
  · obtain ⟨x, hx⟩ := stripBeforeNewline_concat c m
    rw [List.concat_eq_append, hx, List.getLast?_append, List.getLast?_append]
    simp

/-- The normalised text neither begins nor ends with white space. -/
theorem normalizeWith_ends (wd : Char → Nat) (s : String) :
    (∀ c, (normalizeWith wd s).data.head? = some c → isSpace c = false) ∧
    (∀ c, (normalizeWith wd s).data.getLast? = some c → isSpace c = false) := by
  have hN : (normalizeWith wd s).data = stripBeforeNewline
      ((doubleblankReplaceChars ['\n', '\n']
        (wordwrap.StringWith wd (TrimSpace s) 80).data).map bulletToHyphen) := by
    unfold normalizeWith
    rw [trailing_eq_strip, dot_data_eq_map]
    rfl
  have hWh : ∀ c, (wordwrap.StringWith wd (TrimSpace s) 80).data.head? = some c →
      isSpace c = false := by
    intro c hc
    cases ht : (TrimSpace s).data with
    | nil =>
      have h0 : TrimSpace s = "" := String.ext ht
      have e : wordwrap.StringWith wd "" 80 = "" := rfl
      rw [h0, e] at hc
      cases hc
    | cons c0 rest =>
      have hc0 : isSpace c0 = false := trimSpaceChars_head s.data c0 (by
        show (TrimSpace s).data.head? = some c0
        rw [ht]
        rfl)
      rw [wordwrap_head (TrimSpace s) c0 rest ht hc0] at hc
      cases hc
      exact hc0
  have hWl : ∀ c, (wordwrap.StringWith wd (TrimSpace s) 80).data.getLast? = some c →
      isSpace c = false := by
    intro c hc
    rcases List.eq_nil_or_concat (TrimSpace s).data with ht | ⟨init, c1, ht⟩
    · have h0 : TrimSpace s = "" := String.ext ht
      have e : wordwrap.StringWith wd "" 80 = "" := rfl
      rw [h0, e] at hc
      cases hc
    · rw [List.concat_eq_append] at ht
      have hc1 : isSpace c1 = false := trimSpaceChars_getLast s.data c1 (by
        show (TrimSpace s).data.getLast? = some c1
        rw [ht]
        simp)
      rw [wordwrap_getLast (TrimSpace s) init c1 ht hc1] at hc
      cases hc
      exact hc1
  have hDh := doubleblankReplaceChars_head_eq ['\n', '\n'] _ hWh
  have hDl := doubleblankReplaceChars_getLast_eq ['\n', '\n'] _ hWl
  have hMh : ∀ c, ((doubleblankReplaceChars ['\n', '\n']
      (wordwrap.StringWith wd (TrimSpace s) 80).data).map bulletToHyphen).head? = some c →
      isSpace c = false := by
    intro c hc
    rw [List.head?_map, hDh] at hc
    cases hx : (wordwrap.StringWith wd (TrimSpace s) 80).data.head? with
    | none => rw [hx] at hc; cases hc
    | some x =>
      rw [hx] at hc
      cases hc
      rw [(bulletToHyphen_props x).2.2]
      exact hWh x hx
  refine ⟨?_, ?_⟩
  · intro c hc
    rw [hN, stripBeforeNewline_head_eq _ hMh] at hc
    exact hMh c hc
  · intro c hc
    rw [hN, stripBeforeNewline_getLast_eq, List.getLast?_map, hDl] at hc
    cases hx : (wordwrap.StringWith wd (TrimSpace s) 80).data.getLast? with
    | none => rw [hx] at hc; cases hc
    | some x =>
      rw [hx] at hc
      cases hc
      rw [(bulletToHyphen_props x).2.2]
      exact hWl x hx

theorem TrimSpace_normalizeWith (wd : Char → Nat) (s : String) :
    TrimSpace (normalizeWith wd s) = normalizeWith wd s :=
  String.ext (trimSpaceChars_of_ends _ (normalizeWith_ends wd s).1 (normalizeWith_ends wd s).2)

/-! ## A second pass of the normalisation -/

theorem linesFit_of_lines {wd : Char → Nat} (limit : Nat) (l : List Char) :
    ∀ cur : List Char,
      (∀ line ∈ (l.foldl splitStep ([], cur)).1 ++ [(l.foldl splitStep ([], cur)).2],
        wrapCost wd line ≤ limit) →
      linesFit wd limit (wrapCost wd cur) l := by
  induction l with
  | nil => intro cur h; exact h cur (by simp)
  | cons c cs ih =>
    intro cur h
    rw [List.foldl_cons] at h
    rw [linesFit]
    by_cases hc : c = '\n'
    · rw [if_pos hc]
      have hstep : splitStep ([], cur) c = ([] ++ [cur], []) := by
        simp [splitStep, hc]
      rw [hstep, foldl_splitStep_done cs ([] ++ [cur]) []] at h
      refine ⟨h cur (by simp), ?_⟩
      exact ih [] (fun line hl => h line (by
        rw [List.mem_append] at hl ⊢
        rcases hl with hl | hl
        · exact Or.inl (List.mem_append_right _ hl)
        · exact Or.inr hl))
    · rw [if_neg hc]
      have hstep : splitStep ([], cur) c = ([], cur ++ [c]) := by
        simp [splitStep, hc]
      rw [hstep] at h
      have := ih (cur ++ [c]) h
      rw [wrapCost_append] at this
      have h1 : wrapCost wd [c] = runeCost wd c := by
        show runeCost wd c + 0 = runeCost wd c
        omega
      rw [h1] at this
      exact this

theorem linesFit_of_textLines {wd : Char → Nat} (limit : Nat) (l : List Char)
    (h : ∀ line ∈ textLines l, wrapCost wd line ≤ limit) : linesFit wd limit 0 l :=
  linesFit_of_lines limit l [] h

theorem dot_normalizeWith (wd : Char → Nat) (s : String) :
    dot.ReplaceAllString (normalizeWith wd s) "-" = normalizeWith wd s := by
  have hmem : '•' ∉ (normalizeWith wd s).data := by
    intro h
    simp only [normalizeWith, trailing.ReplaceAllString, dot.ReplaceAllString] at h
    rcases mem_trailingReplaceChars h with h | h | h
    · exact absurd h (by decide)
    · exact absurd h (by decide)
    · rcases mem_dotReplaceChars h with h | h
      · exact absurd h (by decide)
      · exact h.2 rfl
  show (⟨dotReplaceChars "-".data (normalizeWith wd s).data⟩ : String) = normalizeWith wd s
  rw [dotReplaceChars_of_not_mem _ _ hmem]

theorem trailing_normalizeWith (wd : Char → Nat) (s : String) :
    trailing.ReplaceAllString (normalizeWith wd s) "\n" = normalizeWith wd s := by
  simp only [normalizeWith, trailing.ReplaceAllString]
  congr 1
  exact trailingReplaceChars_idem _ 0

/-- C10, as the code has it, whatever the table of display widths: the bullet
replacement and the strip of spaces before a newline change nothing on a
normalised text; a second pass of the whole sequence returns the normalised
text unchanged when that text holds no escape rune, no three newlines in a
row, and no line of more than 80 columns as the writer counts them (a
white-space rune by the bytes of its encoding, a hyphen as none, every other
rune by its display width). -/
theorem normalize_normalize (wd : Char → Nat) (s : String) :
    ('\x1b' ∉ (normalizeWith wd s).data →
      ¬ (['\n', '\n', '\n'] <:+: (normalizeWith wd s).data) →
      (∀ line ∈ textLines (normalizeWith wd s).data, wrapCost wd line ≤ 80) →
      normalizeWith wd (normalizeWith wd s) = normalizeWith wd s) ∧
    dot.ReplaceAllString (normalizeWith wd s) "-" = normalizeWith wd s ∧
    trailing.ReplaceAllString (normalizeWith wd s) "\n" = normalizeWith wd s := by
  refine ⟨?_, dot_normalizeWith wd s, trailing_normalizeWith wd s⟩
  intro hesc hblank hfit
  have h : normalizeWith wd (normalizeWith wd s) =
      trailing.ReplaceAllString
        (dot.ReplaceAllString
          (doubleblank.ReplaceAllString
            (wordwrap.StringWith wd (TrimSpace (normalizeWith wd s)) 80) "\n\n") "-") "\n" := rfl
  rw [h, TrimSpace_normalizeWith,
    wordwrap_of_fits _ (Or.inl hesc) (linesFit_of_textLines 80 _ hfit) (normalizeWith_ends wd s).2,
    doubleblank_of_no_match _ hblank, dot_normalizeWith, trailing_normalizeWith]

theorem normalize_normalize_witness :
    normalize "A  great \n\n\nbeast •" = "A  great\n\nbeast -" ∧
    normalize (normalize "A  great \n\n\nbeast •") = normalize "A  great \n\n\nbeast •" :=
  ⟨by decide,
   (normalize_normalize runeWidth "A  great \n\n\nbeast •").1 (by decide) (by decide) (by decide)⟩

set_option maxRecDepth 100000 in
/-- C10 as stated fails. A run of four newlines is collapsed to three by the
first pass and to two by a second pass. A word of 91 runes with a bullet after
its 70th is left whole by the first pass, which turns the bullet into a
hyphen, and is broken after that hyphen by the second pass, the normalised
text holding no escape rune and no three newlines in a row. A word with a
bullet and an escape sequence that holds a newline is normalised to two lines
of 60 and 31 columns, and the second pass breaks it after the hyphen. -/
theorem normalize_not_idempotent :
    normalize "a\n\n\n\nb" = "a\n\n\nb" ∧
    normalize (normalize "a\n\n\n\nb") = "a\n\nb" ∧
    normalize (normalize "a\n\n\n\nb") ≠ normalize "a\n\n\n\nb" ∧
    (Monster.zero.getDescription
      [⟨none, Node.mk NodeType.ElementNode "div"
        [Node.mk NodeType.TextNode "a" [],
         Node.mk NodeType.ElementNode "br" [],
         Node.mk NodeType.ElementNode "br" [],
         Node.mk NodeType.ElementNode "br" [],
         Node.mk NodeType.ElementNode "br" [],
         Node.mk NodeType.TextNode "b" []]⟩]).Description = "a\n\n\nb" ∧
    '\x1b' ∉ (normalize "a\n\n\n\nb").data ∧
    (∀ line ∈ textLines (normalize "a\n\n\n\nb").data, wrapCost runeWidth line ≤ 80) ∧
    normalize "xxxxxxxxxxxxxxxxxxxxxxxxxxxxxxxxxxxxxxxxxxxxxxxxxxxxxxxxxxxxxxxxxxxxxx•yyyyyyyyyyyyyyyyyyyy" = "xxxxxxxxxxxxxxxxxxxxxxxxxxxxxxxxxxxxxxxxxxxxxxxxxxxxxxxxxxxxxxxxxxxxxx-yyyyyyyyyyyyyyyyyyyy" ∧
    '\x1b' ∉ (normalize "xxxxxxxxxxxxxxxxxxxxxxxxxxxxxxxxxxxxxxxxxxxxxxxxxxxxxxxxxxxxxxxxxxxxxx•yyyyyyyyyyyyyyyyyyyy").data ∧
    ¬ (['\n', '\n', '\n'] <:+: (normalize "xxxxxxxxxxxxxxxxxxxxxxxxxxxxxxxxxxxxxxxxxxxxxxxxxxxxxxxxxxxxxxxxxxxxxx•yyyyyyyyyyyyyyyyyyyy").data) ∧
    normalize (normalize "xxxxxxxxxxxxxxxxxxxxxxxxxxxxxxxxxxxxxxxxxxxxxxxxxxxxxxxxxxxxxxxxxxxxxx•yyyyyyyyyyyyyyyyyyyy") = "xxxxxxxxxxxxxxxxxxxxxxxxxxxxxxxxxxxxxxxxxxxxxxxxxxxxxxxxxxxxxxxxxxxxxx-\nyyyyyyyyyyyyyyyyyyyy" ∧
    normalize "xxxxxxxxxxxxxxxxxxxxxxxxxxxxxxxxxxxxxxxxxxxxxxxxxxxxxxxxxxxx•\x1b\nmyyyyyyyyyyyyyyyyyyyyyyyyyyyyyy" = "xxxxxxxxxxxxxxxxxxxxxxxxxxxxxxxxxxxxxxxxxxxxxxxxxxxxxxxxxxxx-\x1b\nmyyyyyyyyyyyyyyyyyyyyyyyyyyyyyy" ∧
    ¬ (['\n', '\n', '\n'] <:+: (normalize "xxxxxxxxxxxxxxxxxxxxxxxxxxxxxxxxxxxxxxxxxxxxxxxxxxxxxxxxxxxx•\x1b\nmyyyyyyyyyyyyyyyyyyyyyyyyyyyyyy").data) ∧
    (∀ line ∈ textLines (normalize "xxxxxxxxxxxxxxxxxxxxxxxxxxxxxxxxxxxxxxxxxxxxxxxxxxxxxxxxxxxx•\x1b\nmyyyyyyyyyyyyyyyyyyyyyyyyyyyyyy").data, wrapCost runeWidth line ≤ 80) ∧
    normalize (normalize "xxxxxxxxxxxxxxxxxxxxxxxxxxxxxxxxxxxxxxxxxxxxxxxxxxxxxxxxxxxx•\x1b\nmyyyyyyyyyyyyyyyyyyyyyyyyyyyyyy") = "xxxxxxxxxxxxxxxxxxxxxxxxxxxxxxxxxxxxxxxxxxxxxxxxxxxxxxxxxxxx-\n\x1b\nmyyyyyyyyyyyyyyyyyyyyyyyyyyyyyy" := by
  refine ⟨by decide, by decide, by decide, by decide, by decide, by decide, by decide, by decide,
    by decide, by decide, by decide, by decide, by decide, by decide⟩

end Statblock
